import Mathlib

/-!
# Verification of the relib table/store engine

A shallow embedding, in Lean 4, of `src/driftconfig/relib.py`: a lightweight
relational store over JSON-like documents (tables with primary keys, unique
and foreign-key constraints, default values, checksummed serialization to a
named-blob backend, and store-level metadata with change-driven versioning).

Modelling conventions, used throughout:

* JSON values are the inductive `Val`; a row (a Python `dict`) is an
  association list `Row := List (String × Val)` in insertion order.  Python
  dict assignment (`d[k] = v`) replaces the first binding in place or
  appends, which is `alset` below.
* Python exceptions become `Except Err`; mutating methods return their
  post-state next to the outcome, so state mutated before a raise survives
  exactly as in the source.
* `datetime.utcnow()` is modelled by a natural-number clock threaded through
  the operations; each call yields the current tick (as a `Val.num`) and
  advances the clock.  Distinct calls therefore yield distinct timestamps,
  the idealization of a strictly-increasing wall clock.
* `hashlib.sha256(...).hexdigest()` over the bytes written for one table is
  modelled by the injective `digest`, packaging the written documents
  themselves; equal content gives equal checksums and (the collision-free
  idealization) different content gives different checksums.
* `json.dumps`/`json.loads` are modelled as the identity on structured
  values: blobs stored in a backend are `Val` trees (or, for the store
  definition file, the stripped table topology), so serialization is
  injective and parsing is its inverse.
* The external `check_schema` validator is out of scope per the design
  (a black box collaborator); it is modelled as always accepting.
-/

namespace Relib

/-- JSON-like value: the payload type of row fields. -/
inductive Val where
  | str (s : String)
  | num (n : Int)
  | bool (b : Bool)
  | null
  | arr (xs : List Val)
  | obj (fields : List (String × Val))
  deriving Repr, Inhabited

mutual

/-- Decidable equality on values (the nested inductive blocks deriving). -/
def Val.decEq : (a b : Val) → Decidable (a = b)
  | .str a, .str b =>
    if h : a = b then isTrue (by rw [h])
    else isFalse (by intro hh; injection hh with h2; exact h h2)
  | .num a, .num b =>
    if h : a = b then isTrue (by rw [h])
    else isFalse (by intro hh; injection hh with h2; exact h h2)
  | .bool a, .bool b =>
    if h : a = b then isTrue (by rw [h])
    else isFalse (by intro hh; injection hh with h2; exact h h2)
  | .null, .null => isTrue rfl
  | .arr a, .arr b =>
    match Val.decEqList a b with
    | isTrue h => isTrue (by rw [h])
    | isFalse h => isFalse (by intro hh; injection hh with h2; exact h h2)
  | .obj a, .obj b =>
    match Val.decEqFields a b with
    | isTrue h => isTrue (by rw [h])
    | isFalse h => isFalse (by intro hh; injection hh with h2; exact h h2)
  | .str _, .num _ => isFalse (fun h => nomatch h)
  | .str _, .bool _ => isFalse (fun h => nomatch h)
  | .str _, .null => isFalse (fun h => nomatch h)
  | .str _, .arr _ => isFalse (fun h => nomatch h)
  | .str _, .obj _ => isFalse (fun h => nomatch h)
  | .num _, .str _ => isFalse (fun h => nomatch h)
  | .num _, .bool _ => isFalse (fun h => nomatch h)
  | .num _, .null => isFalse (fun h => nomatch h)
  | .num _, .arr _ => isFalse (fun h => nomatch h)
  | .num _, .obj _ => isFalse (fun h => nomatch h)
  | .bool _, .str _ => isFalse (fun h => nomatch h)
  | .bool _, .num _ => isFalse (fun h => nomatch h)
  | .bool _, .null => isFalse (fun h => nomatch h)
  | .bool _, .arr _ => isFalse (fun h => nomatch h)
  | .bool _, .obj _ => isFalse (fun h => nomatch h)
  | .null, .str _ => isFalse (fun h => nomatch h)
  | .null, .num _ => isFalse (fun h => nomatch h)
  | .null, .bool _ => isFalse (fun h => nomatch h)
  | .null, .arr _ => isFalse (fun h => nomatch h)
  | .null, .obj _ => isFalse (fun h => nomatch h)
  | .arr _, .str _ => isFalse (fun h => nomatch h)
  | .arr _, .num _ => isFalse (fun h => nomatch h)
  | .arr _, .bool _ => isFalse (fun h => nomatch h)
  | .arr _, .null => isFalse (fun h => nomatch h)
  | .arr _, .obj _ => isFalse (fun h => nomatch h)
  | .obj _, .str _ => isFalse (fun h => nomatch h)
  | .obj _, .num _ => isFalse (fun h => nomatch h)
  | .obj _, .bool _ => isFalse (fun h => nomatch h)
  | .obj _, .null => isFalse (fun h => nomatch h)
  | .obj _, .arr _ => isFalse (fun h => nomatch h)

def Val.decEqList : (a b : List Val) → Decidable (a = b)
  | [], [] => isTrue rfl
  | [], _ :: _ => isFalse (fun h => nomatch h)
  | _ :: _, [] => isFalse (fun h => nomatch h)
  | x :: xs, y :: ys =>
    match Val.decEq x y, Val.decEqList xs ys with
    | isTrue h1, isTrue h2 => isTrue (by rw [h1, h2])
    | isFalse h1, _ => isFalse (by intro hh; injection hh with ha hb; exact h1 ha)
    | _, isFalse h2 => isFalse (by intro hh; injection hh with ha hb; exact h2 hb)

def Val.decEqFields : (a b : List (String × Val)) → Decidable (a = b)
  | [], [] => isTrue rfl
  | [], _ :: _ => isFalse (fun h => nomatch h)
  | _ :: _, [] => isFalse (fun h => nomatch h)
  | (k1, v1) :: xs, (k2, v2) :: ys =>
    if hk : k1 = k2 then
      match Val.decEq v1 v2, Val.decEqFields xs ys with
      | isTrue h1, isTrue h2 => isTrue (by rw [hk, h1, h2])
      | isFalse h1, _ => isFalse (by
          intro hh; injection hh with ha hb
          injection ha with ha1 ha2; exact h1 ha2)
      | _, isFalse h2 => isFalse (by intro hh; injection hh with ha hb; exact h2 hb)
    else isFalse (by
      intro hh; injection hh with ha hb
      injection ha with ha1 ha2; exact hk ha1)

end

instance : DecidableEq Val := Val.decEq

instance {ε α : Type} [DecidableEq ε] [DecidableEq α] :
    DecidableEq (Except ε α) := fun a b =>
  match a, b with
  | .ok x, .ok y =>
    if h : x = y then isTrue (by rw [h])
    else isFalse (by intro hh; injection hh; contradiction)
  | .error x, .error y =>
    if h : x = y then isTrue (by rw [h])
    else isFalse (by intro hh; injection hh; contradiction)
  | .ok _, .error _ => isFalse (fun h => nomatch h)
  | .error _, .ok _ => isFalse (fun h => nomatch h)

/-- A row: field-name/value pairs in insertion order (a Python dict). -/
abbrev Row := List (String × Val)

/-- Dict lookup: first binding for `k`, if any (`d.get(k)` / `d[k]`). -/
def alget {α : Type} (l : List (String × α)) (k : String) : Option α :=
  match l.find? (fun p => p.1 = k) with
  | some p => some p.2
  | none => none

/-- Dict membership (`k in d`). -/
def alHas {α : Type} (l : List (String × α)) (k : String) : Bool :=
  (alget l k).isSome

/-- Dict assignment (`d[k] = v`): replace the first binding in place, or
append a new one. -/
def alset {α : Type} (l : List (String × α)) (k : String) (v : α) :
    List (String × α) :=
  match l with
  | [] => [(k, v)]
  | (k', v') :: rest =>
    if k' = k then (k', v) :: rest else (k', v') :: alset rest k v

/-- Dict bulk update (`d.update(other)`): assign every binding of `other`
in order. -/
def alupdate {α : Type} (l other : List (String × α)) : List (String × α) :=
  other.foldl (fun acc p => alset acc p.1 p.2) l

mutual

/-- Python `repr` of a value (used by `str` on containers). -/
def Val.pyRepr : Val → String
  | .str s => "'" ++ s ++ "'"
  | .num n => toString n
  | .bool b => if b then "True" else "False"
  | .null => "None"
  | .arr xs => "[" ++ Val.pyReprList xs ++ "]"
  | .obj fields => "\x7b" ++ Val.pyReprFields fields ++ "\x7d"

/-- Comma-joined reprs of a list's elements. -/
def Val.pyReprList : List Val → String
  | [] => ""
  | [x] => x.pyRepr
  | x :: xs => x.pyRepr ++ ", " ++ Val.pyReprList xs

/-- Comma-joined reprs of a dict's items. -/
def Val.pyReprFields : List (String × Val) → String
  | [] => ""
  | [(k, v)] => "'" ++ k ++ "': " ++ v.pyRepr
  | (k, v) :: xs => "'" ++ k ++ "': " ++ v.pyRepr ++ ", " ++ Val.pyReprFields xs

end

/-- Python `str()` of a value, as used when canonicalizing key fields. -/
def Val.pyStr : Val → String
  | .str s => s
  | v => v.pyRepr

/-! ## Regular-expression patterns

The source anchors both patterns with `^...$`.  In Python's `re`, `$` also
matches just before a single newline at the very end of the string, so a
candidate is accepted exactly when, after discarding one trailing newline if
present, every remaining character lies in the class and the length is
between 1 and 50. -/

/-- Strip one trailing newline, the way Python's `$` anchor tolerates it. -/
def stripDollarNl (cs : List Char) : List Char :=
  if cs.getLast? = some '\n' then cs.dropLast else cs

/-- Character class of `TABLENAME_REGEX`, `[a-z\d.-]`. -/
def tablenameChar (c : Char) : Bool :=
  ('a' ≤ c && c ≤ 'z') || c.isDigit || c = '.' || c = '-'

/-- `TABLENAME_REGEX = ^([a-z\d.-]){1,50}$` as a whole-string match. -/
def matchesTablename (s : String) : Bool :=
  let t := stripDollarNl s.data
  1 ≤ t.length && t.length ≤ 50 && t.all tablenameChar

/-- Character class of `PK_FIELDNAME_REGEX`, `[\w\d.-]` (ASCII `\w`). -/
def pkChar (c : Char) : Bool :=
  c.isAlpha || c.isDigit || c = '_' || c = '.' || c = '-'

/-- `PK_FIELDNAME_REGEX = ^([\w\d.-]){1,50}$` as a whole-string match. -/
def matchesPk (s : String) : Bool :=
  let t := stripDollarNl s.data
  1 ≤ t.length && t.length ≤ 50 && t.all pkChar

/-- `table_name.startswith('#')`. -/
def startsWithHash (s : String) : Bool :=
  s.data.head? = some '#'

/-- `s.split(',')` (`''.split(',')` is `['']`, like Python). -/
def splitCommaAux : List Char → List Char → List String
  | [], acc => [String.mk acc.reverse]
  | c :: rest, acc =>
    if c = ',' then String.mk acc.reverse :: splitCommaAux rest []
    else splitCommaAux rest (c :: acc)

/-- Comma-split of a field list declaration. -/
def splitComma (s : String) : List String :=
  splitCommaAux s.data []

/-- Bytewise (codepoint) string comparison, as Python compares `str`. -/
def charListLe : List Char → List Char → Bool
  | [], _ => true
  | _ :: _, [] => false
  | a :: as, b :: bs => if a = b then charListLe as bs else decide (a < b)

/-- `a <= b` on strings. -/
def strLe (a b : String) : Bool :=
  charListLe a.data b.data

/-! ## Errors

Python exception classes, by kind; the formatted messages are elided. -/

/-- The exceptions the engine can raise. -/
inductive Err where
  /-- `TableError` (a `RelibError`): bad declarations, missing key fields,
  unresolved relationships. -/
  | tableErr
  /-- `ConstraintError` (a `TableError`): violated primary-key, unique or
  foreign-key constraints, and a canonical key that fails the pattern. -/
  | constraintErr
  /-- Python `KeyError`: a missing dict key or unknown table name. -/
  | keyErr
  /-- Python `TypeError`: subscripting `None`, updating from a non-dict, … -/
  | typeErr
  /-- Python `AttributeError`: calling a method an object does not have
  (`dict.add` in `SingleRowTable.add`). -/
  | attributeErr
  /-- Unreachable defensive cases of the model. -/
  | runtimeErr
  deriving Repr, DecidableEq, Inhabited

/-! ## Constraints and tables -/

/-- A constraint record: the dicts appended to `Table._constraints`.
Field-name lists are stored sorted, as the source sorts them on entry
(`add_primary_key` keeps `_pk_fields` unsorted separately). -/
inductive Constraint where
  | primaryKey (fields : List String)
  | unique (fields : List String)
  | foreignKey (foreignKeyFields : List String) (table : String)
      (aliasKeyFields : List String)
  deriving Repr, DecidableEq, Inhabited

/-- `Table` (and its `SingleRowTable` subclass, distinguished by the
`isSingleRow` class tag, mirroring the `class` tag the definition codec
records).  `rows` is the canonical-key → row dict. -/
structure Table where
  name : String
  rows : List (String × Row) := []
  schema : Val := .obj []
  defaultValues : Row := []
  pkFields : List String := []
  constraints : List Constraint := []
  groupByFields : Option (List String) := none
  subfolder : Option String := none
  isSystemTable : Bool := false
  isSingleRow : Bool := false
  deriving Repr, DecidableEq, Inhabited

/-- Truthiness of `self._group_by_fields` (`None` and `[]` are falsy). -/
def Table.hasGroupBy (t : Table) : Bool :=
  match t.groupByFields with
  | none => false
  | some l => !l.isEmpty

/-- `SingleRowTable.get`: the first row value if any (`self._rows.values()[0]`). -/
def Table.getSingle (t : Table) : Option Row :=
  t.rows.head?.map (·.2)

/-- `Table._canonicalize_key`.  `SingleRowTable` overrides it to return the
empty string unconditionally. -/
def Table.canonicalizeKey (t : Table) (primaryKey : Row)
    (useGroupBy : Bool := false) : Except Err String :=
  if t.isSingleRow then .ok "" else do
  let fields ← if useGroupBy then
      match t.groupByFields with
      | none => .error Err.typeErr   -- `set(None)` would raise TypeError
      | some f => pure f
    else pure t.pkFields
  if !(fields.all (fun k => alHas primaryKey k)) then
    .error Err.tableErr   -- "can't make primary key, need … but got …"
  else
    let canonicalized := String.intercalate "."
      (fields.filterMap (fun k => (alget primaryKey k).map Val.pyStr))
    if !matchesPk canonicalized then
      .error Err.constraintErr   -- "primary key value didn't match pattern"
    else
      .ok canonicalized

/-- `Table.find`: all rows matching every field of the criteria exactly;
`None` criteria returns all rows. -/
def Table.find (t : Table) (searchCriteria : Option Row) : List Row :=
  match searchCriteria with
  | none => t.rows.map (·.2)
  | some sc =>
    (t.rows.map (·.2)).filter
      (fun row => sc.all (fun p => decide (alget row p.1 = some p.2)))

/-- `Table.get`: canonicalize and look up.  `SingleRowTable.get` takes no
key argument, so calling it with one raises `TypeError`. -/
def Table.get (t : Table) (primaryKey : Row) : Except Err (Option Row) :=
  if t.isSingleRow then .error .typeErr
  else (t.canonicalizeKey primaryKey).map (fun k => alget t.rows k)

/-- Remove the first binding of `k` (`del d[k]`, key known present). -/
def alremove {α : Type} (l : List (String × α)) (k : String) :
    List (String × α) :=
  match l with
  | [] => []
  | (k', v') :: rest =>
    if k' = k then rest else (k', v') :: alremove rest k

/-- `Table.remove`: delete by canonical key; `KeyError` if absent. -/
def Table.remove (t : Table) (primaryKey : Row) : Table × Except Err Unit :=
  match t.canonicalizeKey primaryKey with
  | .error e => (t, .error e)
  | .ok k =>
    if alHas t.rows k then ({ t with rows := alremove t.rows k }, .ok ())
    else (t, .error .keyErr)

/-- `TableStore`: the ordered table collection.  The sandbox-global
`datetime.utcnow` clock is threaded beside stores rather than stored. -/
structure TableStore where
  tables : List (String × Table) := []
  tableorder : List String := []
  origin : String := "clean"
  deriving Repr, DecidableEq, Inhabited

/-- `TableStore.get_table`, as an option. -/
def TableStore.getTable? (s : TableStore) (tableName : String) : Option Table :=
  alget s.tables tableName

/-- Replace (or register) the binding of one table. -/
def TableStore.setTable (s : TableStore) (tableName : String) (t : Table) :
    TableStore :=
  { s with tables := alset s.tables tableName t }

/-- First declared `foreign_key` constraint to `target`, optionally pinned
to specific (sorted) foreign-key fields: the loop in `get_foreign_row`. -/
def findFK (cs : List Constraint) (target : String)
    (fields : Option (List String)) : Option (List String × List String) :=
  match cs with
  | [] => none
  | .foreignKey fkF tbl aliasF :: rest =>
    if tbl = target ∧ (fields = none ∨ fields = some fkF) then some (fkF, aliasF)
    else findFK rest target fields
  | _ :: rest => findFK rest target fields

/-- The loop of the comprehension
`{k2: row[k1] for k1, k2 in zip(fk_fields, alias_fields)}`. -/
def fkCriteriaAux (row? : Option Row) :
    List (String × String) → Row → Except Err Row
  | [], acc => .ok acc
  | p :: rest, acc =>
    match row? with
    | none => .error Err.typeErr          -- None[k1]
    | some row =>
      match alget row p.1 with
      | none => .error Err.keyErr         -- row[k1] missing
      | some v => fkCriteriaAux row? rest (alset acc p.2 v)

/-- `search_criteria = {k2: row[k1] for k1, k2 in zip(fk_fields, alias_fields)}`,
translating the local fields of the (possibly `None`) row into the target
table's field names. -/
def fkCriteria (row? : Option Row) (fkF aliasF : List String) :
    Except Err Row :=
  fkCriteriaAux row? (fkF.zip aliasF) []

/-- `Table.get_foreign_row`: fetch the rows of `tableName` referenced by
this table's row through the first matching foreign-key constraint. -/
def TableStore.getForeignRow (s : TableStore) (t : Table)
    (primaryKey : Option Row) (tableName : String)
    (foreignKeyFields : Option (List String) := none)
    (theRow : Option Row := none) : Except Err (List Row) := do
  -- row = _row or self.get(primary_key)   (a falsy _row falls through)
  let row? : Option Row ←
    match theRow with
    | some r =>
      if r.isEmpty then
        match primaryKey with
        | none =>
          if t.isSingleRow then .error Err.typeErr else .error Err.attributeErr
        | some pk => t.get pk
      else pure (some r)
    | none =>
      match primaryKey with
      | none =>
        if t.isSingleRow then .error Err.typeErr else .error Err.attributeErr
      | some pk => t.get pk
  match findFK t.constraints tableName foreignKeyFields with
  | none => .error Err.tableErr   -- "no foreign key relationship found"
  | some (fkF, aliasF) =>
    let foreignTable ←
      match s.getTable? tableName with
      | none => .error Err.keyErr
      | some ft => pure ft
    let criteria ← fkCriteria row? fkF aliasF
    pure (foreignTable.find (some criteria))

/-- The loop of `{k: row[k] for k in c['fields']}`: the duplicate-search
criteria of a unique constraint. -/
def uniqueCriteria (row : Row) : List String → Row → Except Err Row
  | [], acc => .ok acc
  | k :: rest, acc =>
    match alget row k with
    | none => .error Err.keyErr   -- unreachable: the subset check precedes
    | some v => uniqueCriteria row rest (alset acc k v)

/-- The constraint loop of `Table._check_row`, one constraint at a time in
declaration order. -/
def TableStore.checkConstraints (s : TableStore) (t : Table) (row : Row) :
    List Constraint → Except Err Unit
  | [] => .ok ()
  | c :: rest => do
    match c with
    | .primaryKey fields =>
      if !(fields.all (fun k => alHas row k)) then .error Err.constraintErr
      else TableStore.checkConstraints s t row rest
    | .unique fields =>
      if !(fields.all (fun k => alHas row k)) then .error Err.constraintErr
      else do
        let criteria ← uniqueCriteria row fields []
        if (t.find (some criteria)).length ≠ 0 then .error Err.constraintErr
        else TableStore.checkConstraints s t row rest
    | .foreignKey fkF target _aliasF =>
      if fkF.all (fun k => alHas row k) then do
        let foreignRows ← s.getForeignRow t none target (some fkF) (some row)
        if foreignRows.length < 1 then .error Err.constraintErr
        else TableStore.checkConstraints s t row rest
      else TableStore.checkConstraints s t row rest

/-- `Table._check_row`: constraints, then the external schema check (a
black box modelled as accepting), then the primary-key collision check;
returns the canonical key. -/
def TableStore.checkRow (s : TableStore) (t : Table) (row : Row) :
    Except Err String := do
  TableStore.checkConstraints s t row t.constraints
  -- check_schema(row, self._schema, ...): external validator, accepts
  let rowKey ← t.canonicalizeKey row
  if alHas t.rows rowKey then .error Err.constraintErr
  else pure rowKey

/-- `Table._get_default_values`: deep copy of the default map with dynamic
`@@utcnow` markers resolved against the clock (one tick per marker);
unknown `@@` markers pass through with only a logged warning. -/
def resolveDefaults (d : Row) (clock : Nat) : Row × Nat :=
  match d with
  | [] => ([], clock)
  | (k, v) :: rest =>
    let (v', c') :=
      match v with
      | .str s => if s = "@@utcnow" then (Val.num clock, clock + 1) else (.str s, clock)
      | w => (w, clock)
    let (rest', c'') := resolveDefaults rest c'
    ((k, v') :: rest', c'')

/-- `Table.add` for a plain table: merge defaults under the caller's
fields, validate, and insert unless `check_only`. -/
def TableStore.tableAdd (s : TableStore) (t : Table) (row : Row)
    (checkOnly : Bool) (clock : Nat) : Table × Nat × Except Err Row :=
  let (defaults, c1) := resolveDefaults t.defaultValues clock
  let merged := alupdate defaults row
  match TableStore.checkRow s t merged with
  | .error e => (t, c1, .error e)
  | .ok rowKey =>
    (if checkOnly then t else { t with rows := alset t.rows rowKey merged },
     c1, .ok merged)

/-- `SingleRowTable.add`: clear the singleton, delegate to `Table.add`, and
on the `check_only` path hit `self._rows.add(tmp)` in the `finally`
block — a method dicts do not have, so an `AttributeError` escapes with the
rows left cleared. -/
def TableStore.singleRowAdd (s : TableStore) (t : Table) (row : Row)
    (checkOnly : Bool) (clock : Nat) : Table × Nat × Except Err Row :=
  let cleared := { t with rows := [] }
  -- `self` is the same object inside the store, so foreign-key lookups
  -- during validation see the cleared rows.
  let ctx := if (alget s.tables t.name).isSome then s.setTable t.name cleared else s
  let (t1, c1, res) := TableStore.tableAdd ctx cleared row checkOnly clock
  if checkOnly then (t1, c1, .error .attributeErr) else (t1, c1, res)

/-- `TableStore`-mediated `add` on a registered table (dispatching on the
table's class tag), mirroring the back-reference `self._table_store`. -/
def TableStore.storeAdd (s : TableStore) (tableName : String) (row : Row)
    (checkOnly : Bool) (clock : Nat) : TableStore × Nat × Except Err Row :=
  match alget s.tables tableName with
  | none => (s, clock, .error .keyErr)
  | some t =>
    let (t', c', res) :=
      if t.isSingleRow then TableStore.singleRowAdd s t row checkOnly clock
      else TableStore.tableAdd s t row checkOnly clock
    (s.setTable tableName t', c', res)

/-- Insertion sort on strings — `sorted` as the source uses it. -/
def insertSorted (x : String) : List String → List String
  | [] => [x]
  | y :: ys => if strLe x y then x :: y :: ys else y :: insertSorted x ys

/-- `sorted(list_of_strings)`. -/
def sortStrings : List String → List String
  | [] => []
  | x :: xs => insertSorted x (sortStrings xs)

/-- `Table.__init__`: validate the name (a `#`-prefixed system name skips
the pattern), then, for `SingleRowTable.__init__`, seed the one row via
`self.add({})`. -/
def Table.init (tableName : String) (isSingleRow : Bool := false) :
    Except Err Table :=
  if !startsWithHash tableName && !matchesTablename tableName then
    .error .tableErr
  else
    let base : Table := { name := tableName, isSingleRow := isSingleRow }
    if isSingleRow then
      let (t', _, res) := TableStore.singleRowAdd {} base [] false 0
      match res with
      | .ok _ => .ok t'
      | .error e => .error e
    else .ok base

/-- `Table.add_primary_key`: split the comma-separated field names, keep
their declared order as `_pk_fields`, and record a sorted, deduplicated
`primary_key` constraint. -/
def Table.addPrimaryKey (t : Table) (primaryKeyFields : String) : Table :=
  let pk := splitComma primaryKeyFields
  let c : Constraint := .primaryKey (sortStrings pk)
  { t with
    pkFields := pk
    constraints :=
      if t.constraints.contains c then t.constraints else t.constraints ++ [c] }

/-- `Table.add_unique_constraint`. -/
def Table.addUniqueConstraint (t : Table) (uniqueKeyFields : String) : Table :=
  { t with
    constraints :=
      t.constraints ++ [.unique (sortStrings (splitComma uniqueKeyFields))] }

/-- `alias_key_fields = alias_key_fields or foreign_key_fields` (a falsy —
absent or empty — alias falls back to the foreign-key fields). -/
def resolveAliasCsv (foreignKeyFields : String)
    (aliasKeyFields : Option String) : String :=
  match aliasKeyFields with
  | some a => if a.isEmpty then foreignKeyFields else a
  | none => foreignKeyFields

/-- `Table.add_foreign_key`: the target table must currently declare a
`primary_key` or `unique` constraint over exactly the (sorted) alias
fields, else the declaration itself fails and nothing is recorded. -/
def TableStore.addForeignKey (s : TableStore) (t : Table)
    (foreignKeyFields : String) (tableName : String)
    (aliasKeyFields : Option String := none) : Table × Except Err Unit :=
  let sortedAlias := sortStrings (splitComma (resolveAliasCsv foreignKeyFields aliasKeyFields))
  let c : Constraint :=
    .foreignKey (sortStrings (splitComma foreignKeyFields)) tableName sortedAlias
  match alget s.tables tableName with
  | none => (t, .error .keyErr)
  | some ft =>
    if ft.constraints.any (fun fc =>
        match fc with
        | .primaryKey fields => decide (fields = sortedAlias)
        | .unique fields => decide (fields = sortedAlias)
        | _ => false) then
      ({ t with constraints := t.constraints ++ [c] }, .ok ())
    else (t, .error .constraintErr)

/-- `Table.add_schema`. -/
def Table.addSchema (t : Table) (schema : Val) : Table :=
  { t with schema := schema }

/-- `Table.set_subfolder_name`. -/
def Table.setSubfolderName (t : Table) (subfolderName : String) : Table :=
  { t with subfolder := some subfolderName }

/-- `Table.set_row_as_file`: group rows into separate files, by the given
primary-key subset or by the full primary key.  Illegal on a
`SingleRowTable`. -/
def Table.setRowAsFile (t : Table) (subfolderName : Option String := none)
    (groupBy : Option String := none) : Table × Except Err Unit :=
  if t.isSingleRow then (t, .error .tableErr)
  else
    match groupBy with
    | some g =>
      if !g.isEmpty then
        let gb := splitComma g
        if !(gb.all (fun f => t.pkFields.contains f)) then (t, .error .tableErr)
        else ({ t with groupByFields := some gb, subfolder := subfolderName }, .ok ())
      else ({ t with groupByFields := some t.pkFields, subfolder := subfolderName }, .ok ())
    | none => ({ t with groupByFields := some t.pkFields, subfolder := subfolderName }, .ok ())

/-- `Table.add_default_values` (a deep copy of the argument). -/
def Table.addDefaultValues (t : Table) (defaultValues : Row) : Table :=
  { t with defaultValues := defaultValues }

/-- `SingleRowTable.add_default_values`: record the defaults, then re-add
the empty row so the singleton reflects them. -/
def TableStore.singleRowAddDefaultValues (s : TableStore) (t : Table)
    (defaultValues : Row) (clock : Nat) : Table × Nat × Except Err Row :=
  TableStore.singleRowAdd s { t with defaultValues := defaultValues } [] false clock

/-! ## Serialization

A backend stores named blobs.  Blobs carry structured values instead of
their JSON text (`json.dumps`/`loads` are injective printing and its
inverse), and the store-definition file carries the stripped topology the
`TableStoreEncoder` would emit (rows and the store back-reference removed). -/

/-- A persisted blob. -/
inductive Blob where
  /-- A JSON document: a table file, a row/group file, or an index file. -/
  | val (v : Val)
  /-- The `#tsdef.json` topology: `_tables` (rows stripped), `_tableorder`,
  `_origin`. -/
  | defn (tables : List (String × Table)) (tableorder : List String)
      (origin : String)
  deriving Repr, DecidableEq, Inhabited

/-- A backend: its named-blob store (`start_batch`/`commit_batch` carry no
observable state in the source's base class). -/
abbrev Backend := List (String × Blob)

/-- The per-table content checksum: `sha256` over every byte written for
the table, in write order, modelled injectively by packaging the written
documents themselves. -/
def digest (written : List Val) : Val :=
  Val.arr written

/-- Insertion sort of row entries by canonical key: `sorted(self._rows)`
followed by indexing (keys are distinct in a dict). -/
def insertRowSorted (x : String × Row) : List (String × Row) →
    List (String × Row)
  | [] => [x]
  | y :: ys => if strLe x.1 y.1 then x :: y :: ys else y :: insertRowSorted x ys

/-- Sort the row dict's entries by key. -/
def sortRowsByKey : List (String × Row) → List (String × Row)
  | [] => []
  | x :: xs => insertRowSorted x (sortRowsByKey xs)

/-- `Table.get_filename`: `<subfolder/>?<"#."-if-index><name>(.<key>)?.json`. -/
def Table.getFilename (t : Table) (row : Option Row := none)
    (isIndexFile : Bool := false) : Except Err String := do
  if t.hasGroupBy && decide (row = none) && !isIndexFile then .error Err.tableErr
  else
    -- `if row and self._group_by_fields is None:` (`row` by truthiness)
    let rowTruthy := match row with | some r => !r.isEmpty | none => false
    if rowTruthy && decide (t.groupByFields = none) then .error Err.tableErr
    else
      let base := if isIndexFile then "#." ++ t.name else t.name
      let base :=
        match t.subfolder with
        | some sf => if !sf.isEmpty then sf ++ "/" ++ base else base
        | none => base
      let base ←
        if rowTruthy then do
          let k ← t.canonicalizeKey (row.getD []) true
          pure (base ++ "." ++ k)
        else pure base
      pure (base ++ ".json")

/-- `orderly_row`: primary-key fields first, in declared order, then the
remaining fields in their original order. -/
def Table.orderlyRow (t : Table) (row : Row) : Except Err Row := do
  let d ← t.pkFields.foldlM
    (fun (acc : Row) k =>
      match alget row k with
      | none => .error Err.keyErr   -- row[pk_field]
      | some v => pure (alset acc k v)) ([] : Row)
  pure (alupdate d row)

/-- `group.setdefault(key, []).append(row)` over an association of
row groups. -/
def algroupAppend (l : List (String × List Row)) (k : String) (r : Row) :
    List (String × List Row) :=
  match l with
  | [] => [(k, [r])]
  | (k', rs) :: rest =>
    if k' = k then (k', rs ++ [r]) :: rest
    else (k', rs) :: algroupAppend rest k r

/-- `{k: row[k] for k in self._pk_fields}`: the index entry of one row. -/
def Table.pkProjection (t : Table) (row : Row) : Except Err Row :=
  t.pkFields.foldlM
    (fun (acc : Row) k =>
      match alget row k with
      | none => .error Err.keyErr
      | some v => pure (alset acc k v)) ([] : Row)

/-- `_save_table_data` (with `SingleRowTable`'s override): the files
written, in write order, and the accumulated content checksum. -/
def Table.saveTableData (t : Table) :
    Except Err (List (String × Val) × Val) := do
  if t.isSingleRow then
    -- SingleRowTable._save_table_data: the document itself
    let doc := t.getSingle.getD []
    let data := Val.obj doc
    let fn ← t.getFilename none false
    pure ([(fn, data)], digest [data])
  else
    let rows := (sortRowsByKey t.rows).map (·.2)
    if t.hasGroupBy then
      let gb := t.groupByFields.getD []
      let files ←
        if gb = t.pkFields then
          -- row_per_file: one file per row
          rows.mapM (fun row => do
            let fn ← t.getFilename (some row) false
            let orow ← t.orderlyRow row
            pure (fn, Val.obj orow))
        else do
          -- group one or more rows together per file
          let groups ← rows.foldlM
            (fun (acc : List (String × List Row)) row => do
              let key ← t.canonicalizeKey row true
              let orow ← t.orderlyRow row
              pure (algroupAppend acc key orow)) []
          groups.mapM (fun g => do
            let fn ← t.getFilename (some (g.2.head?.getD [])) false
            pure (fn, Val.arr (g.2.map Val.obj)))
      -- index so the table can be read back automatically
      let index ← rows.mapM t.pkProjection
      let idxFn ← t.getFilename none true
      let files := files ++ [(idxFn, Val.arr (index.map Val.obj))]
      pure (files, digest (files.map (·.2)))
    else
      -- all rows as one list document
      let orows ← rows.mapM t.orderlyRow
      let fn ← t.getFilename none false
      let data := Val.arr (orows.map Val.obj)
      pure ([(fn, data)], digest [data])

/-! ## Store metadata -/

/-- `TableStore.meta.get()`: the metadata row.  A missing `#tsmeta` table
raises `KeyError`; a rowless one yields `None`, whose later subscripting
raises `TypeError`. -/
def TableStore.metaRow (s : TableStore) : Except Err Row :=
  match s.getTable? "#tsmeta" with
  | none => .error .keyErr
  | some mt =>
    match mt.getSingle with
    | none => .error .typeErr
    | some m => pure m

/-- Write the (mutated-in-place) metadata row back into the store. -/
def TableStore.setMetaRow (s : TableStore) (m : Row) : TableStore :=
  match s.getTable? "#tsmeta" with
  | none => s   -- unreachable once metaRow has succeeded
  | some mt =>
    s.setTable "#tsmeta"
      { mt with
        rows :=
          match mt.rows with
          | [] => [("", m)]   -- unreachable likewise
          | (k, _) :: rest => (k, m) :: rest }

/-- Scan `meta['tables']` for the record of `name`
(`table_meta['table_name'] == table_name`). -/
def findRec (recs : List Val) (name : String) : Except Err (Option Row) :=
  match recs with
  | [] => pure none
  | .obj fields :: rest =>
    match alget fields "table_name" with
    | none => .error .keyErr
    | some v =>
      if v = .str name then pure (some fields) else findRec rest name
  | _ :: _ => .error .typeErr   -- subscripting a non-dict record

/-- `TableStore.get_table_metadata`: the existing record, or a zeroed one
appended to `meta['tables']`; returns the record and the updated meta row. -/
def getTableMetadata (m : Row) (name : String) : Except Err (Row × Row) := do
  let tablesVal ←
    match alget m "tables" with
    | none => .error Err.keyErr
    | some v => pure v
  let recs ←
    match tablesVal with
    | .arr recs => pure recs
    | _ => .error Err.typeErr   -- iterating a non-list
  match ← findRec recs name with
  | some rec => pure (rec, m)
  | none =>
    let newRec : Row :=
      [("table_name", .str name), ("md5", .str ""), ("last_modified", .str "")]
    pure (newRec, alset m "tables" (.arr (recs ++ [.obj newRec])))

/-- Rewrite the first record of `name` inside a record list. -/
def updateRecs (recs : List Val) (name : String) (f : Row → Row) : List Val :=
  match recs with
  | [] => []
  | .obj fields :: rest =>
    if alget fields "table_name" = some (.str name) then .obj (f fields) :: rest
    else .obj fields :: updateRecs rest name f
  | v :: rest => v :: updateRecs rest name f

/-- Apply `f` to the record list held under `meta['tables']`. -/
def mapTablesArr (m : Row) (f : List Val → List Val) : Row :=
  match alget m "tables" with
  | some (.arr recs) => alset m "tables" (.arr (f recs))
  | _ => m   -- unreachable when getTableMetadata succeeded

/-- `Table.save`: write the table's data through the backend, then compare
the fresh checksum with the recorded one and stamp `last_modified` on the
record (and, for user tables, on the store) when it changed. -/
def TableStore.tableSave (s : TableStore) (t : Table) (b : Backend)
    (clock : Nat) : TableStore × Backend × Nat × Except Err Unit :=
  match t.saveTableData with
  | .error e => (s, b, clock, .error e)
  | .ok (files, cs) =>
    let b' := files.foldl (fun bb p => alset bb p.1 (Blob.val p.2)) b
    match s.metaRow with
    | .error e => (s, b', clock, .error e)
    | .ok m =>
      match getTableMetadata m t.name with
      | .error e => (s, b', clock, .error e)
      | .ok (rec, m1) =>
        -- the record append (if any) is already visible through the alias
        let s1 := s.setMetaRow m1
        match alget rec "md5" with
        | none => (s1, b', clock, .error .keyErr)
        | some md5v =>
          if md5v = cs then (s1, b', clock, .ok ())
          else
            let m2 := mapTablesArr m1 (fun recs =>
              updateRecs recs t.name (fun r =>
                alset (alset r "md5" cs) "last_modified" (.num clock)))
            if t.isSystemTable then (s.setMetaRow m2, b', clock + 1, .ok ())
            else
              -- update table store timestamp for user tables
              let m3 := alset m2 "last_modified" (.num (clock + 1))
              (s.setMetaRow m3, b', clock + 2, .ok ())

/-- Save the named tables in order, reading each from the store so the
metadata table sees its own earlier mutations. -/
def TableStore.saveList :
    List String → TableStore → Backend → Nat →
      TableStore × Backend × Nat × Except Err Unit
  | [], s, b, c => (s, b, c, .ok ())
  | n :: rest, s, b, c =>
    match s.getTable? n with
    | none => (s, b, c, .error .runtimeErr)   -- names snapshot from s itself
    | some t =>
      match s.tableSave t b c with
      | (s', b', c', .error e) => (s', b', c', .error e)
      | (s', b', c', .ok ()) => TableStore.saveList rest s' b' c'

/-- `TableStore.get_definition`: records the current table order on the
store, then emits the topology with rows and back-references stripped. -/
def TableStore.getDefinition (s : TableStore) : TableStore × Blob :=
  let s1 := { s with tableorder := s.tables.map (·.1) }
  (s1,
   .defn (s1.tables.map (fun p => (p.1, { p.2 with rows := [] })))
     s1.tableorder s1.origin)

/-- `TableStore.save_to_backend`: definition first, then user tables, then
the version bump when any user table moved `last_modified`, then system
tables, inside one backend batch. -/
def TableStore.saveToBackend (s : TableStore) (b : Backend) (clock : Nat) :
    TableStore × Backend × Nat × Except Err Unit :=
  let (s1, defBlob) := s.getDefinition
  let b1 := alset b "#tsdef.json" defBlob
  match s1.metaRow with
  | .error e => (s1, b1, clock, .error e)
  | .ok m =>
    match alget m "last_modified" with
    | none => (s1, b1, clock, .error .keyErr)
    | some lastModified =>
      let userNames := (s1.tables.filter (fun p => !p.2.isSystemTable)).map (·.1)
      let sysNames := (s1.tables.filter (fun p => p.2.isSystemTable)).map (·.1)
      match TableStore.saveList userNames s1 b1 clock with
      | (s2, b2, c2, .error e) => (s2, b2, c2, .error e)
      | (s2, b2, c2, .ok ()) =>
        match s2.metaRow with
        | .error e => (s2, b2, c2, .error e)
        | .ok m2 =>
          match alget m2 "last_modified" with
          | none => (s2, b2, c2, .error .keyErr)
          | some lastModified2 =>
            -- if something changed, bump the version
            let bumped : TableStore × Except Err Unit :=
              if lastModified2 ≠ lastModified then
                match alget m2 "version" with
                | some (.num v) =>
                  (s2.setMetaRow (alset m2 "version" (.num (v + 1))), .ok ())
                | some _ => (s2, .error .typeErr)   -- `+= 1` on a non-integer
                | none => (s2, .error .keyErr)
              else (s2, .ok ())
            match bumped with
            | (s3, .error e) => (s3, b2, c2, .error e)
            | (s3, .ok ()) => TableStore.saveList sysNames s3 b2 c2

/-! ## Loading -/

/-- `backend.load_data(file_name)`: a missing blob fails. -/
def backendLoad (b : Backend) (fn : String) : Except Err Blob :=
  match alget b fn with
  | none => .error .keyErr
  | some blob => pure blob

/-- Load a JSON document (not the definition blob). -/
def backendLoadVal (b : Backend) (fn : String) : Except Err Val := do
  match ← backendLoad b fn with
  | .val v => pure v
  | _ => .error Err.typeErr

/-- `self.add(row)` for every document in a loaded list, in order. -/
def TableStore.addRows (s : TableStore) (name : String) :
    List Val → Nat → TableStore × Nat × Except Err Unit
  | [], c => (s, c, .ok ())
  | v :: rest, c =>
    match v with
    | .obj fields =>
      match s.storeAdd name fields false c with
      | (s', c', .error e) => (s', c', .error e)
      | (s', c', .ok _) => TableStore.addRows s' name rest c'
    | _ => (s, c, .error .typeErr)   -- update() from a non-mapping document

/-- Row-per-file loading: fetch and add the file of each index entry. -/
def TableStore.loadRowFiles (s : TableStore) (name : String) (t : Table)
    (b : Backend) : List Val → Nat → TableStore × Nat × Except Err Unit
  | [], c => (s, c, .ok ())
  | pkV :: rest, c =>
    match pkV with
    | .obj pk =>
      match t.getFilename (some pk) false with
      | .error e => (s, c, .error e)
      | .ok fn =>
        match backendLoadVal b fn with
        | .error e => (s, c, .error e)
        | .ok v =>
          match v with
          | .obj fields =>
            match s.storeAdd name fields false c with
            | (s', c', .error e) => (s', c', .error e)
            | (s', c', .ok _) => TableStore.loadRowFiles s' name t b rest c'
          | _ => (s, c, .error .typeErr)
    | _ => (s, c, .error .typeErr)

/-- Grouped loading: fetch each group file and add every row in it. -/
def TableStore.loadGroupFiles (s : TableStore) (name : String) (t : Table)
    (b : Backend) : List (String × Row) → Nat →
      TableStore × Nat × Except Err Unit
  | [], c => (s, c, .ok ())
  | (_, pk) :: rest, c =>
    match t.getFilename (some pk) false with
    | .error e => (s, c, .error e)
    | .ok fn =>
      match backendLoadVal b fn with
      | .error e => (s, c, .error e)
      | .ok v =>
        match v with
        | .arr rows =>
          match s.addRows name rows c with
          | (s', c', .error e) => (s', c', .error e)
          | (s', c', .ok ()) => TableStore.loadGroupFiles s' name t b rest c'
        | _ => (s, c, .error .typeErr)

/-- `key_groups[key] = primary_key` over the index: canonical group key to
the last index entry carrying it (iterated in first-occurrence order; the
source's dict leaves the order unspecified). -/
def buildKeyGroups (t : Table) (index : List Val) :
    Except Err (List (String × Row)) :=
  index.foldlM
    (fun (acc : List (String × Row)) pkV =>
      match pkV with
      | .obj pk => do
        let key ← t.canonicalizeKey pk true
        pure (alset acc key pk)
      | _ => .error .typeErr)
    []

/-- `Table._load_table_data` / `SingleRowTable._load_table_data`, driven
through the store so constraint checks see rows added so far. -/
def TableStore.loadTable (s : TableStore) (name : String) (b : Backend)
    (clock : Nat) : TableStore × Nat × Except Err Unit :=
  match s.getTable? name with
  | none => (s, clock, .error .runtimeErr)
  | some t =>
    if t.isSingleRow then
      match t.getFilename none false with
      | .error e => (s, clock, .error e)
      | .ok fn =>
        match backendLoadVal b fn with
        | .error e => (s, clock, .error e)
        | .ok v =>
          match v with
          | .obj doc =>
            match s.storeAdd name doc false clock with
            | (s', c', .error e) => (s', c', .error e)
            | (s', c', .ok _) => (s', c', .ok ())
          | _ => (s, clock, .error .typeErr)
    else if !t.hasGroupBy then
      match t.getFilename none false with
      | .error e => (s, clock, .error e)
      | .ok fn =>
        match backendLoadVal b fn with
        | .error e => (s, clock, .error e)
        | .ok v =>
          match v with
          | .arr rows => s.addRows name rows clock
          | _ => (s, clock, .error .typeErr)
    else
      match t.getFilename none true with
      | .error e => (s, clock, .error e)
      | .ok idxFn =>
        match backendLoadVal b idxFn with
        | .error e => (s, clock, .error e)
        | .ok idxV =>
          match idxV with
          | .arr index =>
            if t.groupByFields.getD [] = t.pkFields then
              s.loadRowFiles name t b index clock
            else
              match buildKeyGroups t index with
              | .error e => (s, clock, .error e)
              | .ok groups => s.loadGroupFiles name t b groups clock
          | _ => (s, clock, .error .typeErr)

/-- `TableStore.init_from_definition`: reorder tables by the recorded
order, re-run each constructor (name validation; a `SingleRowTable` seeds
a row that the dict update immediately overwrites), and relink. -/
def TableStore.initFromDefinition (s : TableStore) (blob : Blob) :
    Except Err TableStore :=
  match blob with
  | .val _ => .error .typeErr   -- a definition of the wrong JSON shape
  | .defn tables0 tableorder origin => do
    let ordered ← tableorder.mapM (fun n =>
      match alget tables0 n with
      | none => .error Err.keyErr
      | some td => pure (n, td))
    let rebuilt ← ordered.mapM (fun p => do
      let _ ← Table.init p.1 p.2.isSingleRow
      pure p)
    let _ := s   -- every prior field of the store is overwritten
    pure { tables := rebuilt, tableorder := tableorder, origin := origin }

/-- Load every table's rows, in table order. -/
def TableStore.loadList :
    List String → TableStore → Backend → Nat →
      TableStore × Nat × Except Err Unit
  | [], s, _, c => (s, c, .ok ())
  | n :: rest, s, b, c =>
    match s.loadTable n b c with
    | (s', c', .error e) => (s', c', .error e)
    | (s', c', .ok ()) => TableStore.loadList rest s' b c'

/-- `TableStore.load_from_backend`: fetch the definition (always), decode
it unless skipped, record the backend as origin, then load every table. -/
def TableStore.loadFromBackend (s : TableStore) (b : Backend) (clock : Nat)
    (skipDefinition : Bool := false) : TableStore × Nat × Except Err Unit :=
  match backendLoad b "#tsdef.json" with
  | .error e => (s, clock, .error e)
  | .ok defBlob =>
    match if skipDefinition then .ok s else s.initFromDefinition defBlob with
    | .error e => (s, clock, .error e)
    | .ok s1 =>
      let s2 := { s1 with origin := "backend" }   -- str(backend)
      TableStore.loadList (s2.tables.map (·.1)) s2 b clock

/-- The schema declared for the `#tsmeta` table (inert here: the schema
validator is an external black box). -/
def metaSchema : Val :=
  .obj [("type", .str "object"),
        ("properties", .obj
          [("created_on", .obj [("format", .str "date-time")]),
           ("last_modified", .obj [("format", .str "date-time")]),
           ("origin", .obj [("type", .str "string")]),
           ("version", .obj [("type", .str "integer")]),
           ("tables", .obj
             [("type", .str "array"),
              ("items", .obj
                [("type", .str "object"),
                 ("properties", .obj
                   [("table_name", .obj [("type", .str "string")]),
                    ("md5", .obj [("type", .str "string")]),
                    ("last_modified", .obj [("format", .str "date-time")])])])])])]

/-- The default values declared for the `#tsmeta` table. -/
def metaDefaults : Row :=
  [("created_on", .str "@@utcnow"), ("last_modified", .str "@@utcnow"),
   ("version", .num 1), ("tables", .arr [])]

/-- `TableStore.__init__` without a backend: an empty ordered table dict
plus `_add_metatable` (system single-row table, schema, defaults — the
defaults re-add the row, stamping `created_on`/`last_modified`). -/
def TableStore.new (clock : Nat) : TableStore × Nat × Except Err Unit :=
  match Table.init "#tsmeta" true with
  | .error e => ({}, clock, .error e)   -- unreachable: '#' names always pass
  | .ok t0 =>
    let s1 : TableStore :=
      { tables := [("#tsmeta", t0)], tableorder := [], origin := "clean" }
    let t1 := { t0 with isSystemTable := true, schema := metaSchema }
    let s2 := s1.setTable "#tsmeta" t1
    let (t2, c2, res) :=
      TableStore.singleRowAddDefaultValues s2 t1 metaDefaults clock
    (s2.setTable "#tsmeta" t2, c2, res.map (fun _ => ()))

/-! ## Row-set equivalence

Rows are compared as field mappings, ignoring field order: the comparison
the round-trip law speaks about. -/

/-- Two rows agree as mappings. -/
def Row.eqv (r1 r2 : Row) : Prop := ∀ k, alget r1 k = alget r2 k

/-- Two row collections hold the same rows up to `Row.eqv`. -/
def sameRowSet (l1 l2 : List Row) : Prop :=
  (∀ r ∈ l1, ∃ r' ∈ l2, Row.eqv r r') ∧ (∀ r ∈ l2, ∃ r' ∈ l1, Row.eqv r r')

/-! ## Statement-level definitions and fixtures -/

/-- A table as the definition codec records it: rows stripped. -/
def Table.stripRows (t : Table) : Table := { t with rows := [] }

/-- The dot-joined canonical string of a key mapping over given fields. -/
def joinedKey (fields : List String) (pk : Row) : String :=
  String.intercalate "." (fields.filterMap (fun k => (alget pk k).map Val.pyStr))

/-- The names of the files a table's `_save_table_data` would write, in
write order (empty when the save itself would fail). -/
def Table.writtenNames (t : Table) : List String :=
  match t.saveTableData with
  | .ok (files, _) => files.map (·.1)
  | .error _ => []

/-- A minimal populated store for exercising whole-store saves: the system
metadata table alone, holding its single row. -/
def wMetaRow : Row :=
  [("last_modified", .num 0), ("version", .num 7), ("tables", .arr [])]

def wMetaTable : Table :=
  { name := "#tsmeta", rows := [("", wMetaRow)],
    isSystemTable := true, isSingleRow := true }

def wStore : TableStore := { tables := [("#tsmeta", wMetaTable)] }

/-- One whole-store save of the minimal store against an empty backend. -/
def wSave : TableStore × Backend × Nat × Except Err Unit :=
  wStore.saveToBackend [] 5

/-- A second whole-store save immediately after the first, nothing mutated
in between. -/
def wSave2 : TableStore × Backend × Nat × Except Err Unit :=
  wSave.1.saveToBackend wSave.2.1 wSave.2.2.1

/-- Reloading the backend written by the first save into a fresh store. -/
def wLoad : TableStore × Nat × Except Err Unit :=
  TableStore.loadFromBackend {} wSave.2.1 20

/-- A store holding one populated user table beside the metadata table. -/
def uRowRT : Row := [("id", .num 1), ("x", .str "a")]

def uTableRT : Table :=
  { name := "u", rows := [("1", uRowRT)], pkFields := ["id"],
    constraints := [.primaryKey ["id"]] }

/-- A grouped user table (`set_row_as_file` with a group-by subset of the
primary key): both rows share group key `1`, so they land in one file. -/
def gRow1 : Row := [("id", .num 1), ("k", .str "a"), ("x", .num 10)]

def gRow2 : Row := [("id", .num 1), ("k", .str "b"), ("x", .num 20)]

def gTableRT : Table :=
  { name := "g", rows := [("1.a", gRow1), ("1.b", gRow2)],
    pkFields := ["id", "k"], constraints := [.primaryKey ["id", "k"]],
    groupByFields := some ["id"] }

/-- A row-per-file user table (`set_row_as_file` with the default grouping
by the full primary key): each row gets its own file. -/
def rRow1 : Row := [("id", .str "p"), ("y", .num 3)]

def rRow2 : Row := [("id", .str "q"), ("y", .num 4)]

def rTableRT : Table :=
  { name := "r", rows := [("p", rRow1), ("q", rRow2)], pkFields := ["id"],
    constraints := [.primaryKey ["id"]],
    groupByFields := some ["id"] }

def rtStore : TableStore :=
  { tables := [("#tsmeta", wMetaTable), ("u", uTableRT), ("g", gTableRT),
               ("r", rTableRT)] }

/-- Saving the populated store on an empty backend, then reloading. -/
def rtSave : TableStore × Backend × Nat × Except Err Unit :=
  rtStore.saveToBackend [] 5

def rtLoad : TableStore × Nat × Except Err Unit :=
  TableStore.loadFromBackend {} rtSave.2.1 20

/-- The one-row document table as `SingleRowTable('#doc')` constructs it. -/
def docTable : Table :=
  { name := "#doc", rows := [("", [])], isSingleRow := true }

/-- The `users`-like target fixture for the foreign-key scenarios. -/
def uTable : Table :=
  { name := "u", pkFields := ["id"],
    constraints := [.primaryKey ["id"], .unique ["email"]],
    rows := [("a", [("id", .str "a"), ("email", .str "e@x")])] }

/-- A table carrying two foreign-key relationships to the same target. -/
def linksTable : Table :=
  { name := "links", pkFields := ["lid"],
    constraints := [.primaryKey ["lid"],
                    .foreignKey ["a_id"] "u" ["id"],
                    .foreignKey ["b_id"] "u" ["id"]],
    rows := [("l1", [("lid", .str "l1"), ("a_id", .str "a"), ("b_id", .str "a")])] }

/-- The store holding both fixtures. -/
def linksStore : TableStore :=
  { tables := [("u", uTable), ("links", linksTable)] }

/-- The per-table content checksum `_save_table_data` would produce on the
table's current rows. -/
def Table.checksum (t : Table) : Option Val :=
  match t.saveTableData with
  | .ok fc => some fc.2
  | .error _ => none

/-- The checksum recorded for `name` in a metadata row — the zeroed
record's empty string when none is recorded. -/
def recordedChecksum (m : Row) (name : String) : Val :=
  match alget m "tables" with
  | some (.arr recs) =>
    match findRec recs name with
    | .ok (some rec) => (alget rec "md5").getD (.str "")
    | _ => .str ""
  | _ => .str ""

/-- Does some non-system table's current checksum differ from the one the
metadata row records for it? -/
def TableStore.userChangedB (s : TableStore) (m : Row) : Bool :=
  s.tables.any (fun p =>
    !p.2.isSystemTable && decide (p.2.checksum ≠ some (recordedChecksum m p.1)))

/-! ## Association-list lemmas -/

theorem alget_nil {α : Type} (k : String) : alget ([] : List (String × α)) k = none := rfl

theorem alget_cons {α : Type} (k k' : String) (v : α) (l : List (String × α)) :
    alget ((k', v) :: l) k = if k' = k then some v else alget l k := by
  simp only [alget, List.find?]
  by_cases h : k' = k <;> simp [h]

theorem alget_alset_self {α : Type} (l : List (String × α)) (k : String) (v : α) :
    alget (alset l k v) k = some v := by
  induction l with
  | nil => simp [alset, alget_cons]
  | cons p rest ih =>
    obtain ⟨k', v'⟩ := p
    by_cases h : k' = k <;> simp [alset, h, alget_cons, ih]

theorem alget_alset_ne {α : Type} (l : List (String × α)) (k k' : String) (v : α)
    (h : k' ≠ k) : alget (alset l k v) k' = alget l k' := by
  induction l with
  | nil => simp [alset, alget_cons, (Ne.symm h : ¬(k = k'))]
  | cons p rest ih =>
    obtain ⟨k1, v1⟩ := p
    by_cases h1 : k1 = k
    · subst h1
      simp [alset, alget_cons, Ne.symm h]
    · simp only [alset, h1, if_false]
      rw [alget_cons, alget_cons, ih]

theorem alset_eq_self_of_alget {α : Type} (l : List (String × α)) (k : String)
    (v : α) (h : alget l k = some v) : alset l k v = l := by
  induction l with
  | nil => simp [alget] at h
  | cons p rest ih =>
    obtain ⟨k1, v1⟩ := p
    rw [alget_cons] at h
    by_cases h1 : k1 = k
    · simp [h1] at h
      simp [alset, h1, h]
    · simp [h1] at h
      simp [alset, h1, ih h]

/-- Keys of an updated dict. -/
theorem alget_isSome_alset {α : Type} (l : List (String × α)) (k k' : String)
    (v : α) :
    (alget (alset l k v) k').isSome =
      ((alget l k').isSome || decide (k' = k)) := by
  by_cases h : k' = k
  · subst h; simp [alget_alset_self]
  · simp [alget_alset_ne l k k' v h, h]

theorem alget_eq_none_iff {α : Type} (l : List (String × α)) (k : String) :
    alget l k = none ↔ ∀ p ∈ l, p.1 ≠ k := by
  induction l with
  | nil => simp [alget]
  | cons p rest ih =>
    obtain ⟨k1, v1⟩ := p
    rw [alget_cons]
    by_cases h : k1 = k <;> simp [h, ih]

/-- A key unbound in `other` keeps `d`'s value after `d.update(other)`. -/
theorem alget_alupdate_not_mem {α : Type} (d other : List (String × α))
    (k : String) (h : alget other k = none) :
    alget (alupdate d other) k = alget d k := by
  induction other generalizing d with
  | nil => simp [alupdate]
  | cons p rest ih =>
    obtain ⟨k1, v1⟩ := p
    rw [alget_cons] at h
    by_cases h1 : k1 = k
    · simp [h1] at h
    · simp only [h1, if_false] at h
      simp only [alupdate, List.foldl_cons] at ih ⊢
      rw [ih _ h, alget_alset_ne _ _ _ _ (fun hh => h1 hh.symm)]

/-- A key bound in `other` keeps `other`'s (first) value after
`d.update(other)`, provided `other` has no duplicate keys. -/
theorem alget_alupdate_of_mem {α : Type} (d other : List (String × α))
    (k : String) (hnd : (other.map (·.1)).Nodup) (hk : (alget other k).isSome) :
    alget (alupdate d other) k = alget other k := by
  induction other generalizing d with
  | nil => simp [alget] at hk
  | cons p rest ih =>
    obtain ⟨k1, v1⟩ := p
    simp only [List.map_cons, List.nodup_cons] at hnd
    simp only [alupdate, List.foldl_cons] at ih ⊢
    rw [alget_cons]
    by_cases h1 : k1 = k
    · subst h1
      have hrest : alget rest k1 = none := by
        rw [alget_eq_none_iff]
        intro p hp hpk
        exact hnd.1 (hpk ▸ List.mem_map_of_mem (·.1) hp)
      have hupd := alget_alupdate_not_mem (alset d k1 v1) rest k1 hrest
      simp only [alupdate] at hupd
      simp [hupd, alget_alset_self]
    · simp only [h1, if_false]
      rw [alget_cons, if_neg h1] at hk
      exact ih _ hnd.2 hk

theorem alset_alset_same {α : Type} (l : List (String × α)) (k : String)
    (v w : α) : alset (alset l k v) k w = alset l k w := by
  induction l with
  | nil => simp [alset]
  | cons p rest ih =>
    obtain ⟨k1, v1⟩ := p
    by_cases h1 : k1 = k <;> simp [alset, h1, ih]

theorem alget_of_mem_nodup {α : Type} (l : List (String × α)) (k : String)
    (v : α) (hnd : (l.map (·.1)).Nodup) (h : (k, v) ∈ l) :
    alget l k = some v := by
  induction l with
  | nil => simp at h
  | cons p rest ih =>
    obtain ⟨k1, v1⟩ := p
    simp only [List.map_cons, List.nodup_cons] at hnd
    rcases List.mem_cons.mp h with h1 | h1
    · injection h1 with ha hb
      subst ha; subst hb
      simp [alget_cons]
    · have hk : k1 ≠ k := by
        intro hh
        subst hh
        exact hnd.1 (List.mem_map_of_mem (·.1) h1)
      rw [alget_cons, if_neg hk]
      exact ih hnd.2 h1

theorem keys_alset_of_get {α : Type} (l : List (String × α)) (k : String)
    (v w : α) (h : alget l k = some w) :
    (alset l k v).map (·.1) = l.map (·.1) := by
  induction l with
  | nil => simp [alget] at h
  | cons p rest ih =>
    obtain ⟨k1, v1⟩ := p
    rw [alget_cons] at h
    by_cases h1 : k1 = k
    · simp [alset, h1]
    · simp only [h1, if_false] at h
      simp [alset, h1, ih h]

/-! ## Canonical-key lemmas -/



theorem canonicalizeKey_plain (t : Table) (pk : Row)
    (hsr : t.isSingleRow = false) :
    t.canonicalizeKey pk false =
      if t.pkFields.all (fun k => alHas pk k) then
        (if matchesPk (joinedKey t.pkFields pk) then .ok (joinedKey t.pkFields pk)
         else .error .constraintErr)
      else .error .tableErr := by
  simp only [Table.canonicalizeKey, hsr, Bool.false_eq_true, if_false, joinedKey]
  cases h : t.pkFields.all (fun k => alHas pk k) <;>
    cases hm : matchesPk (String.intercalate "."
        (t.pkFields.filterMap (fun k => (alget pk k).map Val.pyStr))) <;>
      simp [h, hm, Bind.bind, Except.bind, pure, Except.pure]

theorem joinedKey_congr (fields : List String) (m1 m2 : Row)
    (h : ∀ f ∈ fields, alget m1 f = alget m2 f) :
    joinedKey fields m1 = joinedKey fields m2 := by
  unfold joinedKey
  congr 1
  induction fields with
  | nil => rfl
  | cons f rest ih =>
    have hf := h f (by simp)
    simp only [List.filterMap_cons, hf]
    have := ih (fun g hg => h g (by simp [hg]))
    cases alget m2 f <;> simp [this]

theorem allHas_congr (fields : List String) (m1 m2 : Row)
    (h : ∀ f ∈ fields, alget m1 f = alget m2 f) :
    fields.all (fun k => alHas m1 k) = fields.all (fun k => alHas m2 k) := by
  induction fields with
  | nil => rfl
  | cons f rest ih =>
    have hf := h f (by simp)
    have ih' := ih (fun g hg => h g (by simp [hg]))
    simp only [alHas] at ih' ⊢
    simp only [List.all_cons, hf, ih']

/-- C4: canonical key formation is a pure, deterministic function of the
primary-key field values: two mappings agreeing on the primary-key fields
canonicalize identically; with every required field present, the result is
the `str()`-converted values joined by `.` in field-declaration order when
that string matches the filename-safe pattern and a `ConstraintError`
otherwise; a missing required field fails with a `TableError` (the spec's
`MissingKeyFieldsError`). -/
theorem canonicalizeKey_spec (t : Table) (m1 m2 : Row)
    (hsr : t.isSingleRow = false)
    (hagree : ∀ f ∈ t.pkFields, alget m1 f = alget m2 f) :
    t.canonicalizeKey m1 = t.canonicalizeKey m2 ∧
    ((∀ f ∈ t.pkFields, (alget m1 f).isSome) →
      t.canonicalizeKey m1 =
        (if matchesPk (joinedKey t.pkFields m1) then .ok (joinedKey t.pkFields m1)
         else .error .constraintErr)) ∧
    ((∃ f ∈ t.pkFields, alget m1 f = none) →
      t.canonicalizeKey m1 = .error .tableErr) := by
  refine ⟨?_, ?_, ?_⟩
  · rw [canonicalizeKey_plain t m1 hsr, canonicalizeKey_plain t m2 hsr,
      joinedKey_congr t.pkFields m1 m2 hagree, allHas_congr t.pkFields m1 m2 hagree]
  · intro hall
    rw [canonicalizeKey_plain t m1 hsr, if_pos]
    rw [List.all_eq_true]
    intro f hf
    simpa [alHas] using hall f hf
  · rintro ⟨f, hf, hnone⟩
    rw [canonicalizeKey_plain t m1 hsr, if_neg]
    intro hall
    rw [List.all_eq_true] at hall
    have := hall f hf
    simp [alHas, hnone] at this

/-- Witness for `canonicalizeKey_spec`: a two-field mapping and its
permutation canonicalize to the same accepted key. -/
theorem canonicalizeKey_spec_witness :
    Table.canonicalizeKey { name := "users", pkFields := ["id"] }
        [("id", .str "u1"), ("extra", .num 1)] =
      Table.canonicalizeKey { name := "users", pkFields := ["id"] }
        [("extra", .num 1), ("id", .str "u1")] ∧
    Table.canonicalizeKey { name := "users", pkFields := ["id"] }
        [("id", .str "u1"), ("extra", .num 1)] = .ok "u1" := by
  constructor
  · exact (canonicalizeKey_spec { name := "users", pkFields := ["id"] }
      [("id", .str "u1"), ("extra", .num 1)] [("extra", .num 1), ("id", .str "u1")]
      rfl (by decide)).1
  · have := (canonicalizeKey_spec { name := "users", pkFields := ["id"] }
      [("id", .str "u1"), ("extra", .num 1)] [("extra", .num 1), ("id", .str "u1")]
      rfl (by decide)).2.1 (by decide)
    rw [this]
    decide

/-! ## Table-name acceptance -/

theorem matchesTablename_iff (s : String) :
    matchesTablename s = true ↔
      (1 ≤ (stripDollarNl s.data).length ∧ (stripDollarNl s.data).length ≤ 50 ∧
        ∀ c ∈ stripDollarNl s.data,
          ('a' ≤ c ∧ c ≤ 'z') ∨ c.isDigit = true ∨ c = '.' ∨ c = '-') := by
  unfold matchesTablename
  rw [Bool.and_eq_true, Bool.and_eq_true, decide_eq_true_eq, decide_eq_true_eq,
    List.all_eq_true]
  constructor
  · rintro ⟨⟨h1, h2⟩, h3⟩
    refine ⟨h1, h2, fun c hc => ?_⟩
    have := h3 c hc
    simp only [tablenameChar, Bool.or_eq_true, Bool.and_eq_true,
      decide_eq_true_eq] at this
    tauto
  · rintro ⟨h1, h2, h3⟩
    refine ⟨⟨h1, h2⟩, fun c hc => ?_⟩
    have := h3 c hc
    simp only [tablenameChar, Bool.or_eq_true, Bool.and_eq_true, decide_eq_true_eq]
    tauto

/-- The `SingleRowTable` constructor's seeding `add({})` always succeeds
on a fresh table. -/
theorem tableInit_seed_ok (nm : String) :
    (TableStore.singleRowAdd {} { name := nm, isSingleRow := true } [] false 0).2.2
      = .ok [] := by
  rfl

/-- C9 (amended): constructing a table succeeds exactly when the name
starts with `#`, or — after tolerating one trailing newline, as the
pattern's `$` anchor does — consists of 1 to 50 characters that are each a
lowercase letter, a digit, a dot or a dash; anything else fails at
declaration time with a `TableError`. -/
theorem tableInit_ok_iff (name : String) (singleRow : Bool) :
    (Table.init name singleRow).isOk = true ↔
      (name.data.head? = some '#' ∨
        (1 ≤ (stripDollarNl name.data).length ∧
         (stripDollarNl name.data).length ≤ 50 ∧
         ∀ c ∈ stripDollarNl name.data,
           ('a' ≤ c ∧ c ≤ 'z') ∨ c.isDigit = true ∨ c = '.' ∨ c = '-')) := by
  have hname : (startsWithHash name = true) ↔ name.data.head? = some '#' := by
    simp [startsWithHash]
  rw [← hname, ← matchesTablename_iff]
  by_cases h1 : startsWithHash name = true
  · rw [iff_true_intro (Or.inl h1), iff_true]
    cases singleRow <;>
      simp [Table.init, h1, Except.isOk, Except.toBool] <;> rfl
  · rw [Bool.not_eq_true] at h1
    by_cases h2 : matchesTablename name = true
    · rw [iff_true_intro (Or.inr h2), iff_true]
      cases singleRow <;>
        simp [Table.init, h1, h2, Except.isOk, Except.toBool] <;> rfl
    · rw [Bool.not_eq_true] at h2
      simp [Table.init, h1, h2, Except.isOk, Except.toBool]

/-- The counterexample to C9 as stated: `"A"` is one alphanumeric
character and carries no `#` prefix, yet `Table('A')` is rejected — the
table-name pattern admits only lowercase letters. -/
theorem tableName_alphanumeric_rejected :
    startsWithHash "A" = false ∧
    "A".length = 1 ∧
    "A".data.all (fun c => c.isAlphanum || c = '.' || c = '-') = true ∧
    Table.init "A" false = .error .tableErr := by
  refine ⟨rfl, rfl, rfl, ?_⟩
  decide

/-- C10: `Table.get` on a mapping that contains every primary-key field
but whose dot-joined canonical string violates the filename-safe pattern
raises a `ConstraintError` rather than returning a not-found result. -/
theorem tableGet_raises_on_unsafe_key (t : Table) (pk : Row)
    (hsr : t.isSingleRow = false)
    (hall : ∀ f ∈ t.pkFields, (alget pk f).isSome)
    (hbad : matchesPk (joinedKey t.pkFields pk) = false) :
    t.get pk = .error .constraintErr := by
  have h := (canonicalizeKey_spec t pk pk hsr (fun _ _ => rfl)).2.1 hall
  rw [hbad] at h
  simp only [Bool.false_eq_true, if_false] at h
  simp [Table.get, hsr, h, Except.map]

/-- Witness for `tableGet_raises_on_unsafe_key`: a slash in the key value. -/
theorem tableGet_raises_on_unsafe_key_witness :
    Table.get { name := "users", pkFields := ["id"] } [("id", .str "a/b")]
      = .error .constraintErr :=
  tableGet_raises_on_unsafe_key _ _ rfl (by decide) (by decide)

/-! ## Foreign-key declaration -/

/-- C6: declaring a foreign key whose (sorted) alias fields equal the
field set of no `primary_key` or `unique` constraint currently on the
target table fails at declaration time with a `ConstraintError`, and the
declaring table's constraint list is unchanged — so the failure is never
deferred to row insertion. -/
theorem addForeignKey_fails_at_declaration (s : TableStore) (t ft : Table)
    (fkCsv target : String) (aliasCsv : Option String)
    (hft : s.getTable? target = some ft)
    (hnomatch : ∀ fields,
      (Constraint.primaryKey fields ∈ ft.constraints ∨
        Constraint.unique fields ∈ ft.constraints) →
      fields ≠ sortStrings (splitComma (resolveAliasCsv fkCsv aliasCsv))) :
    s.addForeignKey t fkCsv target aliasCsv = (t, .error .constraintErr) := by
  have hany : ft.constraints.any (fun fc =>
      match fc with
      | .primaryKey fields =>
        decide (fields = sortStrings (splitComma (resolveAliasCsv fkCsv aliasCsv)))
      | .unique fields =>
        decide (fields = sortStrings (splitComma (resolveAliasCsv fkCsv aliasCsv)))
      | _ => false) = false := by
    rw [List.any_eq_false]
    intro fc hfc
    cases fc with
    | primaryKey fields => simpa using hnomatch fields (Or.inl hfc)
    | unique fields => simpa using hnomatch fields (Or.inr hfc)
    | foreignKey a b c => simp
  unfold TableStore.addForeignKey
  rw [show alget s.tables target = some ft from hft]
  simp [hany]

/-- Witness for `addForeignKey_fails_at_declaration`: linking on a field
set that is neither the target's primary key nor unique. -/
theorem addForeignKey_fails_at_declaration_witness :
    TableStore.addForeignKey
        { tables := [("u", { name := "u", pkFields := ["id"],
                             constraints := [.primaryKey ["id"]] })] }
        { name := "orders", pkFields := ["oid"],
          constraints := [.primaryKey ["oid"]] }
        "nope" "u" none
      = ({ name := "orders", pkFields := ["oid"],
           constraints := [.primaryKey ["oid"]] }, .error .constraintErr) := by
  apply addForeignKey_fails_at_declaration
  · rfl
  · rintro fields (h | h)
    · simp at h
      subst h
      decide
    · simp at h

/-! ## The Document Table check_only defect -/



/-- C7's failing input: on a freshly constructed Document Table (holding
its one seeded row), `add(row, check_only=True)` hits
`self._rows.clear()` followed by the `finally` block's
`self._rows.add(tmp)` — dicts have no `add` method — so the call raises
`AttributeError` and leaves the table with zero rows, violating the
exactly-one-row invariant the spec states for every operation. -/
theorem singleRowTable_checkOnly_failing_input :
    Table.init "#doc" true = .ok docTable ∧
    docTable.rows.length = 1 ∧
    (TableStore.singleRowAdd { tables := [("#doc", docTable)] } docTable
        [("x", .num 1)] true 0).2.2 = .error .attributeErr ∧
    (TableStore.singleRowAdd { tables := [("#doc", docTable)] } docTable
        [("x", .num 1)] true 0).1.rows = [] := by
  refine ⟨?_, rfl, rfl, rfl⟩
  rfl

/-! ## Foreign-row resolution -/

/-- Translating criteria succeeds when the row carries every local field. -/
theorem fkCriteriaAux_ok (row : Row) (l : List (String × String))
    (h : ∀ p ∈ l, (alget row p.1).isSome) (acc : Row) :
    ∃ out, fkCriteriaAux (some row) l acc = .ok out := by
  induction l generalizing acc with
  | nil => exact ⟨acc, rfl⟩
  | cons p rest ih =>
    have hp := h p (by simp)
    cases hv : alget row p.1 with
    | none => rw [hv] at hp; simp at hp
    | some v =>
      obtain ⟨out, hout⟩ := ih (fun q hq => h q (by simp [hq])) (alset acc p.2 v)
      exact ⟨out, by simpa [fkCriteriaAux, hv] using hout⟩

theorem fkCriteria_ok (row : Row) (fkF aliasF : List String)
    (h : ∀ k ∈ fkF, (alget row k).isSome) :
    ∃ criteria, fkCriteria (some row) fkF aliasF = .ok criteria := by
  unfold fkCriteria
  exact fkCriteriaAux_ok row (fkF.zip aliasF)
    (fun p hp => h p.1 (List.of_mem_zip hp).1) []

/-- C8 (amended): with no disambiguating field set, `get_foreign_row`
resolves through the *first* declared foreign key to the target — there is
no ambiguity error.  When no foreign-key relationship to the target
exists, the call fails with a `TableError` (the spec's
`NotFoundRelationError`); otherwise it translates the row's local fields
through the alias mapping of that first constraint and returns the target
table's `find` result. -/
theorem getForeignRow_first_match_spec (s : TableStore) (t ft : Table)
    (pk row : Row) (target : String)
    (hget : t.get pk = .ok (some row)) :
    (findFK t.constraints target none = none →
      s.getForeignRow t (some pk) target none none = .error .tableErr) ∧
    (∀ fkF aliasF, findFK t.constraints target none = some (fkF, aliasF) →
      s.getTable? target = some ft →
      (∀ k ∈ fkF, (alget row k).isSome) →
      ∃ criteria, fkCriteria (some row) fkF aliasF = .ok criteria ∧
        s.getForeignRow t (some pk) target none none
          = .ok (ft.find (some criteria))) := by
  constructor
  · intro hnone
    simp [TableStore.getForeignRow, hget, hnone, Bind.bind, Except.bind]
  · intro fkF aliasF hfind hft hcrit
    obtain ⟨criteria, hcr⟩ := fkCriteria_ok row fkF aliasF hcrit
    refine ⟨criteria, hcr, ?_⟩
    simp [TableStore.getForeignRow, hget, hfind, hft, hcr, Bind.bind,
      Except.bind, pure, Except.pure]







/-- The counterexample to C8 as stated: `links` holds two foreign-key
relationships to `u`, yet `get_foreign_row` without a disambiguating field
set does not fail with any ambiguity error — it silently resolves through
the first declared constraint and returns the found row. -/
theorem getForeignRow_ambiguous_returns_ok :
    (linksTable.constraints.filter (fun c =>
        match c with
        | .foreignKey _ tbl _ => decide (tbl = "u")
        | _ => false)).length = 2 ∧
    linksStore.getForeignRow linksTable (some [("lid", .str "l1")]) "u" none none
      = .ok [[("id", .str "a"), ("email", .str "e@x")]] := by
  exact ⟨rfl, rfl⟩

/-- Witness for `getForeignRow_first_match_spec` at the fixture store. -/
theorem getForeignRow_first_match_spec_witness :
    ∃ criteria,
      fkCriteria (some [("lid", .str "l1"), ("a_id", .str "a"), ("b_id", .str "a")])
          ["a_id"] ["id"] = .ok criteria ∧
      linksStore.getForeignRow linksTable (some [("lid", .str "l1")]) "u" none none
        = .ok (uTable.find (some criteria)) :=
  (getForeignRow_first_match_spec linksStore linksTable uTable
      [("lid", .str "l1")]
      [("lid", .str "l1"), ("a_id", .str "a"), ("b_id", .str "a")] "u"
      (by rfl)).2 ["a_id"] ["id"] (by rfl) (by rfl) (by decide)

/-! ## Unique-constraint enforcement -/

theorem mem_alset {α : Type} (l : List (String × α)) (k : String) (v : α)
    (p : String × α) (hp : p ∈ alset l k v) : p ∈ l ∨ p = (k, v) := by
  induction l with
  | nil => simpa [alset] using hp
  | cons q rest ih =>
    obtain ⟨k1, v1⟩ := q
    by_cases h1 : k1 = k
    · subst h1
      simp only [alset, if_pos rfl] at hp
      rcases List.mem_cons.mp hp with h | h
      · right; exact h
      · left; exact List.mem_cons_of_mem _ h
    · simp only [alset, h1, if_false] at hp
      rcases List.mem_cons.mp hp with h | h
      · left; rw [h]; exact List.mem_cons_self _ _
      · rcases ih h with h' | h'
        · left; exact List.mem_cons_of_mem _ h'
        · right; exact h'

theorem uniqueCriteria_spec (row : Row) (K : List String) :
    ∀ (fields : List String), (∀ k ∈ fields, (alget row k).isSome) →
      (∀ k ∈ fields, k ∈ K) →
      ∀ acc, (∀ p ∈ acc, p.1 ∈ K ∧ alget row p.1 = some p.2) →
      ∃ out, uniqueCriteria row fields acc = .ok out ∧
        ∀ p ∈ out, p.1 ∈ K ∧ alget row p.1 = some p.2 := by
  intro fields
  induction fields with
  | nil => exact fun _ _ acc hacc => ⟨acc, rfl, hacc⟩
  | cons k rest ih =>
    intro hall hK acc hacc
    have hk := hall k (by simp)
    cases hv : alget row k with
    | none => rw [hv] at hk; simp at hk
    | some v =>
      have hstep : ∀ p ∈ alset acc k v, p.1 ∈ K ∧ alget row p.1 = some p.2 := by
        intro p hp
        rcases mem_alset acc k v p hp with h | h
        · exact hacc p h
        · rw [h]; exact ⟨hK k (by simp), hv⟩
      obtain ⟨out, hout, hprop⟩ :=
        ih (fun g hg => hall g (by simp [hg])) (fun g hg => hK g (by simp [hg]))
          (alset acc k v) hstep
      exact ⟨out, by simpa [uniqueCriteria, hv] using hout, hprop⟩

theorem findFK_cons_fk (f : List String) (tbl : String) (a : List String)
    (rest : List Constraint) (target : String) (fields : Option (List String)) :
    findFK (.foreignKey f tbl a :: rest) target fields =
      if tbl = target ∧ (fields = none ∨ fields = some f) then some (f, a)
      else findFK rest target fields := rfl

theorem findFK_cons_pk (f : List String) (rest : List Constraint)
    (target : String) (fields : Option (List String)) :
    findFK (.primaryKey f :: rest) target fields = findFK rest target fields := rfl

theorem findFK_cons_unique (f : List String) (rest : List Constraint)
    (target : String) (fields : Option (List String)) :
    findFK (.unique f :: rest) target fields = findFK rest target fields := rfl

/-- A foreign-key constraint in the list is always found when searched for
by its own (table, fields) pair; the found pair carries those fields. -/
theorem findFK_mem (cs : List Constraint) (target : String)
    (fkF aliasF : List String)
    (h : Constraint.foreignKey fkF target aliasF ∈ cs) :
    ∃ q, findFK cs target (some fkF) = some q ∧ q.1 = fkF := by
  induction cs with
  | nil => simp at h
  | cons c rest ih =>
    rcases List.mem_cons.mp h with hc | hc
    · subst hc
      exact ⟨(fkF, aliasF),
        by rw [findFK_cons_fk, if_pos ⟨rfl, Or.inr rfl⟩], rfl⟩
    · cases c with
      | foreignKey f tbl a =>
        by_cases hcond : tbl = target ∧
            ((some fkF : Option (List String)) = none ∨
              (some fkF : Option (List String)) = some f)
        · have hf : f = fkF := by
            rcases hcond.2 with h2 | h2
            · exact absurd h2 (by simp)
            · exact (Option.some.inj h2).symm
          exact ⟨(f, a), by rw [findFK_cons_fk, if_pos hcond], hf⟩
        · rw [findFK_cons_fk, if_neg hcond]
          exact ih hc
      | primaryKey f => rw [findFK_cons_pk]; exact ih hc
      | unique f => rw [findFK_cons_unique]; exact ih hc

/-- One pass of the constraint loop either raises a `ConstraintError` or
moves on to the remaining constraints, provided every declared foreign key
has a registered target table and a nonempty field list. -/
theorem checkConstraints_step (s : TableStore) (t : Table) (row : Row)
    (c : Constraint) (rest : List Constraint)
    (hc0 : c ∈ t.constraints)
    (hfk : ∀ fkF target aliasF,
      Constraint.foreignKey fkF target aliasF ∈ t.constraints →
      (s.getTable? target).isSome ∧ fkF ≠ []) :
    TableStore.checkConstraints s t row (c :: rest) = .error .constraintErr ∨
    TableStore.checkConstraints s t row (c :: rest)
      = TableStore.checkConstraints s t row rest := by
  cases c with
  | primaryKey fields =>
    cases hall : fields.all (fun k => alHas row k)
    · left; simp [TableStore.checkConstraints, hall]
    · right; simp [TableStore.checkConstraints, hall]
  | unique fields =>
    cases hall : fields.all (fun k => alHas row k)
    · left; simp [TableStore.checkConstraints, hall]
    · have hall' : ∀ k ∈ fields, (alget row k).isSome := by
        intro k hk
        have := (List.all_eq_true.mp hall) k hk
        simpa [alHas] using this
      obtain ⟨out, hout, -⟩ :=
        uniqueCriteria_spec row fields fields hall' (fun k hk => hk) [] (by simp)
      by_cases hlen : (t.find (some out)).length ≠ 0
      · left
        simp [TableStore.checkConstraints, hall, hout, hlen, Bind.bind, Except.bind]
      · right
        simp [TableStore.checkConstraints, hall, hout, hlen, Bind.bind, Except.bind]
  | foreignKey fkF target aliasF =>
    cases hall : fkF.all (fun k => alHas row k)
    · right; simp [TableStore.checkConstraints, hall]
    · -- the reference is present: it is checked through get_foreign_row
      obtain ⟨hft, hfne⟩ := hfk fkF target aliasF hc0
      have hall' : ∀ k ∈ fkF, (alget row k).isSome := by
        intro k hk
        have := (List.all_eq_true.mp hall) k hk
        simpa [alHas] using this
      have hrow_ne : row.isEmpty = false := by
        cases fkF with
        | nil => exact absurd rfl hfne
        | cons k ks =>
          have := hall' k (by simp)
          cases row with
          | nil => simp [alget] at this
          | cons _ _ => rfl
      obtain ⟨q, hq, hq1⟩ := findFK_mem t.constraints target fkF aliasF hc0
      obtain ⟨ft, hft'⟩ := Option.isSome_iff_exists.mp hft
      obtain ⟨criteria, hcr⟩ := fkCriteria_ok row q.1 q.2
        (by rw [hq1]; exact hall')
      have hresult : s.getForeignRow t none target (some fkF) (some row)
          = .ok (ft.find (some criteria)) := by
        obtain ⟨f1, f2⟩ := q
        simp [TableStore.getForeignRow, hrow_ne, hq, hft', hcr, Bind.bind,
          Except.bind, pure, Except.pure]
      by_cases hlen : (ft.find (some criteria)).length < 1
      · left
        simp [TableStore.checkConstraints, hall, hresult, hlen, Bind.bind,
          Except.bind]
      · right
        simp [TableStore.checkConstraints, hall, hresult, hlen, Bind.bind,
          Except.bind]

/-- If a unique constraint on `F` is declared and an admitted row agrees
with the candidate on `F`, the constraint loop raises `ConstraintError`. -/
theorem checkConstraints_unique_fires (s : TableStore) (t : Table) (row : Row)
    (F : List String) (cs : List Constraint)
    (hsub : ∀ c ∈ cs, c ∈ t.constraints)
    (hfk : ∀ fkF target aliasF,
      Constraint.foreignKey fkF target aliasF ∈ t.constraints →
      (s.getTable? target).isSome ∧ fkF ≠ [])
    (hcF : Constraint.unique F ∈ cs)
    (hall : ∀ f ∈ F, (alget row f).isSome)
    (r1 : Row) (hr1 : r1 ∈ t.rows.map (·.2))
    (hdup : ∀ f ∈ F, alget r1 f = alget row f) :
    TableStore.checkConstraints s t row cs = .error .constraintErr := by
  induction cs with
  | nil => simp at hcF
  | cons c rest ih =>
    rcases List.mem_cons.mp hcF with hc | hc
    · subst hc
      have hallb : F.all (fun k => alHas row k) = true := by
        rw [List.all_eq_true]
        intro k hk
        simpa [alHas] using hall k hk
      obtain ⟨out, hout, hprop⟩ :=
        uniqueCriteria_spec row F F hall (fun k hk => hk) [] (by simp)
      have hfind : r1 ∈ t.find (some out) := by
        unfold Table.find
        rw [List.mem_filter]
        refine ⟨hr1, ?_⟩
        rw [List.all_eq_true]
        intro p hp
        obtain ⟨hpF, hpv⟩ := hprop p hp
        have h2 : alget r1 p.1 = some p.2 := by
          rw [hdup p.1 hpF]; exact hpv
        simp [h2]
      have hlen : (t.find (some out)).length ≠ 0 :=
        Nat.pos_iff_ne_zero.mp (List.length_pos_of_mem hfind)
      simp [TableStore.checkConstraints, hallb, hout, hlen, Bind.bind, Except.bind]
    · rcases checkConstraints_step s t row c rest (hsub c (by simp)) hfk with h | h
      · exact h
      · rw [h]
        exact ih (fun c' hc' => hsub c' (by simp [hc'])) hc

/-- C5: with a `Unique` constraint on fields `F` and an already-admitted
row `r1`, adding a row `r2` that agrees with `r1` on every field of `F`
fails with a `ConstraintError` (the spec's `ConstraintViolation`), and the
table's row mapping — indeed the whole store — is exactly what it was
before the failed call.  The foreign-key side conditions say only that the
table's declared foreign keys are well formed (registered target, nonempty
field list), which every API-constructed table satisfies. -/
theorem uniqueConstraint_violation_atomic (s : TableStore) (tname : String)
    (t : Table) (F : List String) (k1 : String) (r1 r2 : Row) (clock : Nat)
    (ht : s.getTable? tname = some t)
    (hsr : t.isSingleRow = false)
    (hF : Constraint.unique F ∈ t.constraints)
    (hr1 : (k1, r1) ∈ t.rows)
    (hr2nd : (r2.map (·.1)).Nodup)
    (hagree : ∀ f ∈ F, alget r2 f = alget r1 f ∧ (alget r1 f).isSome)
    (hfk : ∀ fkF target aliasF,
      Constraint.foreignKey fkF target aliasF ∈ t.constraints →
      (s.getTable? target).isSome ∧ fkF ≠ []) :
    (s.storeAdd tname r2 false clock).1 = s ∧
    (s.storeAdd tname r2 false clock).2.2 = .error .constraintErr := by
  rcases hres : resolveDefaults t.defaultValues clock with ⟨defaults, c1⟩
  have hmerged : ∀ f ∈ F, alget (alupdate defaults r2) f = alget r1 f := by
    intro f hf
    obtain ⟨hfa, hfs⟩ := hagree f hf
    rw [alget_alupdate_of_mem _ r2 f hr2nd (by rw [hfa]; exact hfs)]
    exact hfa
  have hallm : ∀ f ∈ F, (alget (alupdate defaults r2) f).isSome := by
    intro f hf
    rw [hmerged f hf]
    exact (hagree f hf).2
  have hcc := checkConstraints_unique_fires s t (alupdate defaults r2) F
    t.constraints (fun c hc => hc) hfk hF hallm r1
    (List.mem_map_of_mem (·.2) hr1) (fun f hf => (hmerged f hf).symm)
  have hcheck : TableStore.checkRow s t (alupdate defaults r2)
      = .error .constraintErr := by
    unfold TableStore.checkRow
    rw [hcc]
    rfl
  have hadd : TableStore.tableAdd s t r2 false clock
      = (t, c1, .error .constraintErr) := by
    unfold TableStore.tableAdd
    rw [hres]
    simp only [hcheck]
  unfold TableStore.storeAdd
  rw [show alget s.tables tname = some t from ht]
  simp only [hsr, Bool.false_eq_true, if_false, hadd]
  refine ⟨by simp [TableStore.setTable, alset_eq_self_of_alget s.tables tname t ht],
    by trivial⟩

/-- Witness for `uniqueConstraint_violation_atomic`: a second row with the
same `email` as the admitted one. -/
theorem uniqueConstraint_violation_atomic_witness :
    (TableStore.storeAdd { tables := [("u", uTable)] } "u"
        [("id", .str "b"), ("email", .str "e@x")] false 0).1
      = { tables := [("u", uTable)] } ∧
    (TableStore.storeAdd { tables := [("u", uTable)] } "u"
        [("id", .str "b"), ("email", .str "e@x")] false 0).2.2
      = .error .constraintErr := by
  apply uniqueConstraint_violation_atomic
    { tables := [("u", uTable)] } "u" uTable ["email"] "a"
    [("id", .str "a"), ("email", .str "e@x")]
    [("id", .str "b"), ("email", .str "e@x")] 0
  · rfl
  · rfl
  · decide
  · decide
  · decide
  · decide
  · rintro fkF target aliasF h
    simp [uTable] at h

/-! ## Store-metadata frame lemmas -/

theorem metaRow_of_rows (S : TableStore) (mt : Table) (k0 : String) (m0 : Row)
    (rest0 : List (String × Row))
    (hmt : S.getTable? "#tsmeta" = some mt)
    (hrows : mt.rows = (k0, m0) :: rest0) :
    S.metaRow = .ok m0 := by
  unfold TableStore.metaRow
  rw [hmt]
  simp [Table.getSingle, hrows, pure, Except.pure]

theorem setMetaRow_eq_setTable (S : TableStore) (mt : Table) (k0 : String)
    (m0 : Row) (rest0 : List (String × Row))
    (hmt : S.getTable? "#tsmeta" = some mt)
    (hrows : mt.rows = (k0, m0) :: rest0) (m' : Row) :
    S.setMetaRow m' = S.setTable "#tsmeta" { mt with rows := (k0, m') :: rest0 } := by
  unfold TableStore.setMetaRow
  rw [hmt]
  show S.setTable "#tsmeta"
      { mt with rows := match mt.rows with
          | [] => [("", m')]
          | (k, _) :: rest => (k, m') :: rest } = _
  rw [hrows]

theorem setMetaRow_getTable_meta (S : TableStore) (mt : Table) (k0 : String)
    (m0 : Row) (rest0 : List (String × Row))
    (hmt : S.getTable? "#tsmeta" = some mt)
    (hrows : mt.rows = (k0, m0) :: rest0) (m' : Row) :
    (S.setMetaRow m').getTable? "#tsmeta"
      = some { mt with rows := (k0, m') :: rest0 } := by
  rw [setMetaRow_eq_setTable S mt k0 m0 rest0 hmt hrows m']
  unfold TableStore.setTable TableStore.getTable?
  exact alget_alset_self _ _ _

theorem setMetaRow_getTable_ne (S : TableStore) (m' : Row) (n : String)
    (hn : n ≠ "#tsmeta") :
    (S.setMetaRow m').getTable? n = S.getTable? n := by
  unfold TableStore.setMetaRow
  cases h : S.getTable? "#tsmeta" with
  | none => rfl
  | some mt =>
    unfold TableStore.setTable TableStore.getTable?
    exact alget_alset_ne _ _ _ _ hn

theorem metaRow_setMetaRow (S : TableStore) (mt : Table) (k0 : String)
    (m0 : Row) (rest0 : List (String × Row))
    (hmt : S.getTable? "#tsmeta" = some mt)
    (hrows : mt.rows = (k0, m0) :: rest0) (m' : Row) :
    (S.setMetaRow m').metaRow = .ok m' := by
  unfold TableStore.metaRow
  rw [setMetaRow_getTable_meta S mt k0 m0 rest0 hmt hrows m']
  simp [Table.getSingle, pure, Except.pure]

theorem setMetaRow_setMetaRow (S : TableStore) (mt : Table) (k0 : String)
    (m0 : Row) (rest0 : List (String × Row))
    (hmt : S.getTable? "#tsmeta" = some mt)
    (hrows : mt.rows = (k0, m0) :: rest0) (a b : Row) :
    (S.setMetaRow a).setMetaRow b = S.setMetaRow b := by
  have e3 : (S.setMetaRow a).setMetaRow b
      = (S.setMetaRow a).setTable "#tsmeta" { mt with rows := (k0, b) :: rest0 } :=
    setMetaRow_eq_setTable (S.setMetaRow a) { mt with rows := (k0, a) :: rest0 }
      k0 a rest0 (setMetaRow_getTable_meta S mt k0 m0 rest0 hmt hrows a) rfl b
  rw [e3, setMetaRow_eq_setTable S mt k0 m0 rest0 hmt hrows a,
    setMetaRow_eq_setTable S mt k0 m0 rest0 hmt hrows b]
  unfold TableStore.setTable
  simp [alset_alset_same]

theorem setMetaRow_self (S : TableStore) (mt : Table) (k0 : String) (m0 : Row)
    (rest0 : List (String × Row))
    (hmt : S.getTable? "#tsmeta" = some mt)
    (hrows : mt.rows = (k0, m0) :: rest0) :
    S.setMetaRow m0 = S := by
  rw [setMetaRow_eq_setTable S mt k0 m0 rest0 hmt hrows m0, ← hrows]
  unfold TableStore.setTable
  rw [show ({ mt with rows := mt.rows } : Table) = mt from rfl,
    alset_eq_self_of_alget S.tables "#tsmeta" mt hmt]

/-! ## Metadata-record lemmas -/

theorem findRec_append (recs1 recs2 : List Val) (name : String) :
    findRec (recs1 ++ recs2) name =
      match findRec recs1 name with
      | .ok (some rec) => .ok (some rec)
      | .ok none => findRec recs2 name
      | .error e => .error e := by
  induction recs1 with
  | nil => simp [findRec, pure, Except.pure]
  | cons r rest ih =>
    cases r with
    | obj fields =>
      simp only [List.cons_append, findRec]
      cases h : alget fields "table_name" with
      | none => rfl
      | some v =>
        by_cases hv : v = .str name
        · simp [hv, pure, Except.pure]
        · simp [hv, ih]
    | str a => rfl
    | num a => rfl
    | bool a => rfl
    | null => rfl
    | arr a => rfl

theorem findRec_updateRecs_self (recs : List Val) (name : String)
    (f : Row → Row)
    (hf : ∀ r, alget (f r) "table_name" = alget r "table_name") :
    findRec (updateRecs recs name f) name
      = (findRec recs name).map (Option.map f) := by
  induction recs with
  | nil => rfl
  | cons r rest ih =>
    cases r with
    | obj fields =>
      by_cases h : alget fields "table_name" = some (.str name)
      · simp [updateRecs, h, findRec, hf fields, pure, Except.pure, Except.map]
      · cases hv : alget fields "table_name" with
        | none => simp [updateRecs, hv, findRec, Except.map] at h ⊢
        | some v =>
          have hvne : v ≠ .str name := by
            intro hh; exact h (by rw [hv, hh])
          simp [updateRecs, hv, hvne, findRec, ih]
    | str a => rfl
    | num a => rfl
    | bool a => rfl
    | null => rfl
    | arr a => rfl

theorem findRec_updateRecs_ne (recs : List Val) (name n' : String)
    (f : Row → Row) (hne : n' ≠ name)
    (hf : ∀ r, alget (f r) "table_name" = alget r "table_name") :
    findRec (updateRecs recs name f) n' = findRec recs n' := by
  induction recs with
  | nil => rfl
  | cons r rest ih =>
    cases r with
    | obj fields =>
      by_cases h : alget fields "table_name" = some (.str name)
      · have hvne : (Val.str name) ≠ .str n' := by
          intro hh; injection hh with hh'; exact hne hh'.symm
        simp [updateRecs, h, findRec, hf fields, hvne]
      · cases hv : alget fields "table_name" with
        | none => simp [updateRecs, hv, findRec] at h ⊢
        | some v =>
          have hvne : v ≠ .str name := by
            intro hh; exact h (by rw [hv, hh])
          simp [updateRecs, hv, hvne, findRec, ih]
    | str a => rfl
    | num a => rfl
    | bool a => rfl
    | null => rfl
    | arr a => rfl

/-- The zeroed record `get_table_metadata` creates. -/
theorem getTableMetadata_spec (m : Row) (name : String) (rec m1 : Row)
    (h : getTableMetadata m name = .ok (rec, m1)) :
    ∃ recs, alget m "tables" = some (.arr recs) ∧
      ((findRec recs name = .ok (some rec) ∧ m1 = m) ∨
       (findRec recs name = .ok none ∧
        rec = [("table_name", .str name), ("md5", .str ""),
               ("last_modified", .str "")] ∧
        m1 = alset m "tables" (.arr (recs ++ [.obj rec])))) := by
  unfold getTableMetadata at h
  cases ht : alget m "tables" with
  | none => rw [ht] at h; simp [Bind.bind, Except.bind, pure, Except.pure] at h
  | some tv =>
    rw [ht] at h
    cases tv with
    | arr recs =>
      refine ⟨recs, rfl, ?_⟩
      simp only [Bind.bind, Except.bind, pure, Except.pure] at h
      cases hf : findRec recs name with
      | error e => rw [hf] at h; simp at h
      | ok o =>
        rw [hf] at h
        cases o with
        | some r =>
          simp only [Except.ok.injEq, Prod.mk.injEq] at h
          left
          exact ⟨by rw [h.1], h.2.symm⟩
        | none =>
          simp only [Except.ok.injEq, Prod.mk.injEq] at h
          right
          refine ⟨rfl, h.1.symm, ?_⟩
          rw [← h.1]
          exact h.2.symm
    | str a => simp [Bind.bind, Except.bind, pure, Except.pure] at h
    | num a => simp [Bind.bind, Except.bind, pure, Except.pure] at h
    | bool a => simp [Bind.bind, Except.bind, pure, Except.pure] at h
    | null => simp [Bind.bind, Except.bind, pure, Except.pure] at h
    | obj a => simp [Bind.bind, Except.bind, pure, Except.pure] at h

theorem recordedChecksum_eq (m : Row) (recs : List Val) (name : String)
    (ht : alget m "tables" = some (.arr recs)) :
    recordedChecksum m name =
      (match findRec recs name with
       | .ok (some rec) => (alget rec "md5").getD (.str "")
       | _ => .str "") := by
  unfold recordedChecksum
  rw [ht]

theorem recordedChecksum_found (m : Row) (recs : List Val) (name : String)
    (rec : Row) (ht : alget m "tables" = some (.arr recs))
    (hf : findRec recs name = .ok (some rec)) :
    recordedChecksum m name = (alget rec "md5").getD (.str "") := by
  rw [recordedChecksum_eq m recs name ht, hf]

theorem recordedChecksum_notfound (m : Row) (recs : List Val) (name : String)
    (ht : alget m "tables" = some (.arr recs))
    (hf : findRec recs name = .ok none) :
    recordedChecksum m name = .str "" := by
  rw [recordedChecksum_eq m recs name ht, hf]

theorem recordedChecksum_err (m : Row) (recs : List Val) (name : String)
    (e : Err) (ht : alget m "tables" = some (.arr recs))
    (hf : findRec recs name = .error e) :
    recordedChecksum m name = .str "" := by
  rw [recordedChecksum_eq m recs name ht, hf]

/-- What `get_table_metadata` guarantees about the updated meta row: the
record is now present, other records and other meta keys are untouched,
and the recorded checksum agrees with the record's `md5`. -/
theorem getTableMetadata_props (m : Row) (name : String) (rec m1 : Row)
    (h : getTableMetadata m name = .ok (rec, m1)) :
    ∃ recs1, alget m1 "tables" = some (.arr recs1) ∧
      findRec recs1 name = .ok (some rec) ∧
      (∀ key, key ≠ "tables" → alget m1 key = alget m key) ∧
      (∀ n', n' ≠ name → recordedChecksum m1 n' = recordedChecksum m n') ∧
      recordedChecksum m1 name = (alget rec "md5").getD (.str "") ∧
      (∀ md5v, alget rec "md5" = some md5v → recordedChecksum m name = md5v) := by
  obtain ⟨recs, ht, hcase⟩ := getTableMetadata_spec m name rec m1 h
  rcases hcase with ⟨hf, hm1⟩ | ⟨hf, hrec, hm1⟩
  · subst hm1
    refine ⟨recs, ht, hf, fun _ _ => rfl, fun _ _ => rfl, ?_, ?_⟩
    · exact recordedChecksum_found _ recs name rec ht hf
    · intro md5v hmd
      rw [recordedChecksum_found _ recs name rec ht hf, hmd]
      rfl
  · subst hm1
    have hz : findRec [Val.obj rec] name = .ok (some rec) := by
      subst hrec
      simp [findRec, alget_cons, pure, Except.pure]
    have ht1 : alget (alset m "tables" (Val.arr (recs ++ [Val.obj rec])))
        "tables" = some (.arr (recs ++ [Val.obj rec])) := alget_alset_self _ _ _
    have hf1 : findRec (recs ++ [Val.obj rec]) name = .ok (some rec) := by
      rw [findRec_append, hf]; exact hz
    refine ⟨recs ++ [.obj rec], ht1, hf1, ?_, ?_, ?_, ?_⟩
    · intro key hk
      exact alget_alset_ne _ _ _ _ hk
    · intro n' hn
      cases hfn : findRec recs n' with
      | error e =>
        rw [recordedChecksum_err _ _ _ e ht1 (by rw [findRec_append, hfn]),
          recordedChecksum_err _ _ _ e ht hfn]
      | ok o =>
        cases o with
        | some r =>
          rw [recordedChecksum_found _ _ _ r ht1 (by rw [findRec_append, hfn]),
            recordedChecksum_found _ _ _ r ht hfn]
        | none =>
          have hz' : findRec [Val.obj rec] n' = .ok none := by
            subst hrec
            have hne : (Val.str name) ≠ .str n' := by
              intro hh; injection hh with hh'; exact hn hh'.symm
            simp [findRec, alget_cons, hne, pure, Except.pure]
          rw [recordedChecksum_notfound _ _ _ ht1
              (by rw [findRec_append, hfn]; exact hz'),
            recordedChecksum_notfound _ _ _ ht hfn]
    · rw [recordedChecksum_found _ _ _ rec ht1 hf1]
    · intro md5v hmd
      rw [recordedChecksum_notfound _ _ _ ht hf]
      subst hrec
      simp [alget_cons] at hmd
      rw [← hmd]

/-- What the record update inside `Table.save` does to the meta row. -/
theorem updateMeta_props (m1 : Row) (name : String) (recs1 : List Val)
    (rec : Row) (cs tv : Val)
    (ht : alget m1 "tables" = some (.arr recs1))
    (hf : findRec recs1 name = .ok (some rec)) :
    (∀ key, key ≠ "tables" →
      alget (mapTablesArr m1 (fun recs =>
        updateRecs recs name (fun r =>
          alset (alset r "md5" cs) "last_modified" tv))) key = alget m1 key) ∧
    recordedChecksum (mapTablesArr m1 (fun recs =>
      updateRecs recs name (fun r =>
        alset (alset r "md5" cs) "last_modified" tv))) name = cs ∧
    (∀ n', n' ≠ name →
      recordedChecksum (mapTablesArr m1 (fun recs =>
        updateRecs recs name (fun r =>
          alset (alset r "md5" cs) "last_modified" tv))) n'
        = recordedChecksum m1 n') := by
  have hpres : ∀ r : Row,
      alget (alset (alset r "md5" cs) "last_modified" tv) "table_name"
        = alget r "table_name" := by
    intro r
    rw [alget_alset_ne _ _ _ _ (by decide), alget_alset_ne _ _ _ _ (by decide)]
  have hm2t : alget (mapTablesArr m1 (fun recs =>
      updateRecs recs name (fun r => alset (alset r "md5" cs) "last_modified" tv)))
      "tables" = some (.arr (updateRecs recs1 name
        (fun r => alset (alset r "md5" cs) "last_modified" tv))) := by
    unfold mapTablesArr
    rw [ht]
    exact alget_alset_self _ _ _
  refine ⟨?_, ?_, ?_⟩
  · intro key hk
    unfold mapTablesArr
    rw [ht]
    exact alget_alset_ne _ _ _ _ hk
  · rw [recordedChecksum_eq _ _ _ hm2t, findRec_updateRecs_self _ _ _ hpres, hf]
    simp only [Except.map, Option.map]
    rw [alget_alset_ne _ _ _ _ (by decide), alget_alset_self]
    rfl
  · intro n' hn
    rw [recordedChecksum_eq _ _ _ hm2t, findRec_updateRecs_ne _ _ _ _ hn hpres,
      recordedChecksum_eq _ recs1 n' ht]

theorem recordedChecksum_alset_other (m : Row) (key : String) (v : Val)
    (n : String) (hk : key ≠ "tables") :
    recordedChecksum (alset m key v) n = recordedChecksum m n := by
  unfold recordedChecksum
  rw [alget_alset_ne _ _ _ _ (Ne.symm hk)]

/-- What one successful `Table.save` does: the written files, the clock,
and the metadata row (its version untouched, the table's record updated to
the fresh checksum, `last_modified` stamped — on the store only for user
tables whose checksum changed). -/
theorem tableSave_spec (S : TableStore) (mt : Table) (k0 : String) (m0 : Row)
    (rest0 : List (String × Row))
    (hmt : S.getTable? "#tsmeta" = some mt)
    (hrows : mt.rows = (k0, m0) :: rest0)
    (m' : Row) (t : Table) (b : Backend) (c : Nat)
    (s' : TableStore) (b' : Backend) (c' : Nat)
    (h : TableStore.tableSave (S.setMetaRow m') t b c = (s', b', c', .ok ())) :
    ∃ m'' files cs,
      t.saveTableData = .ok (files, cs) ∧
      s' = S.setMetaRow m'' ∧
      b' = files.foldl (fun bb p => alset bb p.1 (Blob.val p.2)) b ∧
      (∀ key, key ≠ "tables" → key ≠ "last_modified" →
        alget m'' key = alget m' key) ∧
      recordedChecksum m'' t.name = cs ∧
      (∀ n', n' ≠ t.name → recordedChecksum m'' n' = recordedChecksum m' n') ∧
      (if cs = recordedChecksum m' t.name
       then alget m'' "last_modified" = alget m' "last_modified" ∧ c' = c
       else
         (t.isSystemTable = true →
            alget m'' "last_modified" = alget m' "last_modified" ∧ c' = c + 1) ∧
         (t.isSystemTable = false →
            alget m'' "last_modified" = some (.num (c + 1)) ∧ c' = c + 2)) := by
  unfold TableStore.tableSave at h
  cases hsd : t.saveTableData with
  | error e => rw [hsd] at h; simp at h
  | ok fc =>
    obtain ⟨files, cs⟩ := fc
    simp only [hsd, metaRow_setMetaRow S mt k0 m0 rest0 hmt hrows m'] at h
    cases hg : getTableMetadata m' t.name with
    | error e => simp only [hg] at h; simp at h
    | ok rm =>
      obtain ⟨rec, m1⟩ := rm
      simp only [hg] at h
      obtain ⟨recs1, ht1, hf1, hkeys1, hrc1, hrcname1, hrcm⟩ :=
        getTableMetadata_props m' t.name rec m1 hg
      cases hmd : alget rec "md5" with
      | none => simp only [hmd] at h; simp at h
      | some md5v =>
        simp only [hmd] at h
        have hrecmd : recordedChecksum m' t.name = md5v := hrcm md5v hmd
        by_cases heq : md5v = cs
        · rw [if_pos heq] at h
          simp only [Prod.mk.injEq] at h
          obtain ⟨h1, h2, h3, -⟩ := h
          refine ⟨m1, files, cs, rfl, ?_, h2.symm, ?_, ?_, ?_, ?_⟩
          · rw [← h1, setMetaRow_setMetaRow S mt k0 m0 rest0 hmt hrows]
          · exact fun key hk _ => hkeys1 key hk
          · rw [hrcname1, hmd, heq]; rfl
          · exact hrc1
          · rw [if_pos (by rw [hrecmd, heq])]
            exact ⟨hkeys1 "last_modified" (by decide), h3.symm⟩
        · rw [if_neg heq] at h
          obtain ⟨hU1, hU2, hU3⟩ := updateMeta_props m1 t.name recs1 rec cs
            (.num c) ht1 hf1
          have hcsne : ¬(cs = recordedChecksum m' t.name) := by
            rw [hrecmd]; exact fun hh => heq hh.symm
          cases hsys : t.isSystemTable with
          | true =>
            rw [if_pos (by rw [hsys]) ] at h
            simp only [Prod.mk.injEq] at h
            obtain ⟨h1, h2, h3, -⟩ := h
            refine ⟨mapTablesArr m1 (fun recs =>
                updateRecs recs t.name (fun r =>
                  alset (alset r "md5" cs) "last_modified" (Val.num (c : Int)))),
              files, cs, rfl, ?_, h2.symm, ?_, hU2, ?_, ?_⟩
            · rw [← h1, setMetaRow_setMetaRow S mt k0 m0 rest0 hmt hrows]
            · intro key hk hl
              rw [hU1 key hk, hkeys1 key hk]
            · intro n' hn
              rw [hU3 n' hn, hrc1 n' hn]
            · rw [if_neg hcsne]
              refine ⟨fun _ => ⟨?_, h3.symm⟩, fun hh => nomatch hh⟩
              rw [hU1 "last_modified" (by decide), hkeys1 "last_modified" (by decide)]
          | false =>
            rw [if_neg (by rw [hsys]; exact Bool.false_ne_true)] at h
            simp only [Prod.mk.injEq] at h
            obtain ⟨h1, h2, h3, -⟩ := h
            refine ⟨alset (mapTablesArr m1 (fun recs =>
                updateRecs recs t.name (fun r =>
                  alset (alset r "md5" cs) "last_modified" (Val.num (c : Int)))))
                "last_modified" (Val.num ((c : Int) + 1)),
              files, cs, rfl, ?_, h2.symm, ?_, ?_, ?_, ?_⟩
            · rw [← h1, setMetaRow_setMetaRow S mt k0 m0 rest0 hmt hrows]
            · intro key hk hl
              rw [alget_alset_ne _ _ _ _ hl, hU1 key hk, hkeys1 key hk]
            · rw [recordedChecksum_alset_other _ _ _ _ (by decide)]
              exact hU2
            · intro n' hn
              rw [recordedChecksum_alset_other _ _ _ _ (by decide), hU3 n' hn,
                hrc1 n' hn]
            · rw [if_neg hcsne]
              exact ⟨(fun hh => nomatch hh),
                fun _ => ⟨alget_alset_self _ _ _, h3.symm⟩⟩

theorem mem_of_alget {α : Type} (l : List (String × α)) (k : String) (v : α)
    (h : alget l k = some v) : (k, v) ∈ l := by
  induction l with
  | nil => simp [alget] at h
  | cons p rest ih =>
    obtain ⟨k1, v1⟩ := p
    rw [alget_cons] at h
    by_cases h1 : k1 = k
    · simp only [h1, if_true, Option.some.injEq] at h
      subst h1; subst h
      exact List.mem_cons_self _ _
    · simp only [h1, if_false] at h
      exact List.mem_cons_of_mem _ (ih h)

/-- What one successful pass of `save` over a list of table names does to
the store: only the metadata row moves; the version is untouched; records
of unprocessed tables are untouched; each processed user table's record
now carries its fresh checksum; and the store's `last_modified` either
stays (in which case every processed stable user table's checksum equalled
its recorded one) or carries a stamp no older than the starting clock. -/
theorem saveList_spec (S : TableStore) (mt : Table) (k0 : String) (m0 : Row)
    (rest0 : List (String × Row))
    (hmt : S.getTable? "#tsmeta" = some mt)
    (hrows : mt.rows = (k0, m0) :: rest0)
    (hmtsys : mt.isSystemTable = true)
    (hnm : ∀ p ∈ S.tables, p.2.name = p.1) :
    ∀ (names : List String), names.Nodup →
    ∀ (m' : Row) (b : Backend) (c : Nat) (s' : TableStore) (b' : Backend)
      (c' : Nat),
    TableStore.saveList names (S.setMetaRow m') b c = (s', b', c', .ok ()) →
    ∃ m'',
      s' = S.setMetaRow m'' ∧
      c ≤ c' ∧
      (∀ key, key ≠ "tables" → key ≠ "last_modified" →
        alget m'' key = alget m' key) ∧
      (∀ n', n' ∉ names → recordedChecksum m'' n' = recordedChecksum m' n') ∧
      (∀ n ∈ names, n ≠ "#tsmeta" → ∀ t, S.getTable? n = some t →
        ∃ files cs, t.saveTableData = .ok (files, cs) ∧
          recordedChecksum m'' n = cs) ∧
      ((alget m'' "last_modified" = alget m' "last_modified" ∧
        (∀ n ∈ names, ∀ t, S.getTable? n = some t → t.isSystemTable = false →
          ∃ files cs, t.saveTableData = .ok (files, cs) ∧
            cs = recordedChecksum m' n)) ∨
       (∃ k, c ≤ k ∧ k < c' ∧
        alget m'' "last_modified" = some (.num (k : Int)) ∧
        ∃ nn ∈ names, ∃ tS, S.getTable? nn = some tS ∧
          tS.isSystemTable = false ∧
          ∃ fls csX, tS.saveTableData = .ok (fls, csX) ∧
            csX ≠ recordedChecksum m' nn)) := by
  intro names
  induction names with
  | nil =>
    intro hnd m' b c s' b' c' h
    simp only [TableStore.saveList, Prod.mk.injEq] at h
    obtain ⟨h1, h2, h3, -⟩ := h
    exact ⟨m', h1.symm, le_of_eq h3, fun _ _ _ => rfl, fun _ _ => rfl,
      fun n hn => absurd hn (List.not_mem_nil n),
      Or.inl ⟨rfl, fun n hn => absurd hn (List.not_mem_nil n)⟩⟩
  | cons n rest ih =>
    intro hnd m' b c s' b' c' h
    rw [List.nodup_cons] at hnd
    obtain ⟨hnmem, hndrest⟩ := hnd
    unfold TableStore.saveList at h
    cases hlook : (S.setMetaRow m').getTable? n with
    | none => rw [hlook] at h; simp at h
    | some t =>
      simp only [hlook] at h
      rcases hts : TableStore.tableSave (S.setMetaRow m') t b c with ⟨s1, b1, c1, r1⟩
      rw [hts] at h
      cases r1 with
      | error e =>
        have hcontra : (s1, b1, c1, Except.error (ε := Err) e)
            = (s', b', c', Except.ok ()) := h
        simp at hcontra
      | ok u =>
        obtain ⟨⟩ := u
        replace h : TableStore.saveList rest s1 b1 c1 = (s', b', c', .ok ()) := h
        -- identify the processed table's name and system flag
        have hname : t.name = n := by
          by_cases hn : n = "#tsmeta"
          · subst hn
            rw [setMetaRow_getTable_meta S mt k0 m0 rest0 hmt hrows m'] at hlook
            injection hlook with hlook'
            rw [← hlook']
            exact hnm ("#tsmeta", mt) (mem_of_alget _ _ _ hmt)
          · rw [setMetaRow_getTable_ne S m' n hn] at hlook
            exact hnm (n, t) (mem_of_alget _ _ _ hlook)
        obtain ⟨mStep, files, cs, hsd, hs1, hb1, hkeys, hrcn, hrco, hlm⟩ :=
          tableSave_spec S mt k0 m0 rest0 hmt hrows m' t b c s1 b1 c1 hts
        rw [hs1] at h
        obtain ⟨m'', hs'', hc'', hkeys'', hrco'', hproc'', hlm''⟩ :=
          ih hndrest mStep b1 c1 s' b' c' h
        -- clock bound for the step
        have hcc1 : c ≤ c1 := by
          by_cases hcs : cs = recordedChecksum m' t.name
          · rw [if_pos hcs] at hlm
            exact le_of_eq hlm.2.symm
          · rw [if_neg hcs] at hlm
            cases hsys : t.isSystemTable with
            | true => have := (hlm.1 hsys).2; omega
            | false => have := (hlm.2 hsys).2; omega
        -- the S-table registered under the head name, when it is not the
        -- metadata table, is exactly the table the step saved
        have hstable : n ≠ "#tsmeta" → S.getTable? n = some t := by
          intro hn
          rw [← setMetaRow_getTable_ne S m' n hn]
          exact hlook
        refine ⟨m'', hs'', le_trans hcc1 hc'', ?_, ?_, ?_, ?_⟩
        · intro key hk hl
          rw [hkeys'' key hk hl, hkeys key hk hl]
        · intro n' hn'
          rw [List.mem_cons, not_or] at hn'
          rw [hrco'' n' hn'.2, hrco n' (by rw [hname]; exact hn'.1)]
        · intro nn hnn hnntm tS htS
          rcases List.mem_cons.mp hnn with hh | hh
          · subst hh
            have : tS = t := by
              rw [hstable hnntm] at htS
              injection htS with he
              exact he.symm
            subst this
            refine ⟨files, cs, hsd, ?_⟩
            rw [hrco'' nn hnmem, ← hname, hrcn]
          · obtain ⟨f2, c2, hsd2, hrc2⟩ := hproc'' nn hh hnntm tS htS
            exact ⟨f2, c2, hsd2, hrc2⟩
        · by_cases hcs : cs = recordedChecksum m' t.name
          · rw [if_pos hcs] at hlm
            obtain ⟨hlmu, hc1c⟩ := hlm
            rcases hlm'' with ⟨hA1, hA2⟩ | ⟨k, hk1, hklt, hk2, nn2, hnn2, tS2,
              htS2, hsys2, f3, c3, hsd3, hne3⟩
            · left
              refine ⟨hA1.trans hlmu, ?_⟩
              intro nn hnn tS htS husr
              rcases List.mem_cons.mp hnn with hh | hh
              · subst hh
                by_cases hn : nn = "#tsmeta"
                · rw [hn] at htS
                  rw [htS] at hmt
                  injection hmt with hmt'
                  rw [← hmt'] at hmtsys
                  rw [husr] at hmtsys
                  exact absurd hmtsys (by decide)
                · have : tS = t := by
                    rw [hstable hn] at htS
                    injection htS with he
                    exact he.symm
                  subst this
                  exact ⟨files, cs, hsd, by rw [← hname]; exact hcs⟩
              · obtain ⟨f2, c2, hsd2, hrc2⟩ := hA2 nn hh tS htS husr
                refine ⟨f2, c2, hsd2, ?_⟩
                rw [hrc2, hrco nn (by rw [hname]; intro hh'; exact hnmem (hh' ▸ hh))]
            · right
              refine ⟨k, le_trans (le_of_eq hc1c.symm) hk1, hklt, hk2,
                nn2, List.mem_cons_of_mem n hnn2, tS2, htS2, hsys2,
                f3, c3, hsd3, ?_⟩
              rw [← hrco nn2 (by rw [hname]; intro h4; exact hnmem (h4 ▸ hnn2))]
              exact hne3
          · rw [if_neg hcs] at hlm
            cases hsys : t.isSystemTable with
            | true =>
              obtain ⟨hlmu, hc1c⟩ := hlm.1 hsys
              rcases hlm'' with ⟨hA1, hA2⟩ | ⟨k, hk1, hklt, hk2, nn2, hnn2,
                tS2, htS2, hsys2, f3, c3, hsd3, hne3⟩
              · left
                refine ⟨hA1.trans hlmu, ?_⟩
                intro nn hnn tS htS husr
                rcases List.mem_cons.mp hnn with hh | hh
                · subst hh
                  by_cases hn : nn = "#tsmeta"
                  · rw [hn] at htS
                    rw [htS] at hmt
                    injection hmt with hmt'
                    rw [← hmt'] at hmtsys
                    rw [husr] at hmtsys
                    exact absurd hmtsys (by decide)
                  · have : tS = t := by
                      rw [hstable hn] at htS
                      injection htS with he
                      exact he.symm
                    subst this
                    rw [husr] at hsys
                    exact absurd hsys (by decide)
                · obtain ⟨f2, c2, hsd2, hrc2⟩ := hA2 nn hh tS htS husr
                  refine ⟨f2, c2, hsd2, ?_⟩
                  rw [hrc2, hrco nn (by rw [hname]; intro hh'; exact hnmem (hh' ▸ hh))]
              · right
                refine ⟨k, by omega, hklt, hk2,
                  nn2, List.mem_cons_of_mem n hnn2, tS2, htS2, hsys2,
                  f3, c3, hsd3, ?_⟩
                rw [← hrco nn2 (by rw [hname]; intro h4; exact hnmem (h4 ▸ hnn2))]
                exact hne3
            | false =>
              obtain ⟨hlmu, hc1c⟩ := hlm.2 hsys
              have hn : n ≠ "#tsmeta" := by
                intro hh
                rw [hh, setMetaRow_getTable_meta S mt k0 m0 rest0 hmt hrows m']
                  at hlook
                injection hlook with hlook'
                rw [← hlook'] at hsys
                rw [show ({ mt with rows := (k0, m') :: rest0 } :
                    Table).isSystemTable = mt.isSystemTable from rfl,
                  hmtsys] at hsys
                exact nomatch hsys
              have hwit : S.getTable? n = some t := hstable hn
              have hnecs : cs ≠ recordedChecksum m' n := by
                rw [← hname]; exact hcs
              right
              rcases hlm'' with ⟨hA1, -⟩ | ⟨k, hk1, hklt, hk2, -⟩
              · refine ⟨c + 1, Nat.le_succ c, by omega, ?_, n,
                  List.mem_cons_self n rest, t, hwit, hsys, files, cs, hsd,
                  hnecs⟩
                rw [hA1, hlmu]
                simp
              · exact ⟨k, by omega, hklt, hk2, n, List.mem_cons_self n rest, t,
                  hwit, hsys, files, cs, hsd, hnecs⟩

/-- Everything a successful `save_to_backend` run does to the store: the
tables survive except that the metadata row is replaced; the version moves
exactly by the user-change indicator; `last_modified` remains an integer
stamp strictly older than the final clock; every non-system table's record
carries that table's fresh content checksum; and the clock never goes
backwards. -/
theorem saveToBackend_run_spec
    (s : TableStore) (mt : Table) (k0 : String) (m : Row)
    (rest0 : List (String × Row)) (b : Backend) (c : Nat)
    (hmt : s.getTable? "#tsmeta" = some mt)
    (hmtsys : mt.isSystemTable = true)
    (hrows : mt.rows = (k0, m) :: rest0)
    (hnm : ∀ p ∈ s.tables, p.2.name = p.1)
    (hnd : (s.tables.map (·.1)).Nodup)
    (v t0 : Int)
    (hv : alget m "version" = some (.num v))
    (hlm : alget m "last_modified" = some (.num t0))
    (hclk : t0 < (c : Int))
    (s' : TableStore) (b' : Backend) (c' : Nat)
    (hsave : s.saveToBackend b c = (s', b', c', .ok ())) :
    ∃ mF,
      s'.tables = alset s.tables "#tsmeta"
        { mt with rows := (k0, mF) :: rest0 } ∧
      s'.metaRow = .ok mF ∧
      alget mF "version" =
        some (.num (if s.userChangedB m then v + 1 else v)) ∧
      (∃ t1 : Int, alget mF "last_modified" = some (.num t1) ∧
        t1 < (c' : Int)) ∧
      (∀ n t, s.getTable? n = some t → t.isSystemTable = false →
        ∃ files cs, t.saveTableData = .ok (files, cs) ∧
          recordedChecksum mF n = cs) ∧
      c ≤ c' := by
  have hmt1 : ({ s with tableorder := s.tables.map (·.1) } :
      TableStore).getTable? "#tsmeta" = some mt := hmt
  have hself : ({ s with tableorder := s.tables.map (·.1) } :
      TableStore).setMetaRow m = { s with tableorder := s.tables.map (·.1) } :=
    setMetaRow_self _ mt k0 m rest0 hmt1 hrows
  have hmr1 : ({ s with tableorder := s.tables.map (·.1) } :
      TableStore).metaRow = .ok m := by
    rw [← hself]
    exact metaRow_setMetaRow _ mt k0 m rest0 hmt1 hrows m
  have hndU : ((s.tables.filter (fun p => !p.2.isSystemTable)).map
      (·.1)).Nodup :=
    List.Nodup.sublist ((List.filter_sublist _).map _) hnd
  have hndS : ((s.tables.filter (fun p => p.2.isSystemTable)).map
      (·.1)).Nodup :=
    List.Nodup.sublist ((List.filter_sublist _).map _) hnd
  have hnotSys : ∀ n t, s.getTable? n = some t → t.isSystemTable = false →
      n ∉ (s.tables.filter (fun p => p.2.isSystemTable)).map (·.1) := by
    intro n t hg husr hmem
    obtain ⟨q, hqf, hq1⟩ := List.mem_map.mp hmem
    obtain ⟨qn, qt⟩ := q
    rw [List.mem_filter] at hqf
    obtain ⟨hqmem, hqsys⟩ := hqf
    have hqsys1 : qt.isSystemTable = true := hqsys
    have hq1n : qn = n := hq1
    have hq2 : alget s.tables qn = some qt :=
      alget_of_mem_nodup s.tables qn qt hnd hqmem
    rw [hq1n] at hq2
    replace hg : alget s.tables n = some t := hg
    rw [hg] at hq2
    injection hq2 with hq3
    rw [← hq3] at hqsys1
    rw [husr] at hqsys1
    exact nomatch hqsys1
  simp only [TableStore.saveToBackend, TableStore.getDefinition] at hsave
  simp only [hmr1] at hsave
  simp only [hlm] at hsave
  split at hsave
  · exact absurd hsave (by simp)
  next s2 b2 c2 heq =>
    rw [← hself] at heq
    obtain ⟨m2, hs2, hc2, hkeys2, hrco2, hproc2, hdisj2⟩ :=
      saveList_spec _ mt k0 m rest0 hmt1 hrows hmtsys hnm
        ((s.tables.filter (fun p => !p.2.isSystemTable)).map (·.1)) hndU
        m _ c s2 b2 c2 heq
    have hmr2 : s2.metaRow = .ok m2 := by
      rw [hs2]
      exact metaRow_setMetaRow _ mt k0 m rest0 hmt1 hrows m2
    simp only [hmr2] at hsave
    have hv2 : alget m2 "version" = some (.num v) := by
      rw [hkeys2 "version" (by decide) (by decide), hv]
    have hUser : ∀ n t, s.getTable? n = some t → t.isSystemTable = false →
        ∃ files cs, t.saveTableData = .ok (files, cs) ∧
          recordedChecksum m2 n = cs := by
      intro n t hg husr
      have hnmeta : n ≠ "#tsmeta" := by
        intro hh
        rw [hh, hmt] at hg
        injection hg with hg2
        rw [← hg2, hmtsys] at husr
        exact nomatch husr
      have hmemU : n ∈ (s.tables.filter (fun p => !p.2.isSystemTable)).map
          (·.1) :=
        List.mem_map.mpr ⟨(n, t),
          List.mem_filter.mpr ⟨mem_of_alget _ _ _ hg, by rw [husr]; rfl⟩, rfl⟩
      exact hproc2 n hmemU hnmeta t hg
    cases hq : s.userChangedB m with
    | false =>
      have hlm2 : alget m2 "last_modified" = some (.num t0) := by
        rcases hdisj2 with ⟨hlmA, -⟩ |
          ⟨k, hk1, hklt, hk2, nn, hnn, tS, htS, hsysS, fls, csX, hsdX, hneX⟩
        · rw [hlmA, hlm]
        · have hck : tS.checksum = some csX := by
            unfold Table.checksum
            rw [hsdX]
          have hpmem : (nn, tS) ∈ s.tables := mem_of_alget s.tables nn tS htS
          have hany : s.userChangedB m = true := by
            unfold TableStore.userChangedB
            exact List.any_eq_true.mpr ⟨(nn, tS), hpmem, by
              simp only [hsysS, hck, Bool.not_false, Bool.true_and,
                decide_eq_true_eq, ne_eq, Option.some.injEq]
              exact hneX⟩
          rw [hq] at hany
          exact nomatch hany
      simp only [hlm2] at hsave
      rw [if_neg (not_not_intro rfl)] at hsave
      simp only [] at hsave
      rw [hs2] at hsave
      obtain ⟨m4, hs4, hc4, hkeys4, hrco4, hproc4, hdisj4⟩ :=
        saveList_spec _ mt k0 m rest0 hmt1 hrows hmtsys hnm
          ((s.tables.filter (fun p => p.2.isSystemTable)).map (·.1)) hndS
          m2 _ c2 s' b' c' hsave
      refine ⟨m4, ?_, ?_, ?_, ?_, ?_, le_trans hc2 hc4⟩
      · rw [hs4, setMetaRow_eq_setTable _ mt k0 m rest0 hmt1 hrows]
        rfl
      · rw [hs4]
        exact metaRow_setMetaRow _ mt k0 m rest0 hmt1 hrows m4
      · rw [hkeys4 "version" (by decide) (by decide), hv2, if_neg (by decide)]
      · rcases hdisj4 with ⟨hA1, -⟩ |
          ⟨k4, hk41, hk4lt, hk42, nn, hnn, tS, htS, hsysS, -⟩
        · refine ⟨t0, by rw [hA1, hlm2], by omega⟩
        · exfalso
          replace htS : s.getTable? nn = some tS := htS
          exact hnotSys nn tS htS hsysS hnn
      · intro n t hg husr
        obtain ⟨files, cs, hsd, hrc⟩ := hUser n t hg husr
        exact ⟨files, cs, hsd, by rw [hrco4 n (hnotSys n t hg husr), hrc]⟩
    | true =>
      obtain ⟨k, hk1, hklt, hk2, -⟩ :
          ∃ k, c ≤ k ∧ k < c2 ∧
            alget m2 "last_modified" = some (.num (k : Int)) ∧ True := by
        rcases hdisj2 with ⟨hlmA, hA2⟩ | ⟨k, hk1, hklt, hk2, -⟩
        · exfalso
          have hq2 : s.tables.any (fun p => !p.2.isSystemTable &&
              decide (p.2.checksum ≠ some (recordedChecksum m p.1))) = true :=
            hq
          obtain ⟨p, hpmem, hfp⟩ := List.any_eq_true.mp hq2
          obtain ⟨n1, t1⟩ := p
          simp only [Bool.and_eq_true, Bool.not_eq_true',
            decide_eq_true_eq] at hfp
          obtain ⟨hfp1, hfp2⟩ := hfp
          have hmemU : n1 ∈ (s.tables.filter
              (fun p => !p.2.isSystemTable)).map (·.1) :=
            List.mem_map.mpr ⟨(n1, t1),
              List.mem_filter.mpr ⟨hpmem, by rw [hfp1]; rfl⟩, rfl⟩
          have hgt : ({ s with tableorder := s.tables.map (·.1) } :
              TableStore).getTable? n1 = some t1 :=
            alget_of_mem_nodup s.tables n1 t1 hnd hpmem
          obtain ⟨fls, csX, hsdX, hcseq⟩ := hA2 n1 hmemU t1 hgt hfp1
          have hck : t1.checksum = some csX := by
            unfold Table.checksum
            rw [hsdX]
          exact hfp2 (by rw [hck, hcseq])
        · exact ⟨k, hk1, hklt, hk2, trivial⟩
      simp only [hk2] at hsave
      have hneq : (Val.num (k : Int)) ≠ Val.num t0 := by
        intro hh
        injection hh with hh2
        omega
      rw [if_pos hneq] at hsave
      simp only [hv2] at hsave
      rw [hs2, setMetaRow_setMetaRow _ mt k0 m rest0 hmt1 hrows] at hsave
      obtain ⟨m4, hs4, hc4, hkeys4, hrco4, hproc4, hdisj4⟩ :=
        saveList_spec _ mt k0 m rest0 hmt1 hrows hmtsys hnm
          ((s.tables.filter (fun p => p.2.isSystemTable)).map (·.1)) hndS
          (alset m2 "version" (.num (v + 1))) _ c2 s' b' c' hsave
      refine ⟨m4, ?_, ?_, ?_, ?_, ?_, le_trans hc2 hc4⟩
      · rw [hs4, setMetaRow_eq_setTable _ mt k0 m rest0 hmt1 hrows]
        rfl
      · rw [hs4]
        exact metaRow_setMetaRow _ mt k0 m rest0 hmt1 hrows m4
      · rw [hkeys4 "version" (by decide) (by decide), alget_alset_self,
          if_pos rfl]
      · rcases hdisj4 with ⟨hA1, -⟩ |
          ⟨k4, hk41, hk4lt, hk42, nn, hnn, tS, htS, hsysS, -⟩
        · refine ⟨k, ?_, by omega⟩
          rw [hA1, alget_alset_ne _ _ _ _ (by decide), hk2]
        · exfalso
          replace htS : s.getTable? nn = some tS := htS
          exact hnotSys nn tS htS hsysS hnn
      · intro n t hg husr
        obtain ⟨files, cs, hsd, hrc⟩ := hUser n t hg husr
        refine ⟨files, cs, hsd, ?_⟩
        rw [hrco4 n (hnotSys n t hg husr),
          recordedChecksum_alset_other _ _ _ _ (by decide), hrc]

/-- C2: on every successful `save_to_backend` run the store-wide integer
`version` of the metadata row increments by exactly 1 when at least one
non-system table's content checksum differs from the checksum recorded in
the metadata at the start of the save, and is unchanged when no non-system
table's checksum changed.  Hypotheses: the store holds a populated system
`#tsmeta` table whose single row carries an integer `version` and an
integer `last_modified` timestamp older than the wall clock; tables are
registered under their own names, with no duplicate registrations. -/
theorem saveToBackend_version_spec
    (s : TableStore) (mt : Table) (k0 : String) (m : Row)
    (rest0 : List (String × Row)) (b : Backend) (c : Nat)
    (hmt : s.getTable? "#tsmeta" = some mt)
    (hmtsys : mt.isSystemTable = true)
    (hrows : mt.rows = (k0, m) :: rest0)
    (hnm : ∀ p ∈ s.tables, p.2.name = p.1)
    (hnd : (s.tables.map (·.1)).Nodup)
    (v t0 : Int)
    (hv : alget m "version" = some (.num v))
    (hlm : alget m "last_modified" = some (.num t0))
    (hclk : t0 < (c : Int))
    (s' : TableStore) (b' : Backend) (c' : Nat)
    (hsave : s.saveToBackend b c = (s', b', c', .ok ())) :
    ∃ mF, s'.metaRow = .ok mF ∧
      alget mF "version" =
        some (.num (if s.userChangedB m then v + 1 else v)) := by
  obtain ⟨mF, -, h1, h2, -, -, -⟩ :=
    saveToBackend_run_spec s mt k0 m rest0 b c hmt hmtsys hrows hnm hnd
      v t0 hv hlm hclk s' b' c' hsave
  exact ⟨mF, h1, h2⟩

/-- C2 witness: the version law applied to a concrete store whose only
table is the metadata table, saved on an empty backend at clock 5: no
non-system checksum can change, so the version stays 7. -/
theorem saveToBackend_version_spec_witness :
    ∃ mF, wSave.1.metaRow = .ok mF ∧ alget mF "version" = some (.num 7) := by
  obtain ⟨mF, h1, h2⟩ :=
    saveToBackend_version_spec wStore wMetaTable "" wMetaRow [] [] 5
      rfl rfl rfl (by decide) (by decide) 7 0 rfl rfl (by decide)
      wSave.1 wSave.2.1 wSave.2.2.1 rfl
  exact ⟨mF, h1, by rw [h2]; rfl⟩

/-- C3 counterexample: saving the minimal store twice with no mutation in
between changes the checksum recorded for the system `#tsmeta` table: its
document embeds its own metadata record, which each save rewrites only
after serializing the document.  Both saves succeed, so "every table's
recorded checksum is unchanged by the second save" fails. -/
theorem secondSave_changes_tsmeta_checksum :
    wSave.2.2.2 = .ok () ∧ wSave2.2.2.2 = .ok () ∧
    wSave.1.metaRow.map (fun mm => recordedChecksum mm "#tsmeta") ≠
      wSave2.1.metaRow.map (fun mm => recordedChecksum mm "#tsmeta") :=
  ⟨rfl, rfl, by decide⟩

/-- C3 (amended): a second `save_to_backend` immediately after a first,
with no table mutated in between, leaves the store version and every
NON-SYSTEM table's recorded checksum unchanged; the system `#tsmeta`
table's own recorded checksum is not stable (see the counterexample).
Well-formedness hypotheses as in the version law. -/
theorem saveToBackend_idempotent_nonSystem
    (s : TableStore) (mt : Table) (k0 : String) (m : Row)
    (rest0 : List (String × Row)) (b : Backend) (c : Nat)
    (hmt : s.getTable? "#tsmeta" = some mt)
    (hmtsys : mt.isSystemTable = true)
    (hrows : mt.rows = (k0, m) :: rest0)
    (hnm : ∀ p ∈ s.tables, p.2.name = p.1)
    (hnd : (s.tables.map (·.1)).Nodup)
    (v t0 : Int)
    (hv : alget m "version" = some (.num v))
    (hlm : alget m "last_modified" = some (.num t0))
    (hclk : t0 < (c : Int))
    (s1 : TableStore) (b1 : Backend) (c1 : Nat)
    (h1 : s.saveToBackend b c = (s1, b1, c1, .ok ()))
    (s2 : TableStore) (b2 : Backend) (c2 : Nat)
    (h2 : s1.saveToBackend b1 c1 = (s2, b2, c2, .ok ())) :
    ∃ m1 m2, s1.metaRow = .ok m1 ∧ s2.metaRow = .ok m2 ∧
      alget m2 "version" = alget m1 "version" ∧
      ∀ n t, s.getTable? n = some t → t.isSystemTable = false →
        recordedChecksum m2 n = recordedChecksum m1 n := by
  obtain ⟨mF, htab1, hmrF, hverF, ⟨t1, hlmF, hltF⟩, hrecF, hccF⟩ :=
    saveToBackend_run_spec s mt k0 m rest0 b c hmt hmtsys hrows hnm hnd
      v t0 hv hlm hclk s1 b1 c1 h1
  have hmt1 : s1.getTable? "#tsmeta" =
      some { mt with rows := (k0, mF) :: rest0 } := by
    show alget s1.tables "#tsmeta" = _
    rw [htab1]
    exact alget_alset_self _ _ _
  have hmtname : mt.name = "#tsmeta" :=
    hnm ("#tsmeta", mt) (mem_of_alget _ _ _ hmt)
  have hnm1 : ∀ p ∈ s1.tables, p.2.name = p.1 := by
    rw [htab1]
    intro p hp
    rcases mem_alset _ _ _ p hp with hmem | heq
    · exact hnm p hmem
    · rw [heq]
      exact hmtname
  have hnd1 : (s1.tables.map (·.1)).Nodup := by
    rw [htab1, keys_alset_of_get s.tables "#tsmeta" _ mt hmt]
    exact hnd
  obtain ⟨mG, htab2, hmrG, hverG, ⟨t2v, hlmG, hltG⟩, hrecG, hccG⟩ :=
    saveToBackend_run_spec s1 { mt with rows := (k0, mF) :: rest0 } k0 mF
      rest0 b1 c1 hmt1 hmtsys rfl hnm1 hnd1
      (if s.userChangedB m then v + 1 else v) t1 hverF hlmF hltF
      s2 b2 c2 h2
  have husr1 : s1.userChangedB mF = false := by
    cases hb : s1.userChangedB mF with
    | false => rfl
    | true =>
      exfalso
      have hb2 : s1.tables.any (fun p => !p.2.isSystemTable &&
          decide (p.2.checksum ≠ some (recordedChecksum mF p.1))) = true := hb
      obtain ⟨p, hp, hfp⟩ := List.any_eq_true.mp hb2
      obtain ⟨pn, pt⟩ := p
      simp only [Bool.and_eq_true, Bool.not_eq_true',
        decide_eq_true_eq] at hfp
      obtain ⟨hfp1, hfp2⟩ := hfp
      rw [htab1] at hp
      rcases mem_alset _ _ _ _ hp with hmem | heq
      · have hg : s.getTable? pn = some pt :=
          alget_of_mem_nodup s.tables pn pt hnd hmem
        obtain ⟨files, cs, hsd, hrc⟩ := hrecF pn pt hg hfp1
        have hck : pt.checksum = some cs := by
          unfold Table.checksum
          rw [hsd]
        exact hfp2 (by rw [hck, hrc])
      · have hpt : pt = { mt with rows := (k0, mF) :: rest0 } :=
          congrArg Prod.snd heq
        rw [hpt] at hfp1
        have : mt.isSystemTable = false := hfp1
        rw [hmtsys] at this
        exact nomatch this
  refine ⟨mF, mG, hmrF, hmrG, ?_, ?_⟩
  · rw [hverG, hverF, husr1]
    rfl
  · intro n t hg husr
    have hnmeta : n ≠ "#tsmeta" := by
      intro hh
      rw [hh, hmt] at hg
      injection hg with hg2
      rw [← hg2, hmtsys] at husr
      exact nomatch husr
    have hg1 : s1.getTable? n = some t := by
      show alget s1.tables n = some t
      rw [htab1, alget_alset_ne _ _ _ _ hnmeta]
      exact hg
    obtain ⟨f1, cs1, hsd1, hrc1⟩ := hrecF n t hg husr
    obtain ⟨f2, cs2, hsd2, hrc2⟩ := hrecG n t hg1 husr
    rw [hsd1] at hsd2
    injection hsd2 with hsd3
    injection hsd3 with hfe hce
    rw [hrc2, hrc1, hce]

/-- Singleton row lists with a mismatching field do not hold the same
row set. -/
theorem not_sameRowSet_singleton (r1 r2 : Row) (k : String)
    (h : alget r1 k ≠ alget r2 k) : ¬ sameRowSet [r1] [r2] := by
  intro hs
  obtain ⟨hA, -⟩ := hs
  obtain ⟨r3, hr3, heqv⟩ := hA r1 (List.mem_singleton.mpr rfl)
  rw [List.mem_singleton] at hr3
  subst hr3
  exact h (heqv k)

/-- C1 counterexample: saving the minimal store and reloading its backend
into a fresh store succeeds, yet the `#tsmeta` table of the loaded store
does not hold the same row set as the saved store's: the saved document
was serialized before the save rewrote the row's own metadata record, so
the reloaded row's `tables` field disagrees. -/
theorem roundTrip_meta_row_differs :
    wSave.2.2.2 = .ok () ∧ wLoad.2.2 = .ok () ∧
    ¬ (∀ n t1 t2, wSave.1.getTable? n = some t1 →
        wLoad.1.getTable? n = some t2 →
        sameRowSet (t1.rows.map (·.2)) (t2.rows.map (·.2))) := by
  refine ⟨rfl, rfl, fun hAll => ?_⟩
  have h2 := hAll "#tsmeta" _ _ rfl rfl
  exact not_sameRowSet_singleton _ _ "tables" (by decide) h2

/-! ## Round-trip infrastructure: association lists and documents -/

theorem alget_map_snd {α β : Type} (l : List (String × α)) (g : α → β)
    (k : String) :
    alget (l.map (fun p => (p.1, g p.2))) k = (alget l k).map g := by
  induction l with
  | nil => rfl
  | cons p rest ih =>
    obtain ⟨k1, v1⟩ := p
    rw [List.map_cons]
    rw [alget_cons, alget_cons]
    by_cases h : k1 = k
    · simp [h]
    · simp [h, ih]

theorem alset_append_of_none {α : Type} (l : List (String × α)) (k : String)
    (v : α) (h : alget l k = none) : alset l k v = l ++ [(k, v)] := by
  induction l with
  | nil => rfl
  | cons p rest ih =>
    obtain ⟨k1, v1⟩ := p
    rw [alget_cons] at h
    by_cases h1 : k1 = k
    · simp [h1] at h
    · simp only [h1, if_false] at h
      simp [alset, h1, ih h]

theorem nodup_keys_alset {α : Type} (l : List (String × α)) (k : String)
    (v : α) (h : (l.map (·.1)).Nodup) : ((alset l k v).map (·.1)).Nodup := by
  cases hg : alget l k with
  | some w => rw [keys_alset_of_get l k v w hg]; exact h
  | none =>
    rw [alset_append_of_none l k v hg, List.map_append]
    rw [List.nodup_append]
    refine ⟨h, List.nodup_singleton _, ?_⟩
    intro a ha hb
    simp only [List.map_cons, List.map_nil, List.mem_singleton] at hb
    subst hb
    rw [alget_eq_none_iff] at hg
    obtain ⟨p, hp, hp1⟩ := List.mem_map.mp ha
    exact hg p hp hp1

theorem alupdate_nodup {α : Type} (other : List (String × α)) :
    ∀ (base : List (String × α)), (base.map (·.1)).Nodup →
    ((alupdate base other).map (·.1)).Nodup := by
  induction other with
  | nil => intro base h; exact h
  | cons p rest ih =>
    intro base h
    simp only [alupdate, List.foldl_cons] at ih ⊢
    exact ih _ (nodup_keys_alset _ _ _ h)

theorem resolveDefaults_keys (d : Row) :
    ∀ c : Nat, ((resolveDefaults d c).1).map (·.1) = d.map (·.1) := by
  induction d with
  | nil => intro c; rfl
  | cons p rest ih =>
    intro c
    obtain ⟨k, v⟩ := p
    cases v with
    | str s =>
      by_cases hs : s = "@@utcnow" <;>
        · simp only [resolveDefaults, hs, if_true, if_false, List.map_cons]
          rw [ih]
    | num a =>
      simp only [resolveDefaults, List.map_cons]
      rw [ih]
    | bool a =>
      simp only [resolveDefaults, List.map_cons]
      rw [ih]
    | null =>
      simp only [resolveDefaults, List.map_cons]
      rw [ih]
    | arr a =>
      simp only [resolveDefaults, List.map_cons]
      rw [ih]
    | obj a =>
      simp only [resolveDefaults, List.map_cons]
      rw [ih]

/-- `get_filename` never reads the rows. -/
theorem getFilename_rows_irrel (t : Table) (r : List (String × Row)) :
    Table.getFilename { t with rows := r } none false =
      t.getFilename none false := rfl

theorem canonicalizeKey_congr (t : Table) (m1 m2 : Row)
    (h : ∀ k, alget m1 k = alget m2 k) :
    t.canonicalizeKey m1 = t.canonicalizeKey m2 := by
  cases hsr : t.isSingleRow with
  | true => simp [Table.canonicalizeKey, hsr]
  | false =>
    rw [canonicalizeKey_plain t m1 hsr, canonicalizeKey_plain t m2 hsr,
      joinedKey_congr t.pkFields m1 m2 (fun f _ => h f),
      allHas_congr t.pkFields m1 m2 (fun f _ => h f)]

theorem pkFold_spec (r : Row) :
    ∀ (fields : List String) (acc d0 : Row),
    (acc.map (·.1)).Nodup →
    (∀ k v, alget acc k = some v → alget r k = some v) →
    fields.foldlM (fun (acc : Row) k =>
      match alget r k with
      | none => Except.error Err.keyErr
      | some v => pure (alset acc k v)) acc = .ok d0 →
    (d0.map (·.1)).Nodup ∧ (∀ k v, alget d0 k = some v → alget r k = some v) := by
  intro fields
  induction fields with
  | nil =>
    intro acc d0 h1 h2 h3
    rw [List.foldlM_nil] at h3
    replace h3 : (Except.ok acc : Except Err Row) = .ok d0 := h3
    injection h3 with h3
    subst h3
    exact ⟨h1, h2⟩
  | cons f rest ih =>
    intro acc d0 h1 h2 h3
    rw [List.foldlM_cons] at h3
    cases hf : alget r f with
    | none =>
      rw [hf] at h3
      simp [Bind.bind, Except.bind] at h3
    | some v =>
      rw [hf] at h3
      replace h3 : rest.foldlM (fun (acc : Row) k =>
          match alget r k with
          | none => Except.error Err.keyErr
          | some v => pure (alset acc k v)) (alset acc f v) = .ok d0 := h3
      refine ih (alset acc f v) d0 (nodup_keys_alset _ _ _ h1) ?_ h3
      intro k w hw
      by_cases hk : k = f
      · subst hk
        rw [alget_alset_self] at hw
        injection hw with hw
        rw [hw] at hf
        exact hf
      · rw [alget_alset_ne _ _ _ _ hk] at hw
        exact h2 k w hw

theorem orderlyRow_spec (t : Table) (r d : Row)
    (hr : (r.map (·.1)).Nodup) (h : t.orderlyRow r = .ok d) :
    (∀ k, alget d k = alget r k) ∧ ((d.map (·.1)).Nodup) := by
  unfold Table.orderlyRow at h
  rcases hfold : (t.pkFields.foldlM (fun (acc : Row) k =>
      match alget r k with
      | none => Except.error Err.keyErr
      | some v => pure (alset acc k v)) ([] : Row)) with e | d0
  · rw [hfold] at h
    simp [Bind.bind, Except.bind] at h
  · rw [hfold] at h
    replace h : (Except.ok (alupdate d0 r) : Except Err Row) = .ok d := h
    injection h with h
    subst h
    obtain ⟨hnd0, hval0⟩ := pkFold_spec r t.pkFields [] d0
      (by simp) (by intro k v hv; simp [alget] at hv) hfold
    constructor
    · intro k
      cases hk : alget r k with
      | some v =>
        rw [alget_alupdate_of_mem d0 r k hr (by rw [hk]; rfl), hk]
      | none =>
        rw [alget_alupdate_not_mem d0 r k hk]
        cases hd0 : alget d0 k with
        | none => rfl
        | some w =>
          have := hval0 k w hd0
          rw [hk] at this
          exact nomatch this
    · exact alupdate_nodup r d0 hnd0

theorem mapM_ok_forall2 {α β : Type} (f : α → Except Err β) :
    ∀ (l : List α) (res : List β), l.mapM f = .ok res →
    List.Forall₂ (fun x y => f x = .ok y) l res := by
  intro l
  induction l with
  | nil =>
    intro res h
    rw [List.mapM_nil] at h
    replace h : (Except.ok [] : Except Err (List β)) = .ok res := h
    injection h with h
    subst h
    exact List.Forall₂.nil
  | cons a l ih =>
    intro res h
    rw [List.mapM_cons] at h
    cases ha : f a with
    | error e =>
      rw [ha] at h
      simp [Bind.bind, Except.bind] at h
    | ok y =>
      rw [ha] at h
      replace h : (l.mapM f >>= fun xs =>
          (pure (y :: xs) : Except Err (List β))) = .ok res := h
      cases hl : l.mapM f with
      | error e =>
        rw [hl] at h
        simp [Bind.bind, Except.bind] at h
      | ok ys =>
        rw [hl] at h
        replace h : (Except.ok (y :: ys) : Except Err (List β)) = .ok res := h
        injection h with h
        subst h
        exact List.Forall₂.cons ha (ih ys hl)

theorem mapM_congr_except {α β : Type} (l : List α) (f g : α → Except Err β)
    (h : ∀ x ∈ l, f x = g x) : l.mapM f = l.mapM g := by
  induction l with
  | nil => rfl
  | cons a l ih =>
    rw [List.mapM_cons, List.mapM_cons, h a (List.mem_cons_self a l),
      ih (fun x hx => h x (List.mem_cons_of_mem a hx))]

theorem mapM_lookup_self (L : List (String × Table))
    (hnd : (L.map (·.1)).Nodup) :
    (L.map (·.1)).mapM (fun n =>
      match alget L n with
      | none => Except.error Err.keyErr
      | some td => pure (n, td)) = .ok L := by
  induction L with
  | nil => rfl
  | cons p rest ih =>
    obtain ⟨k, t⟩ := p
    rw [List.map_cons, List.nodup_cons] at hnd
    obtain ⟨hk1, hk2⟩ := hnd
    have hfun : ∀ n ∈ rest.map (·.1),
        (match alget ((k, t) :: rest) n with
         | none => (Except.error Err.keyErr : Except Err (String × Table))
         | some td => pure (n, td)) =
        (match alget rest n with
         | none => (Except.error Err.keyErr : Except Err (String × Table))
         | some td => pure (n, td)) := by
      intro n hn
      have hne : ¬(k = n) := fun hh => hk1 (hh ▸ hn)
      rw [alget_cons, if_neg hne]
    have hrest := (mapM_congr_except (rest.map (·.1)) _ _ hfun).trans (ih hk2)
    simp only [List.map_cons, List.mapM_cons]
    have hk : alget ((k, t) :: rest) k = some t := by
      rw [alget_cons, if_pos rfl]
    rw [hk]
    show ((rest.map (·.1)).mapM (fun n =>
        match alget ((k, t) :: rest) n with
        | none => Except.error Err.keyErr
        | some td => pure (n, td)) >>= fun xs =>
        (pure ((k, t) :: xs) : Except Err (List (String × Table))))
      = .ok ((k, t) :: rest)
    rw [hrest]
    rfl

theorem mapM_ok_id {α : Type} (f : α → Except Err α)
    (hf : ∀ x, f x = .ok x ∨ ∃ e, f x = .error e) :
    ∀ (l res : List α), l.mapM f = .ok res → res = l := by
  intro l
  induction l with
  | nil =>
    intro res h
    rw [List.mapM_nil] at h
    replace h : (Except.ok [] : Except Err (List α)) = .ok res := h
    injection h with h
    exact h.symm
  | cons a l ih =>
    intro res h
    rw [List.mapM_cons] at h
    rcases hf a with ha | ⟨e, ha⟩
    · rw [ha] at h
      replace h : (l.mapM f >>= fun xs =>
          (pure (a :: xs) : Except Err (List α))) = .ok res := h
      cases hl : l.mapM f with
      | error e =>
        rw [hl] at h
        simp [Bind.bind, Except.bind] at h
      | ok ys =>
        rw [hl] at h
        replace h : (Except.ok (a :: ys) : Except Err (List α)) = .ok res := h
        injection h with h
        rw [← h, ih ys hl]
    · rw [ha] at h
      simp [Bind.bind, Except.bind] at h

theorem initFromDefinition_ok (s0 : TableStore) (L : List (String × Table))
    (o : String) (hnd : (L.map (·.1)).Nodup) (L1 : TableStore)
    (h : s0.initFromDefinition (.defn L (L.map (·.1)) o) = .ok L1) :
    L1 = { tables := L, tableorder := L.map (·.1), origin := o } := by
  unfold TableStore.initFromDefinition at h
  simp only [] at h
  rw [mapM_lookup_self L hnd] at h
  replace h : (L.mapM (fun p => do
      let _ ← Table.init p.1 p.2.isSingleRow
      pure p) >>= fun rebuilt =>
      (pure { tables := rebuilt, tableorder := L.map (·.1), origin := o }
        : Except Err TableStore)) = .ok L1 := h
  cases hreb : L.mapM (fun p => (do
      let _ ← Table.init p.1 p.2.isSingleRow
      pure p : Except Err (String × Table))) with
  | error e =>
    rw [hreb] at h
    simp [Bind.bind, Except.bind] at h
  | ok res =>
    rw [hreb] at h
    have hres : res = L := by
      refine mapM_ok_id _ ?_ L res hreb
      intro p
      cases hi : Table.init p.1 p.2.isSingleRow with
      | error e =>
        right
        exact ⟨e, rfl⟩
      | ok t0 =>
        left
        rfl
    subst hres
    replace h : (Except.ok
        ({ tables := res,
           tableorder := List.map (fun (x : String × Table) => x.1) res,
           origin := o } : TableStore)
        : Except Err TableStore) = .ok L1 := h
    injection h with h
    exact h.symm

theorem saveTableData_single (t : Table) (hsr : t.isSingleRow = true)
    (files : List (String × Val)) (cs : Val)
    (h : t.saveTableData = .ok (files, cs)) :
    ∃ fn, t.getFilename none false = .ok fn ∧
      files = [(fn, .obj (t.getSingle.getD []))] ∧
      cs = digest [.obj (t.getSingle.getD [])] := by
  unfold Table.saveTableData at h
  rw [hsr] at h
  simp only [if_true] at h
  cases hfn : t.getFilename none false with
  | error e =>
    rw [hfn] at h
    simp [Bind.bind, Except.bind] at h
  | ok fn =>
    rw [hfn] at h
    replace h : (Except.ok ([(fn, Val.obj (t.getSingle.getD []))],
        digest [Val.obj (t.getSingle.getD [])])
        : Except Err (List (String × Val) × Val)) = .ok (files, cs) := h
    injection h with h
    injection h with h1 h2
    exact ⟨fn, rfl, h1.symm, h2.symm⟩

theorem saveTableData_plain (t : Table) (hsr : t.isSingleRow = false)
    (hgb : t.hasGroupBy = false) (files : List (String × Val)) (cs : Val)
    (h : t.saveTableData = .ok (files, cs)) :
    ∃ fn orows, t.getFilename none false = .ok fn ∧
      ((sortRowsByKey t.rows).map (·.2)).mapM t.orderlyRow = .ok orows ∧
      files = [(fn, .arr (orows.map Val.obj))] ∧
      cs = digest [.arr (orows.map Val.obj)] := by
  unfold Table.saveTableData at h
  rw [hsr, hgb] at h
  simp only [Bool.false_eq_true, if_false] at h
  cases hor : ((sortRowsByKey t.rows).map (·.2)).mapM t.orderlyRow with
  | error e =>
    rw [hor] at h
    simp [Bind.bind, Except.bind] at h
  | ok orows =>
    rw [hor] at h
    replace h : (t.getFilename none false >>= fun fn =>
        (pure ([(fn, Val.arr (orows.map Val.obj))],
          digest [Val.arr (orows.map Val.obj)])
          : Except Err (List (String × Val) × Val))) = .ok (files, cs) := h
    cases hfn : t.getFilename none false with
    | error e =>
      rw [hfn] at h
      simp [Bind.bind, Except.bind] at h
    | ok fn =>
      rw [hfn] at h
      replace h : (Except.ok ([(fn, Val.arr (orows.map Val.obj))],
          digest [Val.arr (orows.map Val.obj)])
          : Except Err (List (String × Val) × Val)) = .ok (files, cs) := h
      injection h with h
      injection h with h1 h2
      exact ⟨fn, orows, rfl, rfl, h1.symm, h2.symm⟩

/-- Every non-grouped table writes exactly one file, named independently
of its rows. -/
theorem saveTableData_oneFile (t : Table) (hgb : t.hasGroupBy = false)
    (files : List (String × Val)) (cs : Val)
    (h : t.saveTableData = .ok (files, cs)) :
    ∃ fn data, files = [(fn, data)] ∧ t.getFilename none false = .ok fn := by
  cases hsr : t.isSingleRow with
  | true =>
    obtain ⟨fn, hfn, hfl, -⟩ := saveTableData_single t hsr files cs h
    exact ⟨fn, _, hfl, hfn⟩
  | false =>
    obtain ⟨fn, orows, hfn, -, hfl, -⟩ := saveTableData_plain t hsr hgb files cs h
    exact ⟨fn, _, hfl, hfn⟩

theorem writtenNames_eq (t : Table) (files : List (String × Val)) (cs : Val)
    (h : t.saveTableData = .ok (files, cs)) :
    t.writtenNames = files.map (·.1) := by
  unfold Table.writtenNames
  rw [h]

theorem saveTableData_single_build (t : Table) (hsr : t.isSingleRow = true)
    (fn : String) (hfn : t.getFilename none false = .ok fn) :
    t.saveTableData = .ok ([(fn, .obj (t.getSingle.getD []))],
      digest [.obj (t.getSingle.getD [])]) := by
  unfold Table.saveTableData
  rw [hsr]
  simp only [if_true]
  rw [hfn]
  rfl

theorem foldl_alset_frame (files : List (String × Val)) :
    ∀ (b : Backend) (fn : String), fn ∉ files.map (·.1) →
    alget (files.foldl (fun bb p => alset bb p.1 (Blob.val p.2)) b) fn
      = alget b fn := by
  induction files with
  | nil => intro b fn h; rfl
  | cons p rest ih =>
    intro b fn h
    rw [List.map_cons, List.mem_cons, not_or] at h
    rw [List.foldl_cons, ih _ fn h.2,
      alget_alset_ne b p.1 fn (Blob.val p.2) h.1]

theorem foldl_alset_lookup (files : List (String × Val)) :
    ∀ (b : Backend) (fn : String) (data : Val),
    ((files.map (·.1)).Nodup) → (fn, data) ∈ files →
    alget (files.foldl (fun bb p => alset bb p.1 (Blob.val p.2)) b) fn
      = some (.val data) := by
  induction files with
  | nil => intro b fn data hnd h; exact absurd h (List.not_mem_nil _)
  | cons p rest ih =>
    intro b fn data hnd hmem
    rw [List.map_cons, List.nodup_cons] at hnd
    rw [List.foldl_cons]
    rcases List.mem_cons.mp hmem with h | h
    · subst h
      rw [foldl_alset_frame rest _ fn hnd.1]
      exact alget_alset_self b fn (Blob.val data)
    · exact ih _ fn data hnd.2 h

theorem getFilename_rows_irrel_row (t : Table) (rr : List (String × Row))
    (pk : Row) :
    Table.getFilename { t with rows := rr } (some pk) false
      = t.getFilename (some pk) false := rfl

theorem getFilename_rows_irrel_idx (t : Table) (rr : List (String × Row)) :
    Table.getFilename { t with rows := rr } none true
      = t.getFilename none true := rfl

theorem hasGroupBy_some (t : Table) (h : t.hasGroupBy = true) :
    ∃ fl, t.groupByFields = some fl ∧ fl.isEmpty = false := by
  unfold Table.hasGroupBy at h
  cases hg : t.groupByFields with
  | none =>
    rw [hg] at h
    exact nomatch h
  | some fl =>
    rw [hg] at h
    replace h : (!fl.isEmpty) = true := h
    refine ⟨fl, rfl, ?_⟩
    cases hfe : fl.isEmpty with
    | false => rfl
    | true =>
      rw [hfe] at h
      exact nomatch h

theorem canonicalizeKey_group_plain (t : Table) (pk : Row)
    (hsr : t.isSingleRow = false) (fl : List String)
    (hgbf : t.groupByFields = some fl) :
    t.canonicalizeKey pk true =
      if fl.all (fun k => alHas pk k) then
        (if matchesPk (joinedKey fl pk) then .ok (joinedKey fl pk)
         else .error .constraintErr)
      else .error .tableErr := by
  simp only [Table.canonicalizeKey, hsr, Bool.false_eq_true, if_false, hgbf,
    joinedKey]
  cases h : fl.all (fun k => alHas pk k) <;>
    cases hm : matchesPk (String.intercalate "."
        (fl.filterMap (fun k => (alget pk k).map Val.pyStr))) <;>
      simp [h, hm, Bind.bind, Except.bind, pure, Except.pure]

theorem canonicalizeKey_true_congr (t : Table) (hsr : t.isSingleRow = false)
    (fl : List String) (hgbf : t.groupByFields = some fl) (m1 m2 : Row)
    (h : ∀ f ∈ fl, alget m1 f = alget m2 f) :
    t.canonicalizeKey m1 true = t.canonicalizeKey m2 true := by
  rw [canonicalizeKey_group_plain t m1 hsr fl hgbf,
    canonicalizeKey_group_plain t m2 hsr fl hgbf,
    joinedKey_congr fl m1 m2 h, allHas_congr fl m1 m2 h]

theorem canonicalizeKey_true_of_sub (t : Table) (hsr : t.isSingleRow = false)
    (fl : List String) (hgbf : t.groupByFields = some fl) (row pk : Row)
    (hsub : ∀ f v, alget pk f = some v → alget row f = some v)
    (g : String) (hok : t.canonicalizeKey pk true = .ok g) :
    t.canonicalizeKey row true = .ok g := by
  rw [canonicalizeKey_group_plain t pk hsr fl hgbf] at hok
  cases hall : fl.all (fun k => alHas pk k) with
  | false =>
    rw [hall] at hok
    simp at hok
  | true =>
    rw [hall, if_pos rfl] at hok
    have hagree : ∀ f ∈ fl, alget pk f = alget row f := by
      intro f hf
      have hh := (List.all_eq_true.mp hall) f hf
      simp only [alHas] at hh
      cases hv : alget pk f with
      | none =>
        rw [hv] at hh
        simp at hh
      | some v => rw [hsub f v hv]
    rw [canonicalizeKey_group_plain t row hsr fl hgbf,
      ← joinedKey_congr fl pk row hagree, ← allHas_congr fl pk row hagree,
      hall, if_pos rfl]
    exact hok

theorem canonicalizeKey_true_eq_plain (t : Table) (hsr : t.isSingleRow = false)
    (hgbf : t.groupByFields = some t.pkFields) (r : Row) :
    t.canonicalizeKey r true = t.canonicalizeKey r false := by
  rw [canonicalizeKey_group_plain t r hsr t.pkFields hgbf,
    canonicalizeKey_plain t r hsr]

theorem pkFields_ne_nil_of_ok (t : Table) (hsr : t.isSingleRow = false)
    (r : Row) (k : String) (h : t.canonicalizeKey r = .ok k) :
    t.pkFields ≠ [] := by
  intro hnil
  rw [canonicalizeKey_plain t r hsr, hnil] at h
  simp only [List.all_nil, if_true] at h
  rw [show joinedKey [] r = "" from rfl] at h
  rw [show matchesPk "" = false from rfl] at h
  simp at h

theorem canonicalizeKey_ok_has (t : Table) (hsr : t.isSingleRow = false)
    (r : Row) (k : String) (h : t.canonicalizeKey r = .ok k) :
    ∀ f ∈ t.pkFields, (alget r f).isSome = true := by
  rw [canonicalizeKey_plain t r hsr] at h
  cases hall : t.pkFields.all (fun kk => alHas r kk) with
  | false =>
    rw [hall] at h
    simp at h
  | true =>
    intro f hf
    have hh := (List.all_eq_true.mp hall) f hf
    simpa [alHas] using hh

theorem isEmpty_false_of_alget {α : Type} (l : List (String × α)) (k : String)
    (v : α) (h : alget l k = some v) : l.isEmpty = false := by
  cases l with
  | nil => exact nomatch h
  | cons p rest => rfl

theorem row_nonempty_of_canonical (t : Table) (hsr : t.isSingleRow = false)
    (r : Row) (k : String) (h : t.canonicalizeKey r = .ok k) :
    r.isEmpty = false := by
  have hne := pkFields_ne_nil_of_ok t hsr r k h
  cases hpk : t.pkFields with
  | nil => exact absurd hpk hne
  | cons f rest =>
    have hf := canonicalizeKey_ok_has t hsr r k h f (by rw [hpk]; simp)
    cases hv : alget r f with
    | none =>
      rw [hv] at hf
      simp at hf
    | some v => exact isEmpty_false_of_alget r f v hv

theorem pkFold_has (r : Row) :
    ∀ (fields : List String) (acc d0 : Row),
    fields.foldlM (fun (acc : Row) k =>
      match alget r k with
      | none => Except.error Err.keyErr
      | some v => pure (alset acc k v)) acc = .ok d0 →
    (∀ k, (alget acc k).isSome = true → (alget d0 k).isSome = true) ∧
    (∀ f ∈ fields, (alget d0 f).isSome = true) := by
  intro fields
  induction fields with
  | nil =>
    intro acc d0 h
    rw [List.foldlM_nil] at h
    replace h : (Except.ok acc : Except Err Row) = .ok d0 := h
    injection h with h
    subst h
    exact ⟨fun k hk => hk, fun f hf => absurd hf (List.not_mem_nil f)⟩
  | cons f rest ih =>
    intro acc d0 h
    rw [List.foldlM_cons] at h
    cases hf : alget r f with
    | none =>
      rw [hf] at h
      simp [Bind.bind, Except.bind] at h
    | some v =>
      rw [hf] at h
      replace h : rest.foldlM (fun (acc : Row) k =>
          match alget r k with
          | none => Except.error Err.keyErr
          | some v => pure (alset acc k v)) (alset acc f v) = .ok d0 := h
      obtain ⟨hmono, hhas⟩ := ih (alset acc f v) d0 h
      refine ⟨?_, ?_⟩
      · intro k hk
        refine hmono k ?_
        rw [alget_isSome_alset, hk]
        rfl
      · intro g hg
        rcases List.mem_cons.mp hg with hh | hh
        · subst hh
          refine hmono g ?_
          rw [alget_isSome_alset]
          simp
        · exact hhas g hh

theorem pkProjection_spec (t : Table) (r pk : Row)
    (h : t.pkProjection r = .ok pk) :
    ((pk.map (·.1)).Nodup) ∧
    (∀ k v, alget pk k = some v → alget r k = some v) ∧
    (∀ f ∈ t.pkFields, (alget pk f).isSome = true) ∧
    (t.pkFields ≠ [] → pk.isEmpty = false) := by
  replace h : t.pkFields.foldlM (fun (acc : Row) k =>
      match alget r k with
      | none => Except.error Err.keyErr
      | some v => pure (alset acc k v)) ([] : Row) = .ok pk := h
  obtain ⟨hnd, hval⟩ := pkFold_spec r t.pkFields [] pk (by simp)
    (by intro k v hv; simp [alget] at hv) h
  obtain ⟨-, hhas⟩ := pkFold_has r t.pkFields [] pk h
  refine ⟨hnd, hval, hhas, ?_⟩
  intro hne
  cases hpk : t.pkFields with
  | nil => exact absurd hpk hne
  | cons f rest =>
    have hf := hhas f (by rw [hpk]; simp)
    cases hv : alget pk f with
    | none =>
      rw [hv] at hf
      simp at hf
    | some v => exact isEmpty_false_of_alget pk f v hv

theorem getFilename_group_ok (t : Table) (hgb : t.hasGroupBy = true)
    (r : Row) (hne : r.isEmpty = false) (k : String)
    (hk : t.canonicalizeKey r true = .ok k) :
    t.getFilename (some r) false = .ok
      ((match t.subfolder with
        | some sf => if !sf.isEmpty then sf ++ "/" ++ t.name else t.name
        | none => t.name) ++ "." ++ k ++ ".json") := by
  obtain ⟨fl, hgbf, -⟩ := hasGroupBy_some t hgb
  unfold Table.getFilename
  simp only [hgb, hne, hgbf, hk, Option.getD, Bool.not_false, Bool.and_false,
    Bool.false_and, Bool.and_true, Bool.true_and, if_false, if_true,
    Bool.false_eq_true, decide_eq_true_eq]
  rfl

theorem forall2_append {α β : Type} (R : α → β → Prop) :
    ∀ (l1 : List α) (l2 : List β) (l3 : List α) (l4 : List β),
    List.Forall₂ R l1 l2 → List.Forall₂ R l3 l4 →
    List.Forall₂ R (l1 ++ l3) (l2 ++ l4) := by
  intro l1
  induction l1 with
  | nil =>
    intro l2 l3 l4 h1 h2
    cases h1
    exact h2
  | cons a l1 ih =>
    intro l2 l3 l4 h1 h2
    cases h1
    next b l2b hab hrest =>
      exact List.Forall₂.cons hab (ih l2b l3 l4 hrest h2)

theorem forall2_mem_left {α β : Type} (R : α → β → Prop) :
    ∀ (l1 : List α) (l2 : List β), List.Forall₂ R l1 l2 →
    ∀ a ∈ l1, ∃ b ∈ l2, R a b := by
  intro l1
  induction l1 with
  | nil => intro l2 h a ha; exact absurd ha (List.not_mem_nil a)
  | cons x l1 ih =>
    intro l2 h a ha
    cases h
    next y l2b hxy hrest =>
      rcases List.mem_cons.mp ha with hh | hh
      · rw [hh]
        exact ⟨y, List.mem_cons_self y l2b, hxy⟩
      · obtain ⟨bb, hbb, hr⟩ := ih l2b hrest a hh
        exact ⟨bb, List.mem_cons_of_mem y hbb, hr⟩

theorem forall2_mem_right {α β : Type} (R : α → β → Prop) :
    ∀ (l1 : List α) (l2 : List β), List.Forall₂ R l1 l2 →
    ∀ b ∈ l2, ∃ a ∈ l1, R a b := by
  intro l1
  induction l1 with
  | nil =>
    intro l2 h b hb
    cases h
    exact absurd hb (List.not_mem_nil b)
  | cons x l1 ih =>
    intro l2 h b hb
    cases h
    next y l2b hxy hrest =>
      rcases List.mem_cons.mp hb with hh | hh
      · rw [hh]
        exact ⟨x, List.mem_cons_self x l1, hxy⟩
      · obtain ⟨aa, haa, hr⟩ := ih l2b hrest b hh
        exact ⟨aa, List.mem_cons_of_mem x haa, hr⟩

theorem forall2_choice {α β : Type} (P : α → β → Prop) :
    ∀ (l : List β), (∀ x ∈ l, ∃ a, P a x) →
    ∃ l1 : List α, List.Forall₂ P l1 l := by
  intro l
  induction l with
  | nil => intro h; exact ⟨[], List.Forall₂.nil⟩
  | cons x rest ih =>
    intro h
    obtain ⟨a, ha⟩ := h x (List.mem_cons_self x rest)
    obtain ⟨l1, hl1⟩ := ih (fun y hy => h y (List.mem_cons_of_mem x hy))
    exact ⟨a :: l1, List.Forall₂.cons ha hl1⟩

theorem forall2_trans {α β γ : Type} (R : α → β → Prop) (S : β → γ → Prop)
    (T : α → γ → Prop) (hc : ∀ a b c, R a b → S b c → T a c) :
    ∀ (l1 : List α) (l2 : List β) (l3 : List γ),
    List.Forall₂ R l1 l2 → List.Forall₂ S l2 l3 → List.Forall₂ T l1 l3 := by
  intro l1
  induction l1 with
  | nil =>
    intro l2 l3 h1 h2
    cases h1
    cases h2
    exact List.Forall₂.nil
  | cons a l1 ih =>
    intro l2 l3 h1 h2
    cases h1
    next b l2b hab hrest =>
      cases h2
      next c l3b hbc hrest2 =>
        exact List.Forall₂.cons (hc a b c hab hbc) (ih l2b l3b hrest hrest2)

theorem forall2_flip {α β : Type} (R : α → β → Prop) :
    ∀ (l1 : List α) (l2 : List β), List.Forall₂ R l1 l2 →
    List.Forall₂ (fun b a => R a b) l2 l1 := by
  intro l1
  induction l1 with
  | nil =>
    intro l2 h
    cases h
    exact List.Forall₂.nil
  | cons a l1 ih =>
    intro l2 h
    cases h
    next b l2b hab hrest =>
      exact List.Forall₂.cons hab (ih l2b hrest)

theorem forall2_map_eq {α β γ : Type} (f : α → γ) (g : β → γ) :
    ∀ (l1 : List α) (l2 : List β),
    List.Forall₂ (fun a b => f a = g b) l1 l2 → l1.map f = l2.map g := by
  intro l1
  induction l1 with
  | nil =>
    intro l2 h
    cases h
    rfl
  | cons a l1 ih =>
    intro l2 h
    cases h
    next b l2b hab hrest =>
      rw [List.map_cons, List.map_cons, hab, ih l2b hrest]

/-- Merging resolved defaults under a document that already covers every
default key leaves the document's mapping unchanged. -/
theorem alupdate_defaults_eqv (dv : Row) (c : Nat) (d : Row)
    (hdnd : (d.map (·.1)).Nodup)
    (hcov : ∀ q ∈ dv, (alget d q.1).isSome) :
    ∀ k, alget (alupdate (resolveDefaults dv c).1 d) k = alget d k := by
  intro k
  cases hk : alget d k with
  | some w =>
    rw [alget_alupdate_of_mem _ _ _ hdnd (by rw [hk]; rfl), hk]
  | none =>
    rw [alget_alupdate_not_mem _ _ _ hk]
    cases hdef : alget (resolveDefaults dv c).1 k with
    | none => rfl
    | some w =>
      exfalso
      have hmem := mem_of_alget _ _ _ hdef
      have hkmem : k ∈ ((resolveDefaults dv c).1).map (·.1) :=
        List.mem_map.mpr ⟨(k, w), hmem, rfl⟩
      rw [resolveDefaults_keys] at hkmem
      obtain ⟨q, hq, hq1⟩ := List.mem_map.mp hkmem
      have := hcov q hq
      rw [hq1, hk] at this
      exact nomatch this

theorem rowFileMapM_extract (t : Table) :
    ∀ (rows : List Row) (files0 : List (String × Val)),
    rows.mapM (fun row => do
      let fn ← t.getFilename (some row) false
      let orow ← t.orderlyRow row
      pure (fn, Val.obj orow)) = .ok files0 →
    List.Forall₂ (fun (row : Row) (file : String × Val) =>
      ∃ fn orow, t.getFilename (some row) false = .ok fn ∧
        t.orderlyRow row = .ok orow ∧
        file = (fn, Val.obj orow)) rows files0 := by
  intro rows
  induction rows with
  | nil =>
    intro files0 h
    rw [List.mapM_nil] at h
    replace h : (Except.ok [] : Except Err (List (String × Val)))
        = .ok files0 := h
    injection h with h
    subst h
    exact List.Forall₂.nil
  | cons row rest ih =>
    intro files0 h
    rw [List.mapM_cons] at h
    cases hfn : t.getFilename (some row) false with
    | error e =>
      rw [hfn] at h
      simp [Bind.bind, Except.bind, pure, Except.pure] at h
    | ok fn =>
      rw [hfn] at h
      cases hor : t.orderlyRow row with
      | error e =>
        rw [hor] at h
        simp [Bind.bind, Except.bind, pure, Except.pure] at h
      | ok orow =>
        rw [hor] at h
        cases hrest : rest.mapM (fun row => do
            let fn ← t.getFilename (some row) false
            let orow ← t.orderlyRow row
            pure (fn, Val.obj orow)) with
        | error e =>
          rw [hrest] at h
          simp [Bind.bind, Except.bind, pure, Except.pure] at h
        | ok xs =>
          rw [hrest] at h
          replace h : (Except.ok ((fn, Val.obj orow) :: xs)
              : Except Err (List (String × Val))) = .ok files0 := h
          injection h with h
          subst h
          exact List.Forall₂.cons ⟨fn, orow, hfn, hor, rfl⟩ (ih xs hrest)

theorem groupFileMapM_extract (t : Table) :
    ∀ (groups : List (String × List Row)) (gfiles : List (String × Val)),
    groups.mapM (fun g => do
      let fn ← t.getFilename (some (g.2.head?.getD [])) false
      pure (fn, Val.arr (g.2.map Val.obj))) = .ok gfiles →
    List.Forall₂ (fun (g : String × List Row) (file : String × Val) =>
      ∃ fn, t.getFilename (some (g.2.head?.getD [])) false = .ok fn ∧
        file = (fn, Val.arr (g.2.map Val.obj))) groups gfiles := by
  intro groups
  induction groups with
  | nil =>
    intro gfiles h
    rw [List.mapM_nil] at h
    replace h : (Except.ok [] : Except Err (List (String × Val)))
        = .ok gfiles := h
    injection h with h
    subst h
    exact List.Forall₂.nil
  | cons g rest ih =>
    intro gfiles h
    rw [List.mapM_cons] at h
    cases hfn : t.getFilename (some (g.2.head?.getD [])) false with
    | error e =>
      rw [hfn] at h
      simp [Bind.bind, Except.bind, pure, Except.pure] at h
    | ok fn =>
      rw [hfn] at h
      cases hrest : rest.mapM (fun g => do
          let fn ← t.getFilename (some (g.2.head?.getD [])) false
          pure (fn, Val.arr (g.2.map Val.obj))) with
      | error e =>
        rw [hrest] at h
        simp [Bind.bind, Except.bind, pure, Except.pure] at h
      | ok xs =>
        rw [hrest] at h
        replace h : (Except.ok ((fn, Val.arr (g.2.map Val.obj)) :: xs)
            : Except Err (List (String × Val))) = .ok gfiles := h
        injection h with h
        subst h
        exact List.Forall₂.cons ⟨fn, hfn, rfl⟩ (ih xs hrest)

theorem groupFold_extract (t : Table) :
    ∀ (rows : List Row) (acc groups : List (String × List Row)),
    rows.foldlM
      (fun (acc : List (String × List Row)) row => do
        let key ← t.canonicalizeKey row true
        let orow ← t.orderlyRow row
        pure (algroupAppend acc key orow)) acc = .ok groups →
    ∃ kos : List (String × Row),
      List.Forall₂ (fun (ko : String × Row) (row : Row) =>
        t.canonicalizeKey row true = .ok ko.1 ∧
        t.orderlyRow row = .ok ko.2) kos rows ∧
      groups = kos.foldl (fun acc ko => algroupAppend acc ko.1 ko.2) acc := by
  intro rows
  induction rows with
  | nil =>
    intro acc groups h
    rw [List.foldlM_nil] at h
    replace h : (Except.ok acc : Except Err (List (String × List Row)))
        = .ok groups := h
    injection h with h
    exact ⟨[], List.Forall₂.nil, h.symm⟩
  | cons row rest ih =>
    intro acc groups h
    rw [List.foldlM_cons] at h
    cases hk : t.canonicalizeKey row true with
    | error e =>
      rw [hk] at h
      simp [Bind.bind, Except.bind, pure, Except.pure] at h
    | ok key =>
      rw [hk] at h
      cases hor : t.orderlyRow row with
      | error e =>
        rw [hor] at h
        simp [Bind.bind, Except.bind, pure, Except.pure] at h
      | ok orow =>
        rw [hor] at h
        replace h : rest.foldlM
            (fun (acc : List (String × List Row)) row => do
              let key ← t.canonicalizeKey row true
              let orow ← t.orderlyRow row
              pure (algroupAppend acc key orow))
            (algroupAppend acc key orow) = .ok groups := h
        obtain ⟨kos, hf, hg⟩ := ih (algroupAppend acc key orow) groups h
        refine ⟨(key, orow) :: kos, List.Forall₂.cons ⟨hk, hor⟩ hf, ?_⟩
        rw [List.foldl_cons]
        exact hg

theorem buildKeyGroups_extract (t : Table) :
    ∀ (index : List Val) (acc groups : List (String × Row)),
    index.foldlM
      (fun (acc : List (String × Row)) pkV =>
        match pkV with
        | .obj pk => do
          let key ← t.canonicalizeKey pk true
          pure (alset acc key pk)
        | _ => .error .typeErr) acc = .ok groups →
    ∃ kps : List (String × Row),
      List.Forall₂ (fun (kp : String × Row) (v : Val) =>
        v = .obj kp.2 ∧ t.canonicalizeKey kp.2 true = .ok kp.1) kps index ∧
      groups = kps.foldl (fun acc kp => alset acc kp.1 kp.2) acc := by
  intro index
  induction index with
  | nil =>
    intro acc groups h
    rw [List.foldlM_nil] at h
    replace h : (Except.ok acc : Except Err (List (String × Row)))
        = .ok groups := h
    injection h with h
    exact ⟨[], List.Forall₂.nil, h.symm⟩
  | cons v rest ih =>
    intro acc groups h
    rw [List.foldlM_cons] at h
    cases v with
    | obj pk =>
      cases hk : t.canonicalizeKey pk true with
      | error e =>
        replace h : ((t.canonicalizeKey pk true >>= fun key =>
            (pure (alset acc key pk)
              : Except Err (List (String × Row)))) >>= fun acc2 =>
            rest.foldlM
              (fun (acc : List (String × Row)) pkV =>
                match pkV with
                | .obj pk => do
                  let key ← t.canonicalizeKey pk true
                  pure (alset acc key pk)
                | _ => .error .typeErr) acc2) = .ok groups := h
        rw [hk] at h
        simp [Bind.bind, Except.bind, pure, Except.pure] at h
      | ok key =>
        replace h : ((t.canonicalizeKey pk true >>= fun key =>
            (pure (alset acc key pk)
              : Except Err (List (String × Row)))) >>= fun acc2 =>
            rest.foldlM
              (fun (acc : List (String × Row)) pkV =>
                match pkV with
                | .obj pk => do
                  let key ← t.canonicalizeKey pk true
                  pure (alset acc key pk)
                | _ => .error .typeErr) acc2) = .ok groups := h
        rw [hk] at h
        replace h : rest.foldlM
            (fun (acc : List (String × Row)) pkV =>
              match pkV with
              | .obj pk => do
                let key ← t.canonicalizeKey pk true
                pure (alset acc key pk)
              | _ => .error .typeErr) (alset acc key pk) = .ok groups := h
        obtain ⟨kps, hf, hg⟩ := ih (alset acc key pk) groups h
        refine ⟨(key, pk) :: kps, List.Forall₂.cons ⟨rfl, hk⟩ hf, ?_⟩
        rw [List.foldl_cons]
        exact hg
    | str a =>
      replace h : ((Except.error Err.typeErr
          : Except Err (List (String × Row))) >>= fun acc2 =>
          rest.foldlM
            (fun (acc : List (String × Row)) pkV =>
              match pkV with
              | .obj pk => do
                let key ← t.canonicalizeKey pk true
                pure (alset acc key pk)
              | _ => .error .typeErr) acc2) = .ok groups := h
      simp [Bind.bind, Except.bind, pure, Except.pure] at h
    | num a =>
      replace h : ((Except.error Err.typeErr
          : Except Err (List (String × Row))) >>= fun acc2 =>
          rest.foldlM
            (fun (acc : List (String × Row)) pkV =>
              match pkV with
              | .obj pk => do
                let key ← t.canonicalizeKey pk true
                pure (alset acc key pk)
              | _ => .error .typeErr) acc2) = .ok groups := h
      simp [Bind.bind, Except.bind, pure, Except.pure] at h
    | bool a =>
      replace h : ((Except.error Err.typeErr
          : Except Err (List (String × Row))) >>= fun acc2 =>
          rest.foldlM
            (fun (acc : List (String × Row)) pkV =>
              match pkV with
              | .obj pk => do
                let key ← t.canonicalizeKey pk true
                pure (alset acc key pk)
              | _ => .error .typeErr) acc2) = .ok groups := h
      simp [Bind.bind, Except.bind, pure, Except.pure] at h
    | null =>
      replace h : ((Except.error Err.typeErr
          : Except Err (List (String × Row))) >>= fun acc2 =>
          rest.foldlM
            (fun (acc : List (String × Row)) pkV =>
              match pkV with
              | .obj pk => do
                let key ← t.canonicalizeKey pk true
                pure (alset acc key pk)
              | _ => .error .typeErr) acc2) = .ok groups := h
      simp [Bind.bind, Except.bind, pure, Except.pure] at h
    | arr a =>
      replace h : ((Except.error Err.typeErr
          : Except Err (List (String × Row))) >>= fun acc2 =>
          rest.foldlM
            (fun (acc : List (String × Row)) pkV =>
              match pkV with
              | .obj pk => do
                let key ← t.canonicalizeKey pk true
                pure (alset acc key pk)
              | _ => .error .typeErr) acc2) = .ok groups := h
      simp [Bind.bind, Except.bind, pure, Except.pure] at h

theorem algroupAppend_cons (k1 : String) (rs : List Row)
    (rest : List (String × List Row)) (k : String) (r : Row) :
    algroupAppend ((k1, rs) :: rest) k r =
      if k1 = k then (k1, rs ++ [r]) :: rest
      else (k1, rs) :: algroupAppend rest k r := rfl

theorem alset_cons_eq {α : Type} (k1 : String) (v1 : α)
    (rest : List (String × α)) (k : String) (v : α) :
    alset ((k1, v1) :: rest) k v =
      if k1 = k then (k1, v) :: rest else (k1, v1) :: alset rest k v := rfl

theorem algroupAppend_get_self (l : List (String × List Row)) (k : String)
    (r : Row) :
    alget (algroupAppend l k r) k = some ((alget l k).getD [] ++ [r]) := by
  induction l with
  | nil => simp [algroupAppend, alget_cons, alget]
  | cons p rest ih =>
    obtain ⟨k1, rs⟩ := p
    by_cases h : k1 = k
    · subst h
      simp [algroupAppend_cons, alget_cons]
    · rw [algroupAppend_cons, if_neg h, alget_cons, if_neg h, alget_cons,
        if_neg h, ih]

theorem algroupAppend_get_ne (l : List (String × List Row)) (k k2 : String)
    (r : Row) (h : k2 ≠ k) :
    alget (algroupAppend l k r) k2 = alget l k2 := by
  induction l with
  | nil =>
    rw [show algroupAppend [] k r = [(k, [r])] from rfl,
      alget_cons, if_neg (fun hh => h hh.symm)]
  | cons p rest ih =>
    obtain ⟨k1, rs⟩ := p
    by_cases h1 : k1 = k
    · subst h1
      rw [algroupAppend_cons, if_pos rfl, alget_cons, alget_cons,
        if_neg (fun hh => h hh.symm), if_neg (fun hh => h hh.symm)]
    · rw [algroupAppend_cons, if_neg h1, alget_cons, alget_cons, ih]

theorem alset_keys {α : Type} (l : List (String × α)) (k : String) (v : α) :
    (alset l k v).map (·.1) =
      if k ∈ l.map (·.1) then l.map (·.1) else l.map (·.1) ++ [k] := by
  induction l with
  | nil => simp [alset]
  | cons p rest ih =>
    obtain ⟨k1, v1⟩ := p
    by_cases h : k1 = k
    · subst h
      simp [alset_cons_eq]
    · rw [alset_cons_eq, if_neg h, List.map_cons, List.map_cons, ih]
      by_cases hm : k ∈ rest.map (·.1)
      · rw [if_pos hm, if_pos (List.mem_cons_of_mem _ hm)]
      · rw [if_neg hm, if_neg (by
          rw [List.mem_cons, not_or]
          exact ⟨fun hh => h hh.symm, hm⟩)]
        rw [List.cons_append]

theorem algroupAppend_keys (l : List (String × List Row)) (k : String)
    (r : Row) :
    (algroupAppend l k r).map (·.1) =
      if k ∈ l.map (·.1) then l.map (·.1) else l.map (·.1) ++ [k] := by
  induction l with
  | nil => simp [algroupAppend]
  | cons p rest ih =>
    obtain ⟨k1, rs⟩ := p
    by_cases h : k1 = k
    · subst h
      rw [algroupAppend_cons, if_pos rfl]
      simp
    · rw [algroupAppend_cons, if_neg h, List.map_cons, List.map_cons, ih]
      by_cases hm : k ∈ rest.map (·.1)
      · rw [if_pos hm, if_pos (List.mem_cons_of_mem _ hm)]
      · rw [if_neg hm, if_neg (by
          rw [List.mem_cons, not_or]
          exact ⟨fun hh => h hh.symm, hm⟩)]
        rw [List.cons_append]

theorem group_alset_keys_align :
    ∀ (kos kps : List (String × Row)), kos.map (·.1) = kps.map (·.1) →
    ∀ (acc1 : List (String × List Row)) (acc2 : List (String × Row)),
    acc1.map (·.1) = acc2.map (·.1) →
    ((kos.foldl (fun a ko => algroupAppend a ko.1 ko.2) acc1).map (·.1))
      = ((kps.foldl (fun a kp => alset a kp.1 kp.2) acc2).map (·.1)) := by
  intro kos
  induction kos with
  | nil =>
    intro kps h acc1 acc2 hacc
    cases kps with
    | nil => exact hacc
    | cons kp kps2 => simp at h
  | cons ko kos2 ih =>
    intro kps h acc1 acc2 hacc
    cases kps with
    | nil => simp at h
    | cons kp kps2 =>
      rw [List.map_cons, List.map_cons] at h
      injection h with h1 h2
      rw [List.foldl_cons, List.foldl_cons]
      refine ih kps2 h2 _ _ ?_
      rw [algroupAppend_keys, alset_keys, hacc, h1]

theorem groupFold_keys_nodup :
    ∀ (kos : List (String × Row)) (acc : List (String × List Row)),
    ((acc.map (·.1)).Nodup) →
    (((kos.foldl (fun a ko => algroupAppend a ko.1 ko.2) acc).map
      (·.1)).Nodup) := by
  intro kos
  induction kos with
  | nil => intro acc h; exact h
  | cons ko kos2 ih =>
    intro acc h
    rw [List.foldl_cons]
    refine ih _ ?_
    rw [algroupAppend_keys]
    by_cases hm : ko.1 ∈ acc.map (·.1)
    · rw [if_pos hm]
      exact h
    · rw [if_neg hm, List.nodup_append]
      refine ⟨h, List.nodup_singleton _, ?_⟩
      intro a ha hb
      rw [List.mem_singleton] at hb
      subst hb
      exact hm ha

theorem groupFold_mono :
    ∀ (kos : List (String × Row)) (acc : List (String × List Row))
      (k : String) (rs : List Row),
    alget acc k = some rs →
    ∃ rs2, alget (kos.foldl (fun a ko => algroupAppend a ko.1 ko.2) acc) k
        = some rs2 ∧ ∀ o ∈ rs, o ∈ rs2 := by
  intro kos
  induction kos with
  | nil => intro acc k rs h; exact ⟨rs, h, fun o ho => ho⟩
  | cons ko kos2 ih =>
    intro acc k rs h
    rw [List.foldl_cons]
    by_cases hk : ko.1 = k
    · subst hk
      have hself : alget (algroupAppend acc ko.1 ko.2) ko.1
          = some ((alget acc ko.1).getD [] ++ [ko.2]) :=
        algroupAppend_get_self _ _ _
      rw [h] at hself
      obtain ⟨rs2, h2, h3⟩ := ih (algroupAppend acc ko.1 ko.2) ko.1 _ hself
      refine ⟨rs2, h2, fun o ho => h3 o ?_⟩
      rw [Option.getD_some]
      exact List.mem_append_left _ ho
    · have hne : alget (algroupAppend acc ko.1 ko.2) k = some rs := by
        rw [algroupAppend_get_ne acc ko.1 k ko.2 (fun hh => hk hh.symm)]
        exact h
      exact ih (algroupAppend acc ko.1 ko.2) k rs hne

theorem groupFold_mem_of_pair :
    ∀ (kos : List (String × Row)) (acc : List (String × List Row))
      (k : String) (o : Row), (k, o) ∈ kos →
    ∃ rs, alget (kos.foldl (fun a ko => algroupAppend a ko.1 ko.2) acc) k
        = some rs ∧ o ∈ rs := by
  intro kos
  induction kos with
  | nil => intro acc k o h; exact absurd h (List.not_mem_nil _)
  | cons ko kos2 ih =>
    intro acc k o h
    rw [List.foldl_cons]
    rcases List.mem_cons.mp h with hh | hh
    · have hk : k = ko.1 := congrArg Prod.fst hh
      have ho : o = ko.2 := congrArg Prod.snd hh
      subst hk
      subst ho
      obtain ⟨rs2, h2, h3⟩ := groupFold_mono kos2 (algroupAppend acc ko.1 ko.2)
        ko.1 _ (algroupAppend_get_self acc ko.1 ko.2)
      refine ⟨rs2, h2, h3 ko.2 ?_⟩
      exact List.mem_append_right _ (List.mem_singleton.mpr rfl)
    · exact ih (algroupAppend acc ko.1 ko.2) k o hh

theorem groupFold_pair_of_mem :
    ∀ (kos : List (String × Row)) (acc : List (String × List Row))
      (k : String) (rs : List Row),
    alget (kos.foldl (fun a ko => algroupAppend a ko.1 ko.2) acc) k = some rs →
    ∀ o ∈ rs, (k, o) ∈ kos ∨ ∃ rs0, alget acc k = some rs0 ∧ o ∈ rs0 := by
  intro kos
  induction kos with
  | nil =>
    intro acc k rs h o ho
    exact Or.inr ⟨rs, h, ho⟩
  | cons ko kos2 ih =>
    intro acc k rs h o ho
    rw [List.foldl_cons] at h
    rcases ih (algroupAppend acc ko.1 ko.2) k rs h o ho with hh | ⟨rs0, h0, ho0⟩
    · exact Or.inl (List.mem_cons_of_mem _ hh)
    · by_cases hk : ko.1 = k
      · subst hk
        rw [algroupAppend_get_self] at h0
        injection h0 with h0
        subst h0
        rcases List.mem_append.mp ho0 with hmem | hmem
        · cases hga : alget acc ko.1 with
          | none =>
            rw [hga] at hmem
            simp at hmem
          | some rs1 =>
            rw [hga, Option.getD_some] at hmem
            exact Or.inr ⟨rs1, rfl, hmem⟩
        · rw [List.mem_singleton] at hmem
          subst hmem
          exact Or.inl (List.mem_cons_self _ _)
      · rw [algroupAppend_get_ne acc ko.1 k ko.2 (fun hh2 => hk hh2.symm)] at h0
        exact Or.inr ⟨rs0, h0, ho0⟩

theorem algroupAppend_snd_ne_nil (l : List (String × List Row)) (k : String)
    (r : Row) (h : ∀ g ∈ l, g.2 ≠ []) :
    ∀ g ∈ algroupAppend l k r, g.2 ≠ [] := by
  induction l with
  | nil =>
    intro g hg
    rw [show algroupAppend [] k r = [(k, [r])] from rfl,
      List.mem_singleton] at hg
    subst hg
    simp
  | cons p rest ih =>
    obtain ⟨k1, rs⟩ := p
    intro g hg
    by_cases h1 : k1 = k
    · rw [algroupAppend_cons, if_pos h1] at hg
      rcases List.mem_cons.mp hg with hh | hh
      · subst hh
        simp
      · exact h g (List.mem_cons_of_mem _ hh)
    · rw [algroupAppend_cons, if_neg h1] at hg
      rcases List.mem_cons.mp hg with hh | hh
      · subst hh
        exact h (k1, rs) (List.mem_cons_self _ _)
      · exact ih (fun g2 hg2 => h g2 (List.mem_cons_of_mem _ hg2)) g hh

theorem groupFold_vals_ne_nil :
    ∀ (kos : List (String × Row)) (acc : List (String × List Row)),
    (∀ g ∈ acc, g.2 ≠ []) →
    ∀ g ∈ kos.foldl (fun a ko => algroupAppend a ko.1 ko.2) acc, g.2 ≠ [] := by
  intro kos
  induction kos with
  | nil => intro acc h g hg; exact h g hg
  | cons ko kos2 ih =>
    intro acc h g hg
    rw [List.foldl_cons] at hg
    exact ih (algroupAppend acc ko.1 ko.2)
      (algroupAppend_snd_ne_nil acc ko.1 ko.2 h) g hg

theorem alsetFold_mem {α : Type} :
    ∀ (kps : List (String × α)) (acc : List (String × α)),
    ∀ g ∈ kps.foldl (fun a kp => alset a kp.1 kp.2) acc,
      g ∈ acc ∨ g ∈ kps := by
  intro kps
  induction kps with
  | nil => intro acc g hg; exact Or.inl hg
  | cons kp kps2 ih =>
    intro acc g hg
    rw [List.foldl_cons] at hg
    rcases ih (alset acc kp.1 kp.2) g hg with hh | hh
    · rcases mem_alset acc kp.1 kp.2 g hh with h2 | h2
      · exact Or.inl h2
      · right
        rw [h2]
        exact List.mem_cons_self _ _
    · exact Or.inr (List.mem_cons_of_mem _ hh)

theorem saveTableData_rowPerFile (t : Table) (hsr : t.isSingleRow = false)
    (hgb : t.hasGroupBy = true)
    (heq : t.groupByFields.getD [] = t.pkFields)
    (files : List (String × Val)) (cs : Val)
    (h : t.saveTableData = .ok (files, cs)) :
    ∃ files0 index idxFn,
      ((sortRowsByKey t.rows).map (·.2)).mapM (fun row => do
        let fn ← t.getFilename (some row) false
        let orow ← t.orderlyRow row
        pure (fn, Val.obj orow)) = .ok files0 ∧
      ((sortRowsByKey t.rows).map (·.2)).mapM t.pkProjection = .ok index ∧
      t.getFilename none true = .ok idxFn ∧
      files = files0 ++ [(idxFn, Val.arr (index.map Val.obj))] := by
  unfold Table.saveTableData at h
  rw [hsr] at h
  simp only [Bool.false_eq_true, if_false] at h
  rw [hgb] at h
  simp only [if_true] at h
  rw [if_pos heq] at h
  cases hf0 : ((sortRowsByKey t.rows).map (·.2)).mapM (fun row => do
      let fn ← t.getFilename (some row) false
      let orow ← t.orderlyRow row
      pure (fn, Val.obj orow)) with
  | error e =>
    rw [hf0] at h
    simp [Bind.bind, Except.bind, pure, Except.pure] at h
  | ok files0 =>
    rw [hf0] at h
    cases hidx : ((sortRowsByKey t.rows).map (·.2)).mapM t.pkProjection with
    | error e =>
      rw [hidx] at h
      simp [Bind.bind, Except.bind, pure, Except.pure] at h
    | ok index =>
      rw [hidx] at h
      cases hfn : t.getFilename none true with
      | error e =>
        rw [hfn] at h
        simp [Bind.bind, Except.bind, pure, Except.pure] at h
      | ok idxFn =>
        rw [hfn] at h
        replace h : (Except.ok
            (files0 ++ [(idxFn, Val.arr (index.map Val.obj))],
             digest ((files0 ++ [(idxFn, Val.arr (index.map Val.obj))]).map
               (·.2)))
            : Except Err (List (String × Val) × Val)) = .ok (files, cs) := h
        injection h with h
        injection h with h1 h2
        exact ⟨files0, index, idxFn, rfl, rfl, rfl, h1.symm⟩

theorem saveTableData_grouped (t : Table) (hsr : t.isSingleRow = false)
    (hgb : t.hasGroupBy = true)
    (hne : ¬(t.groupByFields.getD [] = t.pkFields))
    (files : List (String × Val)) (cs : Val)
    (h : t.saveTableData = .ok (files, cs)) :
    ∃ groups gfiles index idxFn,
      ((sortRowsByKey t.rows).map (·.2)).foldlM
        (fun (acc : List (String × List Row)) row => do
          let key ← t.canonicalizeKey row true
          let orow ← t.orderlyRow row
          pure (algroupAppend acc key orow)) [] = .ok groups ∧
      groups.mapM (fun g => do
        let fn ← t.getFilename (some (g.2.head?.getD [])) false
        pure (fn, Val.arr (g.2.map Val.obj))) = .ok gfiles ∧
      ((sortRowsByKey t.rows).map (·.2)).mapM t.pkProjection = .ok index ∧
      t.getFilename none true = .ok idxFn ∧
      files = gfiles ++ [(idxFn, Val.arr (index.map Val.obj))] := by
  unfold Table.saveTableData at h
  rw [hsr] at h
  simp only [Bool.false_eq_true, if_false] at h
  rw [hgb] at h
  simp only [if_true] at h
  rw [if_neg hne] at h
  cases hgrp : ((sortRowsByKey t.rows).map (·.2)).foldlM
      (fun (acc : List (String × List Row)) row => do
        let key ← t.canonicalizeKey row true
        let orow ← t.orderlyRow row
        pure (algroupAppend acc key orow)) [] with
  | error e =>
    rw [hgrp] at h
    simp [Bind.bind, Except.bind, pure, Except.pure] at h
  | ok groups =>
    rw [hgrp] at h
    replace h : (groups.mapM (fun g => do
        let fn ← t.getFilename (some (g.2.head?.getD [])) false
        pure (fn, Val.arr (g.2.map Val.obj))) >>= fun y =>
      ((sortRowsByKey t.rows).map (·.2)).mapM t.pkProjection >>= fun index =>
      t.getFilename none true >>= fun idxFn =>
      (pure (y ++ [(idxFn, Val.arr (index.map Val.obj))],
        digest ((y ++ [(idxFn, Val.arr (index.map Val.obj))]).map (·.2)))
        : Except Err (List (String × Val) × Val))) = .ok (files, cs) := h
    cases hgf : groups.mapM (fun g => do
        let fn ← t.getFilename (some (g.2.head?.getD [])) false
        pure (fn, Val.arr (g.2.map Val.obj))) with
    | error e =>
      rw [hgf] at h
      simp [Bind.bind, Except.bind, pure, Except.pure] at h
    | ok gfiles =>
      rw [hgf] at h
      cases hidx : ((sortRowsByKey t.rows).map (·.2)).mapM t.pkProjection with
      | error e =>
        rw [hidx] at h
        simp [Bind.bind, Except.bind, pure, Except.pure] at h
      | ok index =>
        rw [hidx] at h
        cases hfn : t.getFilename none true with
        | error e =>
          rw [hfn] at h
          simp [Bind.bind, Except.bind, pure, Except.pure] at h
        | ok idxFn =>
          rw [hfn] at h
          replace h : (Except.ok
              (gfiles ++ [(idxFn, Val.arr (index.map Val.obj))],
               digest ((gfiles ++ [(idxFn, Val.arr (index.map Val.obj))]).map
                 (·.2)))
              : Except Err (List (String × Val) × Val)) = .ok (files, cs) := h
          injection h with h
          injection h with h1 h2
          exact ⟨groups, gfiles, index, idxFn, rfl, hgf, rfl, rfl, h1.symm⟩

theorem insertRowSorted_perm (x : String × Row) (l : List (String × Row)) :
    List.Perm (insertRowSorted x l) (x :: l) := by
  induction l with
  | nil => exact List.Perm.refl _
  | cons y ys ih =>
    unfold insertRowSorted
    by_cases h : strLe x.1 y.1
    · rw [if_pos h]
    · rw [if_neg h]
      exact (ih.cons y).trans (List.Perm.swap x y ys)

theorem sortRowsByKey_perm (l : List (String × Row)) :
    List.Perm (sortRowsByKey l) l := by
  induction l with
  | nil => exact List.Perm.refl _
  | cons x xs ih =>
    unfold sortRowsByKey
    exact (insertRowSorted_perm x (sortRowsByKey xs)).trans (ih.cons x)

theorem sameRowSet_trans (l1 l2 l3 : List Row) (h1 : sameRowSet l1 l2)
    (h2 : sameRowSet l2 l3) : sameRowSet l1 l3 := by
  obtain ⟨a1, b1⟩ := h1
  obtain ⟨a2, b2⟩ := h2
  constructor
  · intro r hr
    obtain ⟨r2, hr2, he⟩ := a1 r hr
    obtain ⟨r3, hr3, he2⟩ := a2 r2 hr2
    exact ⟨r3, hr3, fun k => (he k).trans (he2 k)⟩
  · intro r hr
    obtain ⟨r2, hr2, he⟩ := b2 r hr
    obtain ⟨r1, hr1, he2⟩ := b1 r2 hr2
    exact ⟨r1, hr1, fun k => (he k).trans (he2 k)⟩

theorem sameRowSet_of_perm (l1 l2 : List (String × Row))
    (h : List.Perm l1 l2) :
    sameRowSet (l1.map (·.2)) (l2.map (·.2)) := by
  constructor
  · intro r hr
    exact ⟨r, ((h.map (·.2)).mem_iff).mp hr, fun k => rfl⟩
  · intro r hr
    exact ⟨r, ((h.map (·.2)).mem_iff).mpr hr, fun k => rfl⟩

theorem sameRowSet_of_forall2 (pairs rows2 : List (String × Row))
    (h : List.Forall₂ (fun p q => q.1 = p.1 ∧ (∀ k, alget q.2 k = alget p.2 k))
      pairs rows2) :
    sameRowSet (pairs.map (·.2)) (rows2.map (·.2)) := by
  induction h with
  | nil =>
    exact ⟨fun r hr => absurd hr (List.not_mem_nil r),
      fun r hr => absurd hr (List.not_mem_nil r)⟩
  | @cons p q l1 l2 hpq hrest ih =>
    obtain ⟨ihA, ihB⟩ := ih
    constructor
    · intro r hr
      rw [List.map_cons, List.mem_cons] at hr
      rcases hr with hr | hr
      · exact ⟨q.2, by simp, fun k => hr ▸ (hpq.2 k).symm⟩
      · obtain ⟨r2, hr2, he⟩ := ihA r hr
        exact ⟨r2, List.mem_cons_of_mem _ hr2, he⟩
    · intro r hr
      rw [List.map_cons, List.mem_cons] at hr
      rcases hr with hr | hr
      · exact ⟨p.2, by simp, fun k => hr ▸ (hpq.2 k)⟩
      · obtain ⟨r2, hr2, he⟩ := ihB r hr
        exact ⟨r2, List.mem_cons_of_mem _ hr2, he⟩

theorem checkRow_ok (s : TableStore) (t : Table) (row : Row) (k : String)
    (h : TableStore.checkRow s t row = .ok k) :
    t.canonicalizeKey row = .ok k ∧ alHas t.rows k = false := by
  unfold TableStore.checkRow at h
  cases hc : TableStore.checkConstraints s t row t.constraints with
  | error e =>
    rw [hc] at h
    simp [Bind.bind, Except.bind] at h
  | ok u =>
    rw [hc] at h
    replace h : (t.canonicalizeKey row >>= fun rowKey =>
        if alHas t.rows rowKey
        then (Except.error Err.constraintErr : Except Err String)
        else pure rowKey) = .ok k := h
    cases hk : t.canonicalizeKey row with
    | error e =>
      rw [hk] at h
      simp [Bind.bind, Except.bind] at h
    | ok k2 =>
      rw [hk] at h
      replace h : (if alHas t.rows k2
          then (Except.error Err.constraintErr : Except Err String)
          else pure k2) = .ok k := h
      cases hh : alHas t.rows k2 with
      | true =>
        rw [hh] at h
        simp at h
      | false =>
        rw [hh] at h
        replace h : (Except.ok k2 : Except Err String) = .ok k := h
        injection h with h
        subst h
        exact ⟨rfl, hh⟩

/-- What a successful save pass writes to the backend: blobs under
filenames outside every processed table's write set survive untouched, and
each processed table's written documents survive to the end of the pass
provided the table's own filenames are distinct and no other processed
table's write set claims them.  The metadata table is handled through its
single-row layout: its one filename does not depend on its row. -/
theorem saveList_backend_spec (S : TableStore) (mt : Table) (k0 : String)
    (m0 : Row) (rest0 : List (String × Row))
    (hmt : S.getTable? "#tsmeta" = some mt)
    (hrows : mt.rows = (k0, m0) :: rest0)
    (hmtsr : mt.isSingleRow = true) :
    ∀ (names : List String), names.Nodup →
    ∀ (m' : Row) (b : Backend) (c : Nat) (s' : TableStore) (b' : Backend)
      (c' : Nat),
    TableStore.saveList names (S.setMetaRow m') b c = (s', b', c', .ok ()) →
    (∀ fn, (∀ n ∈ names, ∀ t, S.getTable? n = some t →
        fn ∉ t.writtenNames) →
      alget b' fn = alget b fn) ∧
    (∀ n ∈ names, n ≠ "#tsmeta" → ∀ t, S.getTable? n = some t →
      ∀ files cs, t.saveTableData = .ok (files, cs) →
      ((files.map (·.1)).Nodup) →
      ∀ fn data, (fn, data) ∈ files →
      (∀ n2 ∈ names, n2 ≠ n → ∀ t2, S.getTable? n2 = some t2 →
        fn ∉ t2.writtenNames) →
      alget b' fn = some (.val data)) := by
  intro names
  induction names with
  | nil =>
    intro hnd m' b c s' b' c' h
    simp only [TableStore.saveList, Prod.mk.injEq] at h
    obtain ⟨-, h2, -, -⟩ := h
    exact ⟨fun fn _ => by rw [← h2], fun n hn => absurd hn (List.not_mem_nil n)⟩
  | cons n rest ih =>
    intro hnd m' b c s' b' c' h
    rw [List.nodup_cons] at hnd
    obtain ⟨hnmem, hndrest⟩ := hnd
    unfold TableStore.saveList at h
    cases hlook : (S.setMetaRow m').getTable? n with
    | none => rw [hlook] at h; simp at h
    | some t =>
      simp only [hlook] at h
      rcases hts : TableStore.tableSave (S.setMetaRow m') t b c with
        ⟨s1, b1, c1, r1⟩
      rw [hts] at h
      cases r1 with
      | error e =>
        have hcontra : (s1, b1, c1, Except.error (ε := Err) e)
            = (s', b', c', Except.ok ()) := h
        simp at hcontra
      | ok u =>
        obtain ⟨⟩ := u
        replace h : TableStore.saveList rest s1 b1 c1 = (s', b', c', .ok ()) := h
        obtain ⟨mStep, files, cs, hsd, hs1, hb1, -, -, -, -⟩ :=
          tableSave_spec S mt k0 m0 rest0 hmt hrows m' t b c s1 b1 c1 hts
        rw [hs1] at h
        obtain ⟨ihF, ihW⟩ := ih hndrest mStep b1 c1 s' b' c' h
        have hstable : n ≠ "#tsmeta" → S.getTable? n = some t := by
          intro hn
          rw [← setMetaRow_getTable_ne S m' n hn]
          exact hlook
        have hsubW : ∀ fn2 ∈ files.map (·.1), ∀ tS, S.getTable? n = some tS →
            fn2 ∈ tS.writtenNames := by
          intro fn2 hfn2 tS htS
          by_cases hntm : n = "#tsmeta"
          · subst hntm
            rw [setMetaRow_getTable_meta S mt k0 m0 rest0 hmt hrows m'] at hlook
            injection hlook with hlook2
            rw [hmt] at htS
            injection htS with htS2
            have hsrRT : t.isSingleRow = true := by
              rw [← hlook2]
              exact hmtsr
            obtain ⟨fnM, hfnM, hfiles, -⟩ :=
              saveTableData_single t hsrRT files cs hsd
            have hfnMT : mt.getFilename none false = .ok fnM := by
              rw [← getFilename_rows_irrel mt ((k0, m') :: rest0), hlook2]
              exact hfnM
            have hWmt : mt.writtenNames = [fnM] := by
              rw [writtenNames_eq mt _ _
                (saveTableData_single_build mt hmtsr fnM hfnMT)]
              rfl
            rw [← htS2, hWmt]
            rw [hfiles] at hfn2
            simpa using hfn2
          · rw [hstable hntm] at htS
            injection htS with htS2
            rw [← htS2, writtenNames_eq t files cs hsd]
            exact hfn2
        have hTSex : ∃ tS, S.getTable? n = some tS := by
          by_cases hntm : n = "#tsmeta"
          · subst hntm
            exact ⟨mt, hmt⟩
          · exact ⟨t, hstable hntm⟩
        rw [hb1] at *
        constructor
        · intro fn hfn
          rw [ihF fn (fun n2 hn2 t2 ht2 =>
            hfn n2 (List.mem_cons_of_mem n hn2) t2 ht2)]
          refine foldl_alset_frame files b fn ?_
          intro hmemf
          obtain ⟨tS, hTS⟩ := hTSex
          exact hfn n (List.mem_cons_self n rest) tS hTS
            (hsubW fn hmemf tS hTS)
        · intro nn hnn hnntm tS htS filesX csX hsdX hndX fn data hmem
            hnoclobber
          rcases List.mem_cons.mp hnn with hh | hh
          · subst hh
            have htSeq : tS = t := by
              rw [hstable hnntm] at htS
              injection htS with he
              exact he.symm
            subst htSeq
            rw [hsd] at hsdX
            injection hsdX with hpair
            injection hpair with hfX hcX
            rw [← hfX] at hndX hmem
            rw [ihF fn (fun n2 hn2 t2 ht2 =>
              hnoclobber n2 (List.mem_cons_of_mem _ hn2)
                (fun hh2 => hnmem (hh2 ▸ hn2)) t2 ht2)]
            exact foldl_alset_lookup files b fn data hndX hmem
          · refine ihW nn hh hnntm tS htS filesX csX hsdX hndX fn data hmem ?_
            intro n2 hn2 hne2 t2 ht2
            exact hnoclobber n2 (List.mem_cons_of_mem n hn2) hne2 t2 ht2

theorem tableAdd_ok (s : TableStore) (t : Table) (d : Row) (c : Nat)
    (t' : Table) (c2 : Nat) (res : Row)
    (h : TableStore.tableAdd s t d false c = (t', c2, .ok res)) :
    ∃ rowKey,
      t.canonicalizeKey (alupdate (resolveDefaults t.defaultValues c).1 d)
        = .ok rowKey ∧
      alHas t.rows rowKey = false ∧
      res = alupdate (resolveDefaults t.defaultValues c).1 d ∧
      t' = { t with rows := alset t.rows rowKey res } := by
  unfold TableStore.tableAdd at h
  rcases hrd : resolveDefaults t.defaultValues c with ⟨defaults, c1⟩
  rw [hrd] at h
  simp only [] at h
  cases hcr : TableStore.checkRow s t (alupdate defaults d) with
  | error e =>
    rw [hcr] at h
    simp at h
  | ok rowKey =>
    rw [hcr] at h
    replace h : (({ t with rows := alset t.rows rowKey (alupdate defaults d) }
          : Table), c1,
        (Except.ok (alupdate defaults d) : Except Err Row)) = (t', c2, .ok res)
      := h
    simp only [Prod.mk.injEq] at h
    obtain ⟨h1, h2, h3⟩ := h
    injection h3 with h3
    obtain ⟨hck, hhas⟩ := checkRow_ok s t _ rowKey hcr
    refine ⟨rowKey, ?_, hhas, ?_, ?_⟩
    · exact hck
    · exact h3.symm
    · rw [← h1, h3]

theorem singleRowAdd_ok (s : TableStore) (t : Table) (d : Row) (c : Nat)
    (t' : Table) (c2 : Nat) (res : Row) (hsr : t.isSingleRow = true)
    (h : TableStore.singleRowAdd s t d false c = (t', c2, .ok res)) :
    res = alupdate (resolveDefaults t.defaultValues c).1 d ∧
    t' = { t with rows := [("", res)] } := by
  replace h : TableStore.tableAdd
      (if (alget s.tables t.name).isSome
       then s.setTable t.name { t with rows := [] } else s)
      { t with rows := [] } d false c = (t', c2, .ok res) := h
  obtain ⟨rowKey, hck, hhas, hres, ht'⟩ := tableAdd_ok _ _ _ _ _ _ _ h
  have hkey : rowKey = "" := by
    have hone : ({ t with rows := [] } : Table).canonicalizeKey
        (alupdate (resolveDefaults ({ t with rows := [] }
          : Table).defaultValues c).1 d) = .ok "" := by
      unfold Table.canonicalizeKey
      rw [show ({ t with rows := [] } : Table).isSingleRow = true from hsr]
      rfl
    rw [hone] at hck
    injection hck with hck
    exact hck.symm
  subst hkey
  exact ⟨hres, by rw [ht', hres]; rfl⟩

theorem storeAdd_frame (s : TableStore) (n : String) (row : Row)
    (co : Bool) (c : Nat) (n2 : String) (hne : n2 ≠ n) :
    ((s.storeAdd n row co c).1).getTable? n2 = s.getTable? n2 := by
  unfold TableStore.storeAdd
  cases hl : alget s.tables n with
  | none => rfl
  | some t =>
    simp only []
    rcases hadd : (if t.isSingleRow
        then TableStore.singleRowAdd s t row co c
        else TableStore.tableAdd s t row co c) with ⟨t1, c1, res1⟩
    simp only [hadd]
    show alget (alset s.tables n t1) n2 = alget s.tables n2
    exact alget_alset_ne _ _ _ _ hne

theorem addRows_spec (n : String) :
    ∀ (docs : List Val) (pairs : List (String × Row)) (s : TableStore)
      (t : Table) (c : Nat) (s' : TableStore) (c' : Nat),
    s.getTable? n = some t →
    t.isSingleRow = false →
    List.Forall₂ (fun (p : String × Row) (v : Val) =>
      ∃ d, v = .obj d ∧ ((d.map (·.1)).Nodup) ∧
        (∀ k, alget d k = alget p.2 k) ∧
        (∀ q ∈ t.defaultValues, (alget d q.1).isSome) ∧
        t.canonicalizeKey p.2 = .ok p.1) pairs docs →
    TableStore.addRows s n docs c = (s', c', .ok ()) →
    ∃ rows2, s'.getTable? n = some { t with rows := t.rows ++ rows2 } ∧
      (∀ n2, n2 ≠ n → s'.getTable? n2 = s.getTable? n2) ∧
      List.Forall₂ (fun (p : String × Row) (q : String × Row) =>
        q.1 = p.1 ∧ (∀ k, alget q.2 k = alget p.2 k)) pairs rows2 := by
  intro docs
  induction docs with
  | nil =>
    intro pairs s t c s' c' ht hsr hrel h
    cases hrel
    simp only [TableStore.addRows, Prod.mk.injEq] at h
    obtain ⟨h1, h2, -⟩ := h
    refine ⟨[], ?_, fun n2 _ => by rw [← h1], List.Forall₂.nil⟩
    rw [← h1, List.append_nil]
    exact ht
  | cons v docs ih =>
    intro pairs s t c s' c' ht hsr hrel h
    cases hrel
    next p pairs2 hpd hrest =>
      obtain ⟨d, hv, hdnd, hdeqv, hdcov, hcanon⟩ := hpd
      subst hv
      unfold TableStore.addRows at h
      simp only [] at h
      have ht' : alget s.tables n = some t := ht
      rcases hta : TableStore.tableAdd s t d false c with ⟨t1, c1, res1⟩
      have hsa2 : s.storeAdd n d false c = (s.setTable n t1, c1, res1) := by
        unfold TableStore.storeAdd
        simp only [ht']
        simp only [hsr, Bool.false_eq_true, if_false]
        rw [hta]
      rw [hsa2] at h
      cases res1 with
      | error e =>
        have hcontra : (s.setTable n t1, c1,
            Except.error (ε := Err) (α := Unit) e)
            = (s', c', (Except.ok () : Except Err Unit)) := h
        simp at hcontra
      | ok r0 =>
        replace h : TableStore.addRows (s.setTable n t1) n docs c1
            = (s', c', .ok ()) := h
        obtain ⟨rowKey, hck, hhas, hres, ht1⟩ :=
          tableAdd_ok s t d c t1 c1 r0 hta
        -- the merged document agrees with the foreign source row
        have hmeq : ∀ k,
            alget (alupdate (resolveDefaults t.defaultValues c).1 d) k
              = alget d k := by
          intro k
          cases hk : alget d k with
          | some w =>
            rw [alget_alupdate_of_mem _ _ _ hdnd (by rw [hk]; rfl), hk]
          | none =>
            rw [alget_alupdate_not_mem _ _ _ hk]
            cases hdef : alget (resolveDefaults t.defaultValues c).1 k with
            | none => rfl
            | some w =>
              exfalso
              have hmem := mem_of_alget _ _ _ hdef
              have hkmem : k ∈ ((resolveDefaults t.defaultValues c).1).map
                  (·.1) := List.mem_map.mpr ⟨(k, w), hmem, rfl⟩
              rw [resolveDefaults_keys] at hkmem
              obtain ⟨q, hq, hq1⟩ := List.mem_map.mp hkmem
              have := hdcov q hq
              rw [hq1, hk] at this
              exact nomatch this
        have hkeyp : rowKey = p.1 := by
          rw [canonicalizeKey_congr t _ d hmeq,
            canonicalizeKey_congr t d p.2 hdeqv, hcanon] at hck
          injection hck with hck
          exact hck.symm
        have happend : alset t.rows rowKey r0 = t.rows ++ [(rowKey, r0)] := by
          apply alset_append_of_none
          unfold alHas at hhas
          cases hg : alget t.rows rowKey with
          | none => rfl
          | some w => rw [hg] at hhas; exact nomatch hhas
        rw [happend] at ht1
        have htNew : (s.setTable n t1).getTable? n
            = some { t with rows := t.rows ++ [(rowKey, r0)] } := by
          rw [ht1]
          exact alget_alset_self _ _ _
        obtain ⟨rows2, hfin, hframe, hrel2⟩ :=
          ih pairs2 (s.setTable n t1)
            { t with rows := t.rows ++ [(rowKey, r0)] } c1 s' c'
            htNew hsr hrest h
        refine ⟨(rowKey, r0) :: rows2, ?_, ?_, ?_⟩
        · rw [hfin]
          rw [show ({ t with rows := t.rows ++ [(rowKey, r0)] }
              : Table).rows = t.rows ++ [(rowKey, r0)] from rfl,
            List.append_assoc, List.singleton_append]
        · intro n2 hn2
          rw [hframe n2 hn2, ht1]
          show alget (alset s.tables n _) n2 = alget s.tables n2
          exact alget_alset_ne _ _ _ _ hn2
        · refine List.Forall₂.cons ⟨hkeyp, ?_⟩ hrel2
          intro k
          rw [hres, hmeq k, hdeqv k]

theorem addRows_frame (n : String) :
    ∀ (docs : List Val) (s : TableStore) (c : Nat) (n2 : String), n2 ≠ n →
    ((TableStore.addRows s n docs c).1).getTable? n2 = s.getTable? n2 := by
  intro docs
  induction docs with
  | nil => intro s c n2 hn2; rfl
  | cons v docs ih =>
    intro s c n2 hn2
    unfold TableStore.addRows
    cases v with
    | obj fields =>
      simp only []
      rcases hsa : s.storeAdd n fields false c with ⟨sm, cm, resm⟩
      have hf := storeAdd_frame s n fields false c n2 hn2
      rw [hsa] at hf
      cases resm with
      | error e => simp only [hsa]; exact hf
      | ok r0 =>
        simp only [hsa]
        rw [ih sm cm n2 hn2]
        exact hf
    | str a => rfl
    | num a => rfl
    | bool a => rfl
    | null => rfl
    | arr a => rfl

theorem storeAdd_single_ok (s : TableStore) (n : String) (t : Table)
    (doc : Row) (c : Nat) (s' : TableStore) (cm : Nat) (r0 : Row)
    (ht : s.getTable? n = some t) (hsr : t.isSingleRow = true)
    (h : s.storeAdd n doc false c = (s', cm, .ok r0)) :
    s'.getTable? n = some { t with rows := [("", r0)] } ∧
    (∀ n2, n2 ≠ n → s'.getTable? n2 = s.getTable? n2) ∧
    r0 = alupdate (resolveDefaults t.defaultValues c).1 doc := by
  have ht' : alget s.tables n = some t := ht
  unfold TableStore.storeAdd at h
  simp only [ht'] at h
  simp only [hsr, if_true] at h
  rcases hsra : TableStore.singleRowAdd s t doc false c with ⟨t1, c1, res1⟩
  rw [hsra] at h
  replace h : (s.setTable n t1, c1, res1) = (s', cm, .ok r0) := h
  simp only [Prod.mk.injEq] at h
  obtain ⟨h1, h2, h3⟩ := h
  rw [h3] at hsra
  obtain ⟨hres, ht1⟩ := singleRowAdd_ok s t doc c t1 c1 r0 hsr hsra
  refine ⟨?_, ?_, hres⟩
  · rw [← h1, ht1]
    exact alget_alset_self _ _ _
  · intro n2 hn2
    rw [← h1]
    show alget (alset s.tables n t1) n2 = alget s.tables n2
    exact alget_alset_ne _ _ _ _ hn2

theorem loadRowFiles_frame (n : String) (t0 : Table) (b : Backend) :
    ∀ (index : List Val) (s : TableStore) (c : Nat) (n2 : String), n2 ≠ n →
    ((TableStore.loadRowFiles s n t0 b index c).1).getTable? n2
      = s.getTable? n2 := by
  intro index
  induction index with
  | nil => intro s c n2 hn2; rfl
  | cons v rest ih =>
    intro s c n2 hn2
    unfold TableStore.loadRowFiles
    cases v with
    | obj pk =>
      cases hfn : t0.getFilename (some pk) false with
      | error e => simp only [hfn]
      | ok fn =>
        cases hbv : backendLoadVal b fn with
        | error e => simp only [hfn, hbv]
        | ok v2 =>
          cases v2 with
          | obj fields =>
            rcases hsa : s.storeAdd n fields false c with ⟨sm, cm, resm⟩
            have hf := storeAdd_frame s n fields false c n2 hn2
            rw [hsa] at hf
            cases resm with
            | error e =>
              simp only [hfn, hbv, hsa]
              exact hf
            | ok r0 =>
              simp only [hfn, hbv, hsa]
              rw [ih sm cm n2 hn2]
              exact hf
          | str a => simp only [hfn, hbv]
          | num a => simp only [hfn, hbv]
          | bool a => simp only [hfn, hbv]
          | null => simp only [hfn, hbv]
          | arr a => simp only [hfn, hbv]
    | str a => rfl
    | num a => rfl
    | bool a => rfl
    | null => rfl
    | arr a => rfl

theorem loadGroupFiles_frame (n : String) (t0 : Table) (b : Backend) :
    ∀ (groups : List (String × Row)) (s : TableStore) (c : Nat)
      (n2 : String), n2 ≠ n →
    ((TableStore.loadGroupFiles s n t0 b groups c).1).getTable? n2
      = s.getTable? n2 := by
  intro groups
  induction groups with
  | nil => intro s c n2 hn2; rfl
  | cons g rest ih =>
    intro s c n2 hn2
    obtain ⟨gk, gpk⟩ := g
    unfold TableStore.loadGroupFiles
    cases hfn : t0.getFilename (some gpk) false with
    | error e => simp only [hfn]
    | ok fn =>
      cases hbv : backendLoadVal b fn with
      | error e => simp only [hfn, hbv]
      | ok v2 =>
        cases v2 with
        | arr docs =>
          rcases hadd : s.addRows n docs c with ⟨sm, cm, resm⟩
          have hf := addRows_frame n docs s c n2 hn2
          rw [hadd] at hf
          cases resm with
          | error e =>
            simp only [hfn, hbv, hadd]
            exact hf
          | ok u =>
            obtain ⟨⟩ := u
            simp only [hfn, hbv, hadd]
            rw [ih sm cm n2 hn2]
            exact hf
        | str a => simp only [hfn, hbv]
        | num a => simp only [hfn, hbv]
        | bool a => simp only [hfn, hbv]
        | null => simp only [hfn, hbv]
        | obj a => simp only [hfn, hbv]

theorem loadRowFiles_spec (n : String) (b : Backend) (t0 : Table) :
    ∀ (index : List Val) (pairs : List (String × Row)) (s : TableStore)
      (t : Table) (c : Nat) (s' : TableStore) (c' : Nat),
    s.getTable? n = some t →
    t.isSingleRow = false →
    List.Forall₂ (fun (p : String × Row) (v : Val) =>
      ∃ pk, v = .obj pk ∧
        ∃ fn, t0.getFilename (some pk) false = .ok fn ∧
          ∃ d, alget b fn = some (.val (.obj d)) ∧
            ((d.map (·.1)).Nodup) ∧
            (∀ k, alget d k = alget p.2 k) ∧
            (∀ q ∈ t.defaultValues, (alget d q.1).isSome) ∧
            t.canonicalizeKey p.2 = .ok p.1) pairs index →
    TableStore.loadRowFiles s n t0 b index c = (s', c', .ok ()) →
    ∃ rows2, s'.getTable? n = some { t with rows := t.rows ++ rows2 } ∧
      (∀ n2, n2 ≠ n → s'.getTable? n2 = s.getTable? n2) ∧
      List.Forall₂ (fun (p : String × Row) (q : String × Row) =>
        q.1 = p.1 ∧ (∀ k, alget q.2 k = alget p.2 k)) pairs rows2 := by
  intro index
  induction index with
  | nil =>
    intro pairs s t c s' c' ht hsr hrel h
    cases hrel
    simp only [TableStore.loadRowFiles, Prod.mk.injEq] at h
    obtain ⟨h1, h2, -⟩ := h
    refine ⟨[], ?_, fun n2 _ => by rw [← h1], List.Forall₂.nil⟩
    rw [← h1, List.append_nil]
    exact ht
  | cons v rest ih =>
    intro pairs s t c s' c' ht hsr hrel h
    cases hrel
    next p pairs2 hpd hrest =>
      obtain ⟨pk, hv, fn, hfn, d, hblob, hdnd, hdeqv, hdcov, hcanon⟩ := hpd
      subst hv
      unfold TableStore.loadRowFiles at h
      simp only [] at h
      simp only [hfn] at h
      have hbv : backendLoadVal b fn = .ok (.obj d) := by
        unfold backendLoadVal backendLoad
        rw [hblob]
        rfl
      simp only [hbv] at h
      have ht' : alget s.tables n = some t := ht
      rcases hta : TableStore.tableAdd s t d false c with ⟨t1, c1, res1⟩
      have hsa2 : s.storeAdd n d false c = (s.setTable n t1, c1, res1) := by
        unfold TableStore.storeAdd
        simp only [ht']
        simp only [hsr, Bool.false_eq_true, if_false]
        rw [hta]
      rw [hsa2] at h
      cases res1 with
      | error e =>
        have hcontra : (s.setTable n t1, c1,
            Except.error (ε := Err) (α := Unit) e)
            = (s', c', (Except.ok () : Except Err Unit)) := h
        simp at hcontra
      | ok r0 =>
        replace h : TableStore.loadRowFiles (s.setTable n t1) n t0 b rest c1
            = (s', c', .ok ()) := h
        obtain ⟨rowKey, hck, hhas, hres, ht1⟩ :=
          tableAdd_ok s t d c t1 c1 r0 hta
        have hmeq : ∀ k,
            alget (alupdate (resolveDefaults t.defaultValues c).1 d) k
              = alget d k := by
          intro k
          exact alupdate_defaults_eqv t.defaultValues c d hdnd hdcov k
        have hkeyp : rowKey = p.1 := by
          rw [canonicalizeKey_congr t _ d hmeq,
            canonicalizeKey_congr t d p.2 hdeqv, hcanon] at hck
          injection hck with hck
          exact hck.symm
        have happend : alset t.rows rowKey r0 = t.rows ++ [(rowKey, r0)] := by
          apply alset_append_of_none
          unfold alHas at hhas
          cases hg : alget t.rows rowKey with
          | none => rfl
          | some w => rw [hg] at hhas; exact nomatch hhas
        rw [happend] at ht1
        have htNew : (s.setTable n t1).getTable? n
            = some { t with rows := t.rows ++ [(rowKey, r0)] } := by
          rw [ht1]
          exact alget_alset_self _ _ _
        obtain ⟨rows2, hfin, hframe, hrel2⟩ :=
          ih pairs2 (s.setTable n t1)
            { t with rows := t.rows ++ [(rowKey, r0)] } c1 s' c'
            htNew hsr hrest h
        refine ⟨(rowKey, r0) :: rows2, ?_, ?_, ?_⟩
        · rw [hfin]
          rw [show ({ t with rows := t.rows ++ [(rowKey, r0)] }
              : Table).rows = t.rows ++ [(rowKey, r0)] from rfl,
            List.append_assoc, List.singleton_append]
        · intro n2 hn2
          rw [hframe n2 hn2, ht1]
          show alget (alset s.tables n _) n2 = alget s.tables n2
          exact alget_alset_ne _ _ _ _ hn2
        · refine List.Forall₂.cons ⟨hkeyp, ?_⟩ hrel2
          intro k
          rw [hres, hmeq k, hdeqv k]

theorem loadGroupFiles_spec (n : String) (b : Backend) (t0 : Table) :
    ∀ (groups : List (String × Row)) (prsL : List (List (String × Row)))
      (s : TableStore) (t : Table) (c : Nat) (s' : TableStore) (c' : Nat),
    s.getTable? n = some t →
    t.isSingleRow = false →
    List.Forall₂ (fun (prs : List (String × Row)) (g : String × Row) =>
      ∃ fn, t0.getFilename (some g.2) false = .ok fn ∧
        ∃ docs, alget b fn = some (.val (.arr docs)) ∧
          List.Forall₂ (fun (p : String × Row) (v : Val) =>
            ∃ d, v = .obj d ∧ ((d.map (·.1)).Nodup) ∧
              (∀ k, alget d k = alget p.2 k) ∧
              (∀ q ∈ t.defaultValues, (alget d q.1).isSome) ∧
              t.canonicalizeKey p.2 = .ok p.1) prs docs) prsL groups →
    TableStore.loadGroupFiles s n t0 b groups c = (s', c', .ok ()) →
    ∃ rows2, s'.getTable? n = some { t with rows := t.rows ++ rows2 } ∧
      (∀ n2, n2 ≠ n → s'.getTable? n2 = s.getTable? n2) ∧
      List.Forall₂ (fun (p : String × Row) (q : String × Row) =>
        q.1 = p.1 ∧ (∀ k, alget q.2 k = alget p.2 k)) prsL.flatten rows2 := by
  intro groups
  induction groups with
  | nil =>
    intro prsL s t c s' c' ht hsr hrel h
    cases hrel
    simp only [TableStore.loadGroupFiles, Prod.mk.injEq] at h
    obtain ⟨h1, h2, -⟩ := h
    refine ⟨[], ?_, fun n2 _ => by rw [← h1], List.Forall₂.nil⟩
    rw [← h1, List.append_nil]
    exact ht
  | cons g rest ih =>
    intro prsL s t c s' c' ht hsr hrel h
    cases hrel
    next prs prsL2 hg hrest =>
      obtain ⟨gk, gpk⟩ := g
      obtain ⟨fn, hfn, docs, hdocs, hinner⟩ := hg
      replace hfn : t0.getFilename (some gpk) false = .ok fn := hfn
      unfold TableStore.loadGroupFiles at h
      simp only [hfn] at h
      have hbv : backendLoadVal b fn = .ok (.arr docs) := by
        unfold backendLoadVal backendLoad
        rw [hdocs]
        rfl
      simp only [hbv] at h
      rcases hadd : s.addRows n docs c with ⟨sm, cm, resm⟩
      rw [hadd] at h
      cases resm with
      | error e =>
        have hcontra : (sm, cm, Except.error (ε := Err) (α := Unit) e)
            = (s', c', (Except.ok () : Except Err Unit)) := h
        simp at hcontra
      | ok u =>
        obtain ⟨⟩ := u
        replace h : TableStore.loadGroupFiles sm n t0 b rest cm
            = (s', c', .ok ()) := h
        obtain ⟨rows2a, hfinA, hframeA, hrelA⟩ :=
          addRows_spec n docs prs s t c sm cm ht hsr hinner hadd
        obtain ⟨rows2b, hfinB, hframeB, hrelB⟩ :=
          ih prsL2 sm { t with rows := t.rows ++ rows2a } cm s' c'
            hfinA hsr hrest h
        refine ⟨rows2a ++ rows2b, ?_, ?_, ?_⟩
        · rw [hfinB]
          rw [show ({ t with rows := t.rows ++ rows2a }
              : Table).rows = t.rows ++ rows2a from rfl,
            List.append_assoc]
        · intro n2 hn2
          rw [hframeB n2 hn2, hframeA n2 hn2]
        · rw [show (prs :: prsL2).flatten = prs ++ prsL2.flatten from rfl]
          exact forall2_append _ _ _ _ _ hrelA hrelB

theorem loadTable_group_step (s : TableStore) (n : String) (t : Table)
    (b : Backend) (c : Nat) (s' : TableStore) (c' : Nat)
    (ht : s.getTable? n = some t) (hsr : t.isSingleRow = false)
    (hgb : t.hasGroupBy = true)
    (idxFn : String) (hfn : t.getFilename none true = .ok idxFn)
    (index : List Val) (hblob : alget b idxFn = some (.val (.arr index)))
    (h : s.loadTable n b c = (s', c', .ok ())) :
    (t.groupByFields.getD [] = t.pkFields →
      s.loadRowFiles n t b index c = (s', c', .ok ())) ∧
    (¬(t.groupByFields.getD [] = t.pkFields) →
      ∃ groups, buildKeyGroups t index = .ok groups ∧
        s.loadGroupFiles n t b groups c = (s', c', .ok ())) := by
  unfold TableStore.loadTable at h
  simp only [ht] at h
  simp only [hsr, Bool.false_eq_true, if_false] at h
  simp only [hgb, Bool.not_true, Bool.false_eq_true, if_false] at h
  simp only [hfn] at h
  have hb2 : backendLoadVal b idxFn = .ok (.arr index) := by
    unfold backendLoadVal backendLoad
    rw [hblob]
    rfl
  simp only [hb2] at h
  constructor
  · intro heq
    rw [if_pos heq] at h
    exact h
  · intro hne
    rw [if_neg hne] at h
    cases hbg : buildKeyGroups t index with
    | error e =>
      rw [hbg] at h
      exact absurd h (by simp)
    | ok groups =>
      rw [hbg] at h
      exact ⟨groups, rfl, h⟩

theorem loadTable_frame (s : TableStore) (n : String) (b : Backend) (c : Nat)
    (s' : TableStore) (c' : Nat) (r : Except Err Unit)
    (h : s.loadTable n b c = (s', c', r)) :
    ∀ n2, n2 ≠ n → s'.getTable? n2 = s.getTable? n2 := by
  intro n2 hn2
  unfold TableStore.loadTable at h
  cases hl : s.getTable? n with
  | none =>
    rw [hl] at h
    cases h
    rfl
  | some t =>
    simp only [hl] at h
    cases hsr : t.isSingleRow with
    | true =>
      simp only [hsr] at h
      simp only [if_true] at h
      cases hfn : t.getFilename none false with
      | error e =>
        simp only [hfn] at h
        cases h
        rfl
      | ok fn =>
        simp only [hfn] at h
        cases hbv : backendLoadVal b fn with
        | error e =>
          simp only [hbv] at h
          cases h
          rfl
        | ok v =>
          simp only [hbv] at h
          cases v with
          | obj doc =>
            simp only [] at h
            rcases hsa : s.storeAdd n doc false c with ⟨sm, cm, resm⟩
            simp only [hsa] at h
            have hf := storeAdd_frame s n doc false c n2 hn2
            simp only [hsa] at hf
            cases resm with
            | error e =>
              cases h
              exact hf
            | ok r0 =>
              cases h
              exact hf
          | str a => cases h; rfl
          | num a => cases h; rfl
          | bool a => cases h; rfl
          | null => cases h; rfl
          | arr a => cases h; rfl
    | false =>
      simp only [hsr] at h
      simp only [Bool.false_eq_true, if_false] at h
      cases hgbt : t.hasGroupBy with
      | false =>
        simp only [hgbt] at h
        simp only [Bool.not_false, if_true] at h
        cases hfn : t.getFilename none false with
        | error e =>
          simp only [hfn] at h
          cases h
          rfl
        | ok fn =>
          simp only [hfn] at h
          cases hbv : backendLoadVal b fn with
          | error e =>
            simp only [hbv] at h
            cases h
            rfl
          | ok v =>
            simp only [hbv] at h
            cases v with
            | arr rows =>
              simp only [] at h
              have hf := addRows_frame n rows s c n2 hn2
              rw [h] at hf
              exact hf
            | str a => cases h; rfl
            | num a => cases h; rfl
            | bool a => cases h; rfl
            | null => cases h; rfl
            | obj a => cases h; rfl
      | true =>
        simp only [hgbt] at h
        simp only [Bool.not_true, Bool.false_eq_true, if_false] at h
        cases hfn : t.getFilename none true with
        | error e =>
          simp only [hfn] at h
          cases h
          rfl
        | ok idxFn =>
          simp only [hfn] at h
          cases hbv : backendLoadVal b idxFn with
          | error e =>
            simp only [hbv] at h
            cases h
            rfl
          | ok v =>
            simp only [hbv] at h
            cases v with
            | arr index =>
              simp only [] at h
              by_cases heq : t.groupByFields.getD [] = t.pkFields
              · rw [if_pos heq] at h
                have hf := loadRowFiles_frame n t b index s c n2 hn2
                rw [h] at hf
                exact hf
              · rw [if_neg heq] at h
                cases hbg : buildKeyGroups t index with
                | error e =>
                  simp only [hbg] at h
                  cases h
                  rfl
                | ok groups =>
                  simp only [hbg] at h
                  have hf := loadGroupFiles_frame n t b groups s c n2 hn2
                  rw [h] at hf
                  exact hf
            | str a => cases h; rfl
            | num a => cases h; rfl
            | bool a => cases h; rfl
            | null => cases h; rfl
            | obj a => cases h; rfl

theorem loadTable_plain_spec (s : TableStore) (n : String) (t : Table)
    (b : Backend) (c : Nat) (s' : TableStore) (c' : Nat)
    (ht : s.getTable? n = some t) (hsr : t.isSingleRow = false)
    (hgb : t.hasGroupBy = false)
    (fn : String) (hfn : t.getFilename none false = .ok fn)
    (docs : List Val) (hblob : alget b fn = some (.val (.arr docs)))
    (h : s.loadTable n b c = (s', c', .ok ())) :
    TableStore.addRows s n docs c = (s', c', .ok ()) := by
  unfold TableStore.loadTable at h
  simp only [ht] at h
  simp only [hsr, Bool.false_eq_true, if_false] at h
  rw [hgb] at h
  simp only [Bool.not_false, if_true] at h
  simp only [hfn] at h
  have hb2 : backendLoadVal b fn = .ok (.arr docs) := by
    unfold backendLoadVal backendLoad
    rw [hblob]
    rfl
  simp only [hb2] at h
  exact h

theorem loadTable_single_spec (s : TableStore) (n : String) (t : Table)
    (b : Backend) (c : Nat) (s' : TableStore) (c' : Nat)
    (ht : s.getTable? n = some t) (hsr : t.isSingleRow = true)
    (fn : String) (hfn : t.getFilename none false = .ok fn)
    (doc : Row) (hblob : alget b fn = some (.val (.obj doc)))
    (h : s.loadTable n b c = (s', c', .ok ())) :
    ∃ r0, s.storeAdd n doc false c = (s', c', .ok r0) := by
  unfold TableStore.loadTable at h
  simp only [ht] at h
  simp only [hsr, if_true] at h
  simp only [hfn] at h
  have hb2 : backendLoadVal b fn = .ok (.obj doc) := by
    unfold backendLoadVal backendLoad
    rw [hblob]
    rfl
  simp only [hb2] at h
  rcases hsa : s.storeAdd n doc false c with ⟨sm, cm, resm⟩
  simp only [hsa] at h
  cases resm with
  | error e =>
    have hcontra : (sm, cm, Except.error (ε := Err) (α := Unit) e)
        = (s', c', (Except.ok () : Except Err Unit)) := h
    simp at hcontra
  | ok r0 =>
    replace h : (sm, cm, (Except.ok () : Except Err Unit))
        = (s', c', .ok ()) := h
    simp only [Prod.mk.injEq] at h
    obtain ⟨h1, h2, -⟩ := h
    exact ⟨r0, by rw [h1, h2]⟩

theorem loadList_spec (b : Backend) :
    ∀ (ns : List String), ns.Nodup →
    ∀ (L : TableStore) (c : Nat) (L' : TableStore) (c' : Nat),
    TableStore.loadList ns L b c = (L', c', .ok ()) →
    (∀ n2, n2 ∉ ns → L'.getTable? n2 = L.getTable? n2) ∧
    (∀ n ∈ ns, ∃ c1 c2 s1 s2,
      s1.getTable? n = L.getTable? n ∧
      TableStore.loadTable s1 n b c1 = (s2, c2, .ok ()) ∧
      L'.getTable? n = s2.getTable? n) := by
  intro ns
  induction ns with
  | nil =>
    intro hnd L c L' c' h
    simp only [TableStore.loadList, Prod.mk.injEq] at h
    obtain ⟨h1, -, -⟩ := h
    exact ⟨fun n2 _ => by rw [← h1], fun n hn => absurd hn (List.not_mem_nil n)⟩
  | cons n ns ih =>
    intro hnd L c L' c' h
    rw [List.nodup_cons] at hnd
    obtain ⟨hnmem, hndrest⟩ := hnd
    unfold TableStore.loadList at h
    rcases hlt : L.loadTable n b c with ⟨s2, c2, res⟩
    simp only [hlt] at h
    cases res with
    | error e =>
      have hcontra : (s2, c2, Except.error (ε := Err) (α := Unit) e)
          = (L', c', (Except.ok () : Except Err Unit)) := h
      simp at hcontra
    | ok u =>
      obtain ⟨⟩ := u
      replace h : TableStore.loadList ns s2 b c2 = (L', c', .ok ()) := h
      have hframe : ∀ n2, n2 ≠ n → s2.getTable? n2 = L.getTable? n2 :=
        loadTable_frame L n b c s2 c2 _ hlt
      obtain ⟨ihF, ihP⟩ := ih hndrest s2 c2 L' c' h
      constructor
      · intro n2 hn2
        rw [List.mem_cons, not_or] at hn2
        rw [ihF n2 hn2.2, hframe n2 hn2.1]
      · intro nn hnn
        rcases List.mem_cons.mp hnn with hh | hh
        · refine ⟨c, c2, L, s2, rfl, ?_, ?_⟩
          · rw [hh]
            exact hlt
          · rw [hh]
            exact ihF n hnmem
        · obtain ⟨c1x, c2x, s1x, s2x, he1, he2, he3⟩ := ihP nn hh
          exact ⟨c1x, c2x, s1x, s2x,
            he1.trans (hframe nn (fun hh2 => hnmem (hh2 ▸ hh))), he2, he3⟩

theorem forall2_imp_of_mem {α β : Type} (R S : α → β → Prop) :
    ∀ (l1 : List α) (l2 : List β),
    (∀ a ∈ l1, ∀ b, R a b → S a b) →
    List.Forall₂ R l1 l2 → List.Forall₂ S l1 l2 := by
  intro l1
  induction l1 with
  | nil =>
    intro l2 himp h
    cases h
    exact List.Forall₂.nil
  | cons a l1 ih =>
    intro l2 himp h
    cases h
    next b l2 hab hrest =>
      exact List.Forall₂.cons
        (himp a (List.mem_cons_self a l1) b hab)
        (ih l2 (fun x hx => himp x (List.mem_cons_of_mem a hx)) hrest)

/-- C3 witness: the amended idempotence law applied to the concrete
double save of the minimal store. -/
theorem saveToBackend_idempotent_nonSystem_witness :
    ∃ m1 m2, wSave.1.metaRow = .ok m1 ∧ wSave2.1.metaRow = .ok m2 ∧
      alget m2 "version" = alget m1 "version" ∧
      ∀ n t, wStore.getTable? n = some t → t.isSystemTable = false →
        recordedChecksum m2 n = recordedChecksum m1 n :=
  saveToBackend_idempotent_nonSystem wStore wMetaTable "" wMetaRow [] [] 5
    rfl rfl rfl (by decide) (by decide) 7 0 rfl rfl (by decide)
    wSave.1 wSave.2.1 wSave.2.2.1 rfl
    wSave2.1 wSave2.2.1 wSave2.2.2.1 rfl

/-- C1 (amended): the round-trip law holds for the NON-SYSTEM tables: for
a well-formed populated store whose tables have pairwise-disjoint,
internally duplicate-free write sets (none claiming the definition
document's name), and whose non-system rows sit under their own canonical
keys with duplicate-free fields covering the declared default keys, a
successful `save_to_backend` followed by a successful `load_from_backend`
into any store yields, for every non-system table, a table holding the
same row set (field order ignored) — whichever persistence layout the
table uses: single-row document, all rows in one document, row per file,
or grouped row files.  The system `#tsmeta` table is exempt: its persisted
document is serialized before its own metadata record is rewritten (see
the counterexample). -/
theorem roundTrip_nonSystem_rowSets
    (s : TableStore) (mt : Table) (k0 : String) (m : Row)
    (rest0 : List (String × Row)) (b : Backend) (c : Nat)
    (hmt : s.getTable? "#tsmeta" = some mt)
    (hmtsys : mt.isSystemTable = true)
    (hmtsr : mt.isSingleRow = true)
    (hrows : mt.rows = (k0, m) :: rest0)
    (hnm : ∀ p ∈ s.tables, p.2.name = p.1)
    (hnd : (s.tables.map (·.1)).Nodup)
    (hfnW : ∀ p ∈ s.tables, ∀ q ∈ s.tables, p.1 ≠ q.1 →
      ∀ fn ∈ p.2.writtenNames, fn ∉ q.2.writtenNames)
    (hfnN : ∀ p ∈ s.tables, (p.2.writtenNames).Nodup)
    (hTsdef : ∀ p ∈ s.tables, "#tsdef.json" ∉ p.2.writtenNames)
    (hwf : ∀ p ∈ s.tables, p.2.isSystemTable = false →
      (∀ kr ∈ p.2.rows, ((kr.2.map (·.1)).Nodup) ∧
        (∀ q ∈ p.2.defaultValues, (alget kr.2 q.1).isSome) ∧
        p.2.canonicalizeKey kr.2 = .ok kr.1) ∧
      (p.2.isSingleRow = true → ∃ r, p.2.rows = [("", r)]))
    (s1 : TableStore) (b1 : Backend) (c1 : Nat)
    (hsave : s.saveToBackend b c = (s1, b1, c1, .ok ()))
    (L0 : TableStore) (cL : Nat) (LS : TableStore) (cL2 : Nat)
    (hload : TableStore.loadFromBackend L0 b1 cL = (LS, cL2, .ok ())) :
    ∀ n t, s.getTable? n = some t → t.isSystemTable = false →
      ∃ tL, LS.getTable? n = some tL ∧
        sameRowSet (t.rows.map (·.2)) (tL.rows.map (·.2)) := by
  have hmt1 : ({ s with tableorder := s.tables.map (·.1) } :
      TableStore).getTable? "#tsmeta" = some mt := hmt
  have hself : ({ s with tableorder := s.tables.map (·.1) } :
      TableStore).setMetaRow m = { s with tableorder := s.tables.map (·.1) } :=
    setMetaRow_self _ mt k0 m rest0 hmt1 hrows
  have hmr1 : ({ s with tableorder := s.tables.map (·.1) } :
      TableStore).metaRow = .ok m := by
    rw [← hself]
    exact metaRow_setMetaRow _ mt k0 m rest0 hmt1 hrows m
  have hndU : ((s.tables.filter (fun p => !p.2.isSystemTable)).map
      (·.1)).Nodup :=
    List.Nodup.sublist ((List.filter_sublist _).map _) hnd
  have hndS : ((s.tables.filter (fun p => p.2.isSystemTable)).map
      (·.1)).Nodup :=
    List.Nodup.sublist ((List.filter_sublist _).map _) hnd
  have hnotSys : ∀ nX tX, s.getTable? nX = some tX →
      tX.isSystemTable = false →
      nX ∉ (s.tables.filter (fun p => p.2.isSystemTable)).map (·.1) := by
    intro nX tX hgX husrX hmemX
    obtain ⟨q, hqf, hq1⟩ := List.mem_map.mp hmemX
    obtain ⟨qn, qt⟩ := q
    rw [List.mem_filter] at hqf
    obtain ⟨hqmem, hqsys⟩ := hqf
    have hqsys1 : qt.isSystemTable = true := hqsys
    have hq1n : qn = nX := hq1
    have hq2 : alget s.tables qn = some qt :=
      alget_of_mem_nodup s.tables qn qt hnd hqmem
    rw [hq1n] at hq2
    replace hgX : alget s.tables nX = some tX := hgX
    rw [hgX] at hq2
    injection hq2 with hq3
    rw [← hq3] at hqsys1
    rw [husrX] at hqsys1
    exact nomatch hqsys1
  have hmemUser : ∀ nX tX, s.getTable? nX = some tX →
      tX.isSystemTable = false →
      nX ∈ (s.tables.filter (fun p => !p.2.isSystemTable)).map (·.1) := by
    intro nX tX hgX husrX
    exact List.mem_map.mpr ⟨(nX, tX),
      List.mem_filter.mpr ⟨mem_of_alget _ _ _ hgX, by rw [husrX]; rfl⟩, rfl⟩
  have hTname : ∀ nX tX, s.getTable? nX = some tX →
      tX.isSystemTable = false → nX ≠ "#tsmeta" := by
    intro nX tX hgX husrX hh
    rw [hh, hmt] at hgX
    injection hgX with hg2
    rw [← hg2, hmtsys] at husrX
    exact nomatch husrX
  simp only [TableStore.saveToBackend, TableStore.getDefinition] at hsave
  simp only [hmr1] at hsave
  obtain ⟨lmv, hlmv⟩ : ∃ lmv, alget m "last_modified" = some lmv := by
    cases hx : alget m "last_modified" with
    | none =>
      rw [hx] at hsave
      exact absurd hsave (by simp)
    | some lmv => exact ⟨lmv, rfl⟩
  simp only [hlmv] at hsave
  split at hsave
  · exact absurd hsave (by simp)
  next s2 b2 c2 hequ =>
    rw [← hself] at hequ
    obtain ⟨m2, hs2, hc2, hkeys2, hrco2, hproc2, hdisj2⟩ :=
      saveList_spec _ mt k0 m rest0 hmt1 hrows hmtsys hnm
        ((s.tables.filter (fun p => !p.2.isSystemTable)).map (·.1)) hndU
        m _ c s2 b2 c2 hequ
    obtain ⟨uF, uW⟩ :=
      saveList_backend_spec _ mt k0 m rest0 hmt1 hrows hmtsr
        ((s.tables.filter (fun p => !p.2.isSystemTable)).map (·.1)) hndU
        m _ c s2 b2 c2 hequ
    have hmr2 : s2.metaRow = .ok m2 := by
      rw [hs2]
      exact metaRow_setMetaRow _ mt k0 m rest0 hmt1 hrows m2
    simp only [hmr2] at hsave
    obtain ⟨lmv2, hlmv2⟩ : ∃ v2, alget m2 "last_modified" = some v2 := by
      cases hx : alget m2 "last_modified" with
      | none =>
        rw [hx] at hsave
        exact absurd hsave (by simp)
      | some v2 => exact ⟨v2, rfl⟩
    simp only [hlmv2] at hsave
    obtain ⟨m3, hsys⟩ : ∃ m3, TableStore.saveList
        ((s.tables.filter (fun p => p.2.isSystemTable)).map (·.1))
        (({ s with tableorder := s.tables.map (·.1) } :
          TableStore).setMetaRow m3) b2 c2 = (s1, b1, c1, .ok ()) := by
      by_cases hb2 : lmv2 ≠ lmv
      · rw [if_pos hb2] at hsave
        cases hv2 : alget m2 "version" with
        | none =>
          rw [hv2] at hsave
          exact absurd hsave (by simp)
        | some vv =>
          rw [hv2] at hsave
          cases vv with
          | num vi =>
            simp only [] at hsave
            refine ⟨alset m2 "version" (.num (vi + 1)), ?_⟩
            rw [← setMetaRow_setMetaRow _ mt k0 m rest0 hmt1 hrows m2, ← hs2]
            exact hsave
          | str a => exact absurd hsave (by simp)
          | bool a => exact absurd hsave (by simp)
          | null => exact absurd hsave (by simp)
          | arr a => exact absurd hsave (by simp)
          | obj a => exact absurd hsave (by simp)
      · rw [if_neg hb2] at hsave
        simp only [] at hsave
        refine ⟨m2, ?_⟩
        rw [← hs2]
        exact hsave
    obtain ⟨sF, sW⟩ :=
      saveList_backend_spec _ mt k0 m rest0 hmt1 hrows hmtsr
        ((s.tables.filter (fun p => p.2.isSystemTable)).map (·.1)) hndS
        m3 _ c2 s1 b1 c1 hsys
    have hUserFile : ∀ nX tX, s.getTable? nX = some tX →
        tX.isSystemTable = false →
        ∀ files cs, tX.saveTableData = .ok (files, cs) →
        ∀ fn data, (fn, data) ∈ files →
        alget b1 fn = some (.val data) := by
      intro nX tX hgX husrX files cs hsd fn data hmemF
      have hWX : tX.writtenNames = files.map (·.1) :=
        writtenNames_eq tX files cs hsd
      have hfnMem : fn ∈ tX.writtenNames := by
        rw [hWX]
        exact List.mem_map.mpr ⟨(fn, data), hmemF, rfl⟩
      have hndF : (files.map (·.1)).Nodup := by
        have hh := hfnN (nX, tX) (mem_of_alget _ _ _ hgX)
        rw [hWX] at hh
        exact hh
      have hnoOther : ∀ n2, n2 ≠ nX → ∀ t2, s.getTable? n2 = some t2 →
          fn ∉ t2.writtenNames := by
        intro n2 hne t2 ht2
        exact hfnW (nX, tX) (mem_of_alget _ _ _ hgX) (n2, t2)
          (mem_of_alget _ _ _ ht2) (fun hh => hne hh.symm) fn hfnMem
      have hb2fn : alget b2 fn = some (.val data) := by
        refine uW nX (hmemUser nX tX hgX husrX) (hTname nX tX hgX husrX) tX hgX
          files cs hsd hndF fn data hmemF ?_
        intro n2 hn2 hne t2 ht2
        replace ht2 : s.getTable? n2 = some t2 := ht2
        exact hnoOther n2 hne t2 ht2
      have hnoS : ∀ n2 ∈ (s.tables.filter
          (fun p => p.2.isSystemTable)).map (·.1), ∀ t2,
          ({ s with tableorder := s.tables.map (·.1) } :
            TableStore).getTable? n2 = some t2 →
          fn ∉ t2.writtenNames := by
        intro n2 hn2 t2 ht2
        replace ht2 : s.getTable? n2 = some t2 := ht2
        have hneq : n2 ≠ nX := by
          intro hh
          exact hnotSys nX tX hgX husrX (hh ▸ hn2)
        exact hnoOther n2 hneq t2 ht2
      rw [sF fn hnoS]
      exact hb2fn
    have hnoTs : ∀ n2 t2,
        ({ s with tableorder := s.tables.map (·.1) } :
          TableStore).getTable? n2 = some t2 →
        "#tsdef.json" ∉ t2.writtenNames := by
      intro n2 t2 ht2
      replace ht2 : s.getTable? n2 = some t2 := ht2
      exact hTsdef (n2, t2) (mem_of_alget _ _ _ ht2)
    have hTsdefB : alget b1 "#tsdef.json" = some (Blob.defn
        (s.tables.map (fun p => (p.1, { p.2 with rows := [] })))
        (s.tables.map (·.1)) s.origin) := by
      rw [sF "#tsdef.json" (fun n2 _ t2 ht2 => hnoTs n2 t2 ht2),
          uF "#tsdef.json" (fun n2 _ t2 ht2 => hnoTs n2 t2 ht2)]
      exact alget_alset_self _ _ _
    unfold TableStore.loadFromBackend at hload
    have hbl : backendLoad b1 "#tsdef.json" = .ok (Blob.defn
        (s.tables.map (fun p => (p.1, { p.2 with rows := [] })))
        (s.tables.map (·.1)) s.origin) := by
      unfold backendLoad
      rw [hTsdefB]
      rfl
    simp only [hbl] at hload
    cases hinit : L0.initFromDefinition (Blob.defn
        (s.tables.map (fun p => (p.1, { p.2 with rows := [] })))
        (s.tables.map (·.1)) s.origin) with
    | error e =>
      simp only [hinit] at hload
      exact absurd hload (by simp)
    | ok L1 =>
      simp only [hinit] at hload
      simp only [Bool.false_eq_true, if_false] at hload
      have hmaps : ((s.tables.map (fun p =>
          (p.1, { p.2 with rows := [] }))).map (·.1))
          = s.tables.map (·.1) := by
        rw [List.map_map]
        rfl
      rw [← hmaps] at hinit
      have hndL : ((s.tables.map (fun p =>
          (p.1, { p.2 with rows := [] }))).map (·.1)).Nodup := by
        rw [hmaps]
        exact hnd
      have hL1 := initFromDefinition_ok L0 _ s.origin hndL L1 hinit
      subst hL1
      replace hload : TableStore.loadList
          ((s.tables.map (fun p => (p.1, { p.2 with rows := [] }))).map (·.1))
          ({ tables := s.tables.map (fun p => (p.1, { p.2 with rows := [] })),
             tableorder := (s.tables.map (fun p =>
               (p.1, { p.2 with rows := [] }))).map (·.1),
             origin := "backend" } : TableStore) b1 cL = (LS, cL2, .ok ()) :=
        hload
      obtain ⟨loadF, loadP⟩ := loadList_spec b1
        ((s.tables.map (fun p => (p.1, { p.2 with rows := [] }))).map (·.1))
        hndL
        ({ tables := s.tables.map (fun p => (p.1, { p.2 with rows := [] })),
           tableorder := (s.tables.map (fun p =>
             (p.1, { p.2 with rows := [] }))).map (·.1),
           origin := "backend" } : TableStore)
        cL LS cL2 hload
      intro n t hg husr
      have hnmeta := hTname n t hg husr
      have hnMem : n ∈ (s.tables.map (fun p =>
          (p.1, { p.2 with rows := [] }))).map (·.1) := by
        rw [hmaps]
        exact List.mem_map.mpr ⟨(n, t), mem_of_alget _ _ _ hg, rfl⟩
      obtain ⟨ca, cb, sA, sB, hAeq, hAload, hAfin⟩ := loadP n hnMem
      have htA : sA.getTable? n = some { t with rows := [] } := by
        rw [hAeq]
        show alget (s.tables.map (fun p => (p.1, Table.stripRows p.2))) n
          = some (Table.stripRows t)
        rw [alget_map_snd, show alget s.tables n = some t from hg]
        rfl
      obtain ⟨hwfRows, hwfSingle⟩ := hwf (n, t) (mem_of_alget _ _ _ hg) husr
      obtain ⟨files, cs, hsd⟩ :
          ∃ files cs, t.saveTableData = .ok (files, cs) := by
        obtain ⟨files, cs, hsd, -⟩ := hproc2 n (hmemUser n t hg husr) hnmeta t hg
        exact ⟨files, cs, hsd⟩
      cases hsr : t.isSingleRow with
      | true =>
        obtain ⟨r, hrowsT⟩ := hwfSingle hsr
        obtain ⟨fn, hfnT, hfl, -⟩ := saveTableData_single t hsr files cs hsd
        have hdoc : t.getSingle.getD [] = r := by
          rw [Table.getSingle, hrowsT]
          rfl
        have hblob : alget b1 fn = some (.val (.obj r)) := by
          have hh := hUserFile n t hg husr files cs hsd fn
            (.obj (t.getSingle.getD []))
            (by rw [hfl]; exact List.mem_singleton.mpr rfl)
          rw [hdoc] at hh
          exact hh
        obtain ⟨r0, hsadd⟩ := loadTable_single_spec sA n { t with rows := [] }
          b1 ca sB cb htA hsr fn ((getFilename_rows_irrel t []).trans hfnT)
          r hblob hAload
        obtain ⟨hBtab, -, hr0⟩ := storeAdd_single_ok sA n { t with rows := [] }
          r ca sB cb r0 htA hsr hsadd
        obtain ⟨hndr, hcovr, -⟩ := hwfRows ("", r)
          (by rw [hrowsT]; exact List.mem_singleton.mpr rfl)
        have heqv : ∀ k, alget r0 k = alget r k := by
          intro k
          rw [hr0]
          exact alupdate_defaults_eqv t.defaultValues ca r hndr hcovr k
        refine ⟨{ t with rows := [("", r0)] }, ?_, ?_⟩
        · rw [hAfin, hBtab]
        · rw [hrowsT]
          constructor
          · intro rr hrr
            simp only [List.map_cons, List.map_nil, List.mem_singleton] at hrr
            subst hrr
            exact ⟨r0, by simp, fun k => (heqv k).symm⟩
          · intro rr hrr
            simp only [List.map_cons, List.map_nil, List.mem_singleton] at hrr
            subst hrr
            exact ⟨r, by simp, heqv⟩
      | false =>
        cases hgbt : t.hasGroupBy with
        | false =>
          obtain ⟨fn, orows, hfnT, hor, hfl, -⟩ :=
            saveTableData_plain t hsr hgbt files cs hsd
          have hblob : alget b1 fn = some (.val (.arr (orows.map Val.obj))) := by
            apply hUserFile n t hg husr files cs hsd
            rw [hfl]
            exact List.mem_singleton.mpr rfl
          have hadd := loadTable_plain_spec sA n { t with rows := [] } b1 ca sB cb
            htA hsr hgbt fn
            ((getFilename_rows_irrel t []).trans hfnT)
            (orows.map Val.obj) hblob hAload
          have hpairsrel := mapM_ok_forall2 t.orderlyRow
            ((sortRowsByKey t.rows).map (·.2)) orows hor
          rw [List.forall₂_map_left_iff] at hpairsrel
          have hrel : List.Forall₂ (fun (p : String × Row) (v : Val) =>
              ∃ d, v = .obj d ∧ ((d.map (·.1)).Nodup) ∧
                (∀ k, alget d k = alget p.2 k) ∧
                (∀ q ∈ ({ t with rows := [] } : Table).defaultValues,
                  (alget d q.1).isSome) ∧
                ({ t with rows := [] } : Table).canonicalizeKey p.2 = .ok p.1)
              (sortRowsByKey t.rows) (orows.map Val.obj) := by
            rw [List.forall₂_map_right_iff]
            refine forall2_imp_of_mem _ _ _ _ ?_ hpairsrel
            intro p hp o horow
            have hpmemrows : p ∈ t.rows :=
              (sortRowsByKey_perm t.rows).mem_iff.mp hp
            obtain ⟨hndp, hcovp, hcanp⟩ := hwfRows p hpmemrows
            obtain ⟨heqv, hndo⟩ := orderlyRow_spec t p.2 o hndp horow
            exact ⟨o, rfl, hndo, heqv,
              fun q hq => by rw [heqv q.1]; exact hcovp q hq, hcanp⟩
          obtain ⟨rows2, hfinT, -, hrel2⟩ := addRows_spec n (orows.map Val.obj)
            (sortRowsByKey t.rows) sA { t with rows := [] } ca sB cb
            htA hsr hrel hadd
          refine ⟨{ t with rows := rows2 }, ?_, ?_⟩
          · rw [hAfin, hfinT]
            rfl
          · exact sameRowSet_trans _ _ _
              (sameRowSet_of_perm _ _ (sortRowsByKey_perm t.rows).symm)
              (sameRowSet_of_forall2 _ _ hrel2)
        | true =>
          obtain ⟨fl, hgbf, -⟩ := hasGroupBy_some t hgbt
          have hsurv : ∀ fn data, (fn, data) ∈ files →
              alget b1 fn = some (.val data) :=
            fun fn data hm => hUserFile n t hg husr files cs hsd fn data hm
          by_cases hgbeq : t.groupByFields.getD [] = t.pkFields
          · -- row-per-file layout
            obtain ⟨files0, index, idxFn, hf0, hidxM, hidxFn, hflEq⟩ :=
              saveTableData_rowPerFile t hsr hgbt hgbeq files cs hsd
            have hflpk : fl = t.pkFields := by
              rw [hgbf] at hgbeq
              exact hgbeq
            have hblobIdx : alget b1 idxFn
                = some (.val (.arr (index.map Val.obj))) := by
              refine hsurv idxFn _ ?_
              rw [hflEq]
              exact List.mem_append_right _ (List.mem_singleton.mpr rfl)
            have hrowF := rowFileMapM_extract t _ files0 hf0
            have hidxF := mapM_ok_forall2 t.pkProjection
              ((sortRowsByKey t.rows).map (·.2)) index hidxM
            rw [List.forall₂_map_left_iff] at hrowF hidxF
            have hrelLoad : List.Forall₂ (fun (p : String × Row) (v : Val) =>
                ∃ pk, v = .obj pk ∧
                  ∃ fn, Table.getFilename { t with rows := [] } (some pk) false
                      = .ok fn ∧
                    ∃ d, alget b1 fn = some (.val (.obj d)) ∧
                      ((d.map (·.1)).Nodup) ∧
                      (∀ k, alget d k = alget p.2 k) ∧
                      (∀ q ∈ ({ t with rows := [] } : Table).defaultValues,
                        (alget d q.1).isSome) ∧
                      ({ t with rows := [] } : Table).canonicalizeKey p.2
                        = .ok p.1)
                (sortRowsByKey t.rows) (index.map Val.obj) := by
              rw [List.forall₂_map_right_iff]
              refine forall2_imp_of_mem _ _ _ _ ?_ hidxF
              intro p hp pk hproj
              have hpmem : p ∈ t.rows :=
                (sortRowsByKey_perm t.rows).mem_iff.mp hp
              obtain ⟨hndp, hcovp, hcanp⟩ := hwfRows p hpmem
              obtain ⟨file, hfilemem, fnp, orowp, hfnp, horp, hfileEq⟩ :=
                forall2_mem_left _ _ _ hrowF p hp
              obtain ⟨horEqv, hndo⟩ := orderlyRow_spec t p.2 orowp hndp horp
              have hkeyRow : t.canonicalizeKey p.2 true = .ok p.1 := by
                rw [canonicalizeKey_true_eq_plain t hsr
                  (by rw [hgbf, hflpk]) p.2]
                exact hcanp
              obtain ⟨hndpk, hsubpk, hhaspk, hnepk⟩ :=
                pkProjection_spec t p.2 pk hproj
              have hpkfne : t.pkFields ≠ [] :=
                pkFields_ne_nil_of_ok t hsr p.2 p.1 hcanp
              have hpkne : pk.isEmpty = false := hnepk hpkfne
              have hkeyPk : t.canonicalizeKey pk true = .ok p.1 := by
                refine (canonicalizeKey_true_congr t hsr fl hgbf pk p.2
                  ?_).trans ?_
                · intro f hf
                  rw [hflpk] at hf
                  have hh := hhaspk f hf
                  cases hv : alget pk f with
                  | none =>
                    rw [hv] at hh
                    simp at hh
                  | some v =>
                    rw [hsubpk f v hv]
                · rw [hkeyRow]
              have hrowne : p.2.isEmpty = false :=
                row_nonempty_of_canonical t hsr p.2 p.1 hcanp
              have hfnRow := getFilename_group_ok t hgbt p.2 hrowne p.1 hkeyRow
              have hfnPk := getFilename_group_ok t hgbt pk hpkne p.1 hkeyPk
              have hfnEq : t.getFilename (some pk) false = .ok fnp := by
                rw [hfnp] at hfnRow
                injection hfnRow with hfe
                rw [hfnPk, hfe]
              have hfmem : (fnp, Val.obj orowp) ∈ files := by
                rw [hflEq]
                refine List.mem_append_left _ ?_
                rw [← hfileEq]
                exact hfilemem
              have hblobp : alget b1 fnp = some (.val (.obj orowp)) :=
                hsurv fnp _ hfmem
              refine ⟨pk, rfl, fnp, ?_, orowp, hblobp, hndo, horEqv, ?_, ?_⟩
              · rw [getFilename_rows_irrel_row t [] pk]
                exact hfnEq
              · intro q hq
                rw [horEqv q.1]
                exact hcovp q hq
              · exact hcanp
            have hstep := loadTable_group_step sA n { t with rows := [] } b1
              ca sB cb htA hsr hgbt idxFn
              ((getFilename_rows_irrel_idx t []).trans hidxFn)
              (index.map Val.obj) hblobIdx hAload
            have hload2 := hstep.1 hgbeq
            obtain ⟨rows2, hfinT, -, hrel2⟩ := loadRowFiles_spec n b1
              { t with rows := [] } (index.map Val.obj) (sortRowsByKey t.rows)
              sA { t with rows := [] } ca sB cb htA hsr hrelLoad hload2
            refine ⟨{ t with rows := rows2 }, ?_, ?_⟩
            · rw [hAfin, hfinT]
              rfl
            · exact sameRowSet_trans _ _ _
                (sameRowSet_of_perm _ _ (sortRowsByKey_perm t.rows).symm)
                (sameRowSet_of_forall2 _ _ hrel2)
          · -- grouped layout
            obtain ⟨groupsS, gfiles, index, idxFn, hgrp, hgf, hidxM, hidxFn,
              hflEq⟩ := saveTableData_grouped t hsr hgbt hgbeq files cs hsd
            have hblobIdx : alget b1 idxFn
                = some (.val (.arr (index.map Val.obj))) := by
              refine hsurv idxFn _ ?_
              rw [hflEq]
              exact List.mem_append_right _ (List.mem_singleton.mpr rfl)
            obtain ⟨kos, hkos, hgrpEq⟩ :=
              groupFold_extract t ((sortRowsByKey t.rows).map (·.2)) []
                groupsS hgrp
            rw [List.forall₂_map_right_iff] at hkos
            have hidxF := mapM_ok_forall2 t.pkProjection
              ((sortRowsByKey t.rows).map (·.2)) index hidxM
            rw [List.forall₂_map_left_iff] at hidxF
            have hstep := loadTable_group_step sA n { t with rows := [] } b1
              ca sB cb htA hsr hgbt idxFn
              ((getFilename_rows_irrel_idx t []).trans hidxFn)
              (index.map Val.obj) hblobIdx hAload
            obtain ⟨groupsL, hbkg, hload2⟩ := hstep.2 hgbeq
            replace hbkg : (index.map Val.obj).foldlM
                (fun (acc : List (String × Row)) pkV =>
                  match pkV with
                  | .obj pk => do
                    let key ← t.canonicalizeKey pk true
                    pure (alset acc key pk)
                  | _ => .error .typeErr) [] = .ok groupsL := hbkg
            obtain ⟨kps, hkps, hBEq⟩ :=
              buildKeyGroups_extract t (index.map Val.obj) [] groupsL hbkg
            rw [List.forall₂_map_right_iff] at hkps
            have hkpsI : List.Forall₂ (fun (kp : String × Row) (pk : Row) =>
                pk = kp.2 ∧ t.canonicalizeKey kp.2 true = .ok kp.1)
                kps index := by
              refine forall2_imp_of_mem _ _ _ _ ?_ hkps
              intro kp hkp pk hrel
              obtain ⟨h1, h2⟩ := hrel
              refine ⟨?_, h2⟩
              injection h1 with h1
            have hseqKps : List.Forall₂
                (fun (p : String × Row) (kp : String × Row) =>
                  t.pkProjection p.2 = .ok kp.2 ∧
                  t.canonicalizeKey kp.2 true = .ok kp.1)
                (sortRowsByKey t.rows) kps := by
              refine forall2_trans _ _ _ ?_ _ _ _ hidxF
                (forall2_flip _ _ _ hkpsI)
              intro p pk kp hproj hrel
              obtain ⟨h1, h2⟩ := hrel
              subst h1
              exact ⟨hproj, h2⟩
            have hkoskps : List.Forall₂
                (fun (ko : String × Row) (kp : String × Row) => ko.1 = kp.1)
                kos kps := by
              refine forall2_trans _ _ _ ?_ _ _ _ hkos hseqKps
              intro ko p kp hR hS
              obtain ⟨hkRow, hoRow⟩ := hR
              obtain ⟨hproj, hkPk⟩ := hS
              obtain ⟨-, hsubpk, -, -⟩ := pkProjection_spec t p.2 kp.2 hproj
              have hh := canonicalizeKey_true_of_sub t hsr fl hgbf p.2 kp.2
                hsubpk kp.1 hkPk
              rw [hkRow] at hh
              injection hh with hh2
            have hkeysEq : kos.map (·.1) = kps.map (·.1) :=
              forall2_map_eq (fun x : String × Row => x.1)
                (fun x : String × Row => x.1) kos kps hkoskps
            have hABkeys : groupsS.map (·.1) = groupsL.map (·.1) := by
              rw [hgrpEq, hBEq]
              exact group_alset_keys_align kos kps hkeysEq [] [] rfl
            have hAnodup : (groupsS.map (·.1)).Nodup := by
              rw [hgrpEq]
              exact groupFold_keys_nodup kos [] (by simp)
            have hAne : ∀ gA ∈ groupsS, gA.2 ≠ [] := by
              rw [hgrpEq]
              exact groupFold_vals_ne_nil kos []
                (fun g hgg => absurd hgg (List.not_mem_nil g))
            have hgfF := groupFileMapM_extract t groupsS gfiles hgf
            have hAfile : ∀ gA ∈ groupsS, ∃ fnA,
                t.getFilename (some (gA.2.head?.getD [])) false = .ok fnA ∧
                (fnA, Val.arr (gA.2.map Val.obj)) ∈ files := by
              intro gA hgA
              obtain ⟨file, hfmem, fnA, hfnA, hfeq⟩ :=
                forall2_mem_left _ _ _ hgfF gA hgA
              refine ⟨fnA, hfnA, ?_⟩
              rw [hflEq]
              refine List.mem_append_left _ ?_
              rw [← hfeq]
              exact hfmem
            have hAmemPair : ∀ gA ∈ groupsS, ∀ o ∈ gA.2, (gA.1, o) ∈ kos := by
              intro gA hgA o ho
              have hget : alget groupsS gA.1 = some gA.2 :=
                alget_of_mem_nodup groupsS gA.1 gA.2 hAnodup hgA
              rw [hgrpEq] at hget
              rcases groupFold_pair_of_mem kos [] gA.1 gA.2 hget o ho with
                hh | ⟨rs0, h0, -⟩
              · exact hh
              · rw [show alget ([] : List (String × List Row)) gA.1 = none
                  from rfl] at h0
                exact nomatch h0
            have hkosFact : ∀ ko ∈ kos, ∃ p, p ∈ t.rows ∧
                t.canonicalizeKey p.2 true = .ok ko.1 ∧
                (∀ k, alget ko.2 k = alget p.2 k) ∧
                ((ko.2.map (·.1)).Nodup) ∧
                t.canonicalizeKey p.2 = .ok p.1 ∧
                (∀ q ∈ t.defaultValues, (alget p.2 q.1).isSome) := by
              intro ko hko
              obtain ⟨p, hp, hkey, horow⟩ := forall2_mem_left _ _ _ hkos ko hko
              have hpmem : p ∈ t.rows :=
                (sortRowsByKey_perm t.rows).mem_iff.mp hp
              obtain ⟨hndp, hcovp, hcanp⟩ := hwfRows p hpmem
              obtain ⟨horEqv, hndo⟩ := orderlyRow_spec t p.2 ko.2 hndp horow
              exact ⟨p, hpmem, hkey, horEqv, hndo, hcanp, hcovp⟩
            have hAfnEnc : ∀ gA ∈ groupsS, ∃ fnA,
                t.getFilename (some (gA.2.head?.getD [])) false = .ok fnA ∧
                (fnA, Val.arr (gA.2.map Val.obj)) ∈ files ∧
                (∀ r2, r2.isEmpty = false →
                  t.canonicalizeKey r2 true = .ok gA.1 →
                  t.getFilename (some r2) false = .ok fnA) := by
              intro gA hgA
              obtain ⟨fnA, hfnA, hfmem⟩ := hAfile gA hgA
              cases hhead : gA.2 with
              | nil => exact absurd hhead (hAne gA hgA)
              | cons o0 orest =>
                have ho0mem : o0 ∈ gA.2 := by
                  rw [hhead]
                  exact List.mem_cons_self _ _
                have hpair := hAmemPair gA hgA o0 ho0mem
                obtain ⟨p0, hp0mem, hk0, hEqv0, hndo0, hcanp0, hcov0⟩ :=
                  hkosFact (gA.1, o0) hpair
                have hk0o : t.canonicalizeKey o0 true = .ok gA.1 := by
                  rw [canonicalizeKey_true_congr t hsr fl hgbf o0 p0.2
                    (fun f _ => hEqv0 f)]
                  exact hk0
                have hne0 : o0.isEmpty = false := by
                  have hpkfne := pkFields_ne_nil_of_ok t hsr p0.2 p0.1 hcanp0
                  cases hpkc : t.pkFields with
                  | nil => exact absurd hpkc hpkfne
                  | cons f frest =>
                    have hfv := canonicalizeKey_ok_has t hsr p0.2 p0.1 hcanp0 f
                      (by rw [hpkc]; simp)
                    cases hv : alget p0.2 f with
                    | none =>
                      rw [hv] at hfv
                      simp at hfv
                    | some v =>
                      refine isEmpty_false_of_alget o0 f v ?_
                      rw [hEqv0 f, hv]
                have hfnEnc := getFilename_group_ok t hgbt o0 hne0 gA.1 hk0o
                have hheadEq : gA.2.head?.getD [] = o0 := by
                  rw [hhead]
                  rfl
                rw [hheadEq] at hfnA
                rw [hfnA] at hfnEnc
                injection hfnEnc with hfe
                refine ⟨fnA, ?_, ?_, ?_⟩
                · exact hfnA
                · rw [hhead] at hfmem
                  exact hfmem
                · intro r2 hr2ne hr2k
                  have h2 := getFilename_group_ok t hgbt r2 hr2ne gA.1 hr2k
                  rw [h2, ← hfe]
            have hBmem : ∀ gB ∈ groupsL, gB ∈ kps := by
              intro gB hgB
              rw [hBEq] at hgB
              rcases alsetFold_mem kps [] gB hgB with hh | hh
              · exact absurd hh (List.not_mem_nil gB)
              · exact hh
            have hkpsFact : ∀ kp ∈ kps,
                t.canonicalizeKey kp.2 true = .ok kp.1 ∧
                kp.2.isEmpty = false := by
              intro kp hkp
              obtain ⟨p, hp, hproj, hkey⟩ :=
                forall2_mem_right _ _ _ hseqKps kp hkp
              have hpmem : p ∈ t.rows :=
                (sortRowsByKey_perm t.rows).mem_iff.mp hp
              obtain ⟨-, -, hcanp⟩ := hwfRows p hpmem
              obtain ⟨-, -, -, hnepk⟩ := pkProjection_spec t p.2 kp.2 hproj
              exact ⟨hkey, hnepk (pkFields_ne_nil_of_ok t hsr p.2 p.1 hcanp)⟩
            have hchoice : ∀ gB ∈ groupsL, ∃ prs : List (String × Row),
                ((∃ fn, Table.getFilename { t with rows := [] } (some gB.2)
                    false = .ok fn ∧
                  ∃ docs, alget b1 fn = some (.val (.arr docs)) ∧
                    List.Forall₂ (fun (p : String × Row) (v : Val) =>
                      ∃ d, v = .obj d ∧ ((d.map (·.1)).Nodup) ∧
                        (∀ k, alget d k = alget p.2 k) ∧
                        (∀ q ∈ ({ t with rows := [] } : Table).defaultValues,
                          (alget d q.1).isSome) ∧
                        ({ t with rows := [] } : Table).canonicalizeKey p.2
                          = .ok p.1) prs docs) ∧
                (∀ p ∈ prs, p ∈ t.rows)) := by
              intro gB hgB
              obtain ⟨hkeyB, hneB⟩ := hkpsFact gB (hBmem gB hgB)
              have hkeymem : gB.1 ∈ groupsS.map (·.1) := by
                rw [hABkeys]
                exact List.mem_map.mpr ⟨gB, hgB, rfl⟩
              obtain ⟨gA, hgA, hgAkey⟩ := List.mem_map.mp hkeymem
              obtain ⟨fnA, hfnA, hfmemA, hfnuniv⟩ := hAfnEnc gA hgA
              have hfnB : t.getFilename (some gB.2) false = .ok fnA := by
                refine hfnuniv gB.2 hneB ?_
                rw [hgAkey]
                exact hkeyB
              have hblobA : alget b1 fnA
                  = some (.val (.arr (gA.2.map Val.obj))) :=
                hsurv fnA _ hfmemA
              have hdocsP : ∀ v ∈ gA.2.map Val.obj, ∃ p : String × Row,
                  ((∃ d, v = .obj d ∧ ((d.map (·.1)).Nodup) ∧
                    (∀ k, alget d k = alget p.2 k) ∧
                    (∀ q ∈ t.defaultValues, (alget d q.1).isSome) ∧
                    t.canonicalizeKey p.2 = .ok p.1) ∧ p ∈ t.rows) := by
                intro v hv
                obtain ⟨o, homem, hveq⟩ := List.mem_map.mp hv
                have hpair := hAmemPair gA hgA o homem
                obtain ⟨p0, hp0mem, hk0, hEqv0, hndo0, hcanp0, hcov0⟩ :=
                  hkosFact (gA.1, o) hpair
                refine ⟨p0, ⟨o, hveq.symm, hndo0, hEqv0, ?_, hcanp0⟩, hp0mem⟩
                intro q hq
                rw [hEqv0 q.1]
                exact hcov0 q hq
              obtain ⟨prs0, hprs0⟩ := forall2_choice _ (gA.2.map Val.obj) hdocsP
              refine ⟨prs0, ⟨fnA, ?_, gA.2.map Val.obj, hblobA, ?_⟩, ?_⟩
              · rw [getFilename_rows_irrel_row t [] gB.2]
                exact hfnB
              · refine forall2_imp_of_mem _ _ _ _ ?_ hprs0
                intro p hp v hPv
                exact hPv.1
              · intro p hp
                obtain ⟨v, hvmem, hPv⟩ := forall2_mem_left _ _ _ hprs0 p hp
                exact hPv.2
            obtain ⟨prsL, hprsL⟩ := forall2_choice _ groupsL hchoice
            obtain ⟨rows2, hfinT, -, hrel2⟩ := loadGroupFiles_spec n b1
              { t with rows := [] } groupsL prsL sA { t with rows := [] }
              ca sB cb htA hsr
              (forall2_imp_of_mem _ _ _ _ (fun prs hprs gB hP => hP.1) hprsL)
              hload2
            refine ⟨{ t with rows := rows2 }, ?_, ?_⟩
            · rw [hAfin, hfinT]
              rfl
            · constructor
              · intro r hr
                rw [List.mem_map] at hr
                obtain ⟨p, hpmem, hpr⟩ := hr
                subst hpr
                have hpseq : p ∈ sortRowsByKey t.rows :=
                  (sortRowsByKey_perm t.rows).mem_iff.mpr hpmem
                obtain ⟨ko, hkomem, hkok, hkoor⟩ :=
                  forall2_mem_right _ _ _ hkos p hpseq
                obtain ⟨hndp, hcovp, hcanp⟩ := hwfRows p hpmem
                obtain ⟨hEqvKo, hndko⟩ := orderlyRow_spec t p.2 ko.2 hndp hkoor
                obtain ⟨rsA, hgetA, hkoin⟩ :=
                  groupFold_mem_of_pair kos [] ko.1 ko.2 hkomem
                rw [← hgrpEq] at hgetA
                have hgAmem : (ko.1, rsA) ∈ groupsS := mem_of_alget _ _ _ hgetA
                have hkeymemB : ko.1 ∈ groupsL.map (·.1) := by
                  rw [← hABkeys]
                  exact List.mem_map.mpr ⟨(ko.1, rsA), hgAmem, rfl⟩
                obtain ⟨gB, hgBmem, hgBkey⟩ := List.mem_map.mp hkeymemB
                obtain ⟨prs, hprsmem, hPfile, hPsub⟩ :=
                  forall2_mem_right _ _ _ hprsL gB hgBmem
                obtain ⟨fnB, hfnB, docsB, hblobB, hinnerB⟩ := hPfile
                obtain ⟨fnA, hfnA, hfmemA, hfnuniv⟩ :=
                  hAfnEnc (ko.1, rsA) hgAmem
                obtain ⟨hkeyB, hneB⟩ := hkpsFact gB (hBmem gB hgBmem)
                have hfnB2 : t.getFilename (some gB.2) false = .ok fnA := by
                  refine hfnuniv gB.2 hneB ?_
                  show t.canonicalizeKey gB.2 true = .ok ko.1
                  rw [← hgBkey]
                  exact hkeyB
                rw [getFilename_rows_irrel_row t [] gB.2] at hfnB
                rw [hfnB2] at hfnB
                injection hfnB with hfnBe
                have hblobA : alget b1 fnA
                    = some (.val (.arr (rsA.map Val.obj))) :=
                  hsurv fnA _ hfmemA
                rw [← hfnBe] at hblobB
                rw [hblobA] at hblobB
                injection hblobB with hbb
                injection hbb with hbb
                injection hbb with hbb
                have hodoc : Val.obj ko.2 ∈ docsB := by
                  rw [← hbb]
                  exact List.mem_map.mpr ⟨ko.2, hkoin, rfl⟩
                obtain ⟨p2, hp2mem, hp2rel⟩ :=
                  forall2_mem_right _ _ _ hinnerB (Val.obj ko.2) hodoc
                obtain ⟨d2, hd2eq, -, hd2eqv, -, -⟩ := hp2rel
                injection hd2eq with hd2
                have hp2join : p2 ∈ prsL.flatten := by
                  rw [List.mem_flatten]
                  exact ⟨prs, hprsmem, hp2mem⟩
                obtain ⟨q, hqmem, hqkey, hqeqv⟩ :=
                  forall2_mem_left _ _ _ hrel2 p2 hp2join
                refine ⟨q.2, List.mem_map.mpr ⟨q, hqmem, rfl⟩, ?_⟩
                intro k
                rw [← hEqvKo k, hd2, hd2eqv k, ← hqeqv k]
              · intro r hr
                rw [List.mem_map] at hr
                obtain ⟨q, hqmem, hqr⟩ := hr
                subst hqr
                obtain ⟨p2, hp2join, hqkey, hqeqv⟩ :=
                  forall2_mem_right _ _ _ hrel2 q hqmem
                rw [List.mem_flatten] at hp2join
                obtain ⟨prs, hprsmem, hp2mem⟩ := hp2join
                obtain ⟨gB, hgBmem, hPfile, hPsub⟩ :=
                  forall2_mem_left _ _ _ hprsL prs hprsmem
                have hp2rows : p2 ∈ t.rows := hPsub p2 hp2mem
                refine ⟨p2.2, List.mem_map.mpr ⟨p2, hp2rows, rfl⟩, ?_⟩
                intro k
                exact hqeqv k

/-- C1 witness: the amended round-trip law applied to the concrete
four-table store: the plain user table `u`, the grouped table `g` and the
row-per-file table `r` all survive save and reload with their row sets
intact. -/
theorem roundTrip_nonSystem_rowSets_witness :
    (∃ tL, rtLoad.1.getTable? "u" = some tL ∧
      sameRowSet (uTableRT.rows.map (·.2)) (tL.rows.map (·.2))) ∧
    (∃ tL, rtLoad.1.getTable? "g" = some tL ∧
      sameRowSet (gTableRT.rows.map (·.2)) (tL.rows.map (·.2))) ∧
    (∃ tL, rtLoad.1.getTable? "r" = some tL ∧
      sameRowSet (rTableRT.rows.map (·.2)) (tL.rows.map (·.2))) := by
  have hmain := roundTrip_nonSystem_rowSets rtStore wMetaTable "" wMetaRow []
    [] 5 rfl rfl rfl rfl (by decide) (by decide)
    (by decide) (by decide) (by decide)
    (by
      intro p hp hsys
      simp only [rtStore] at hp
      rcases List.mem_cons.mp hp with rfl | hp2
      · exact absurd hsys (by decide)
      · rcases List.mem_cons.mp hp2 with rfl | hp3
        · exact ⟨by decide, fun hsr => absurd hsr (by decide)⟩
        · rcases List.mem_cons.mp hp3 with rfl | hp4
          · exact ⟨by decide, fun hsr => absurd hsr (by decide)⟩
          · rw [List.mem_singleton] at hp4
            subst hp4
            exact ⟨by decide, fun hsr => absurd hsr (by decide)⟩)
    rtSave.1 rtSave.2.1 rtSave.2.2.1 rfl
    {} 20 rtLoad.1 rtLoad.2.1 rfl
  exact ⟨hmain "u" uTableRT rfl rfl, hmain "g" gTableRT rfl rfl,
    hmain "r" rTableRT rfl rfl⟩

end Relib
